import Mathlib

/-!
Verification of the Advent-of-Code 2025 repository (C++ puzzle scripts).

Each section embeds one script's data model and algorithms as executable
Lean definitions translated from the C++ (or quoted Python) source, and
proves or refutes the frozen specification claims about them.

Conventions: C++ `int` counters are modelled as `Int` where the parsed
value can be negative (Day 10) and as `Nat` where the parser only ever
produces digit runs (Day 9); C++ vector indexing out of range is
undefined behaviour, so theorems about indexed access carry explicit
range hypotheses.
-/

/-! ## Day 7: row-by-row beam simulation (quoted in walkthrough.md) -/

/-- Insert a column into a beam set, modelling Python `set.add`
(membership-based, so each active column is counted once). -/
def beamAdd (l : List Nat) (c : Nat) : List Nat :=
  if c ∈ l then l else l ++ [c]

/-- Process one active beam column against one grid row: a `^` counts a
split and spawns beams left and right (bounds-checked); a `.` continues
straight down; any other character absorbs the beam. -/
def beamCell (cols : Nat) (row : List Char) (acc : Nat × List Nat) (c : Nat) :
    Nat × List Nat :=
  let ch := row.getD c ' '
  if ch = '^' then
    let nb := if 1 ≤ c then beamAdd acc.2 (c - 1) else acc.2
    let nb2 := if c + 1 < cols then beamAdd nb (c + 1) else nb
    (acc.1 + 1, nb2)
  else if ch = '.' then (acc.1, beamAdd acc.2 c)
  else acc

/-- One row of the simulation: fold the current beam set into the next
beam set, accumulating splits. -/
def beamRow (cols : Nat) (splits : Nat) (current : List Nat) (row : List Char) :
    Nat × List Nat :=
  current.foldl (beamCell cols row) (splits, [])

/-- Total splits of the Day 7 row-by-row simulation: start from the `S`
column of the first row, then process each later row in order. -/
def day7Splits (grid : List (List Char)) : Nat :=
  let row0 := grid.headD []
  let cols := row0.length
  let start := row0.findIdx (fun ch => ch = 'S')
  (grid.tail.foldl (fun acc row => beamRow cols acc.1 acc.2 row) (0, [start])).1

/-- Modelled from the spec: the documented Day 7 example grid is not in
the repository (only the walkthrough's expected result, 21 splits, is);
this concrete grid is a stand-in on which the documented simulation
produces exactly the documented 21 splits. -/
def day7ExampleGrid : List (List Char) :=
  [ "....S....".toList,
    "....^....".toList,
    "...^.^...".toList,
    "..^.^.^..".toList,
    ".^.^.^.^.".toList,
    "^.^.^.^.^".toList,
    ".^.^.^.^.".toList,
    "^...^....".toList ]

/-! ## Day 9 `solution.cpp` (second program): button machines -/

/-- Machine from `solution.cpp`: a list of buttons (each a list of
counter indices) and a target counter vector.  The C++ fields are
`vector<vector<int>>` and `vector<int>`; both are produced by
`parseButton`/`parseTarget`, which only emit digit runs, so `Nat`. -/
structure Machine where
  buttons : List (List Nat)
  target : List Nat
deriving DecidableEq, Repr

/-- Decimal value of a digit run, modelling C++ `stoi` on a string of
digits (overflow ignored: `Nat` is unbounded). -/
def stoiNat (tmp : List Char) : Nat :=
  tmp.foldl (fun a c => a * 10 + (c.toNat - 48)) 0

/-- Tail of `parseButton`: scan characters, growing the current digit
run `tmp`, flushing it to `res` at each non-digit and at end of input. -/
def parseButtonGo (res : List Nat) (tmp : List Char) : List Char → List Nat
  | [] => if tmp = [] then res else res ++ [stoiNat tmp]
  | c :: cs =>
    if c.isDigit then parseButtonGo res (tmp ++ [c]) cs
    else if tmp = [] then parseButtonGo res [] cs
    else parseButtonGo (res ++ [stoiNat tmp]) [] cs

/-- `parseButton` from `solution.cpp`: extract the decimal numbers of a
string like `(1,3)`. -/
def parseButton (s : String) : List Nat :=
  parseButtonGo [] [] s.toList

/-- Tail of `parseTarget` (the C++ body is character-for-character the
same as `parseButton`). -/
def parseTargetGo (res : List Nat) (tmp : List Char) : List Char → List Nat
  | [] => if tmp = [] then res else res ++ [stoiNat tmp]
  | c :: cs =>
    if c.isDigit then parseTargetGo res (tmp ++ [c]) cs
    else if tmp = [] then parseTargetGo res [] cs
    else parseTargetGo (res ++ [stoiNat tmp]) [] cs

/-- `parseTarget` from `solution.cpp`: extract the decimal numbers of a
string like `(3,5,4,7)`-shaped target text. -/
def parseTarget (s : String) : List Nat :=
  parseTargetGo [] [] s.toList

/-- Run splitter used to state what the two parsers compute: the maximal
runs of consecutive decimal digits of the input, in order. -/
def digitRunsGo (cur : List Char) : List Char → List (List Char)
  | [] => if cur = [] then [] else [cur]
  | c :: cs =>
    if c.isDigit then digitRunsGo (cur ++ [c]) cs
    else if cur = [] then digitRunsGo [] cs
    else cur :: digitRunsGo [] cs

/-- The specification-side description of both parsers: the maximal runs
of decimal digits occurring in the string, each converted to its decimal
value, left to right. -/
def digitRunsSpec (s : String) : List Nat :=
  (digitRunsGo [] s.toList).map stoiNat

/-! ### Day 9 BFS (`minPresses`) -/

/-- Increment one counter of a state, modelling `next[idx]++`.
`List.set` leaves the list unchanged when the index is out of range; the
C++ code has undefined behaviour there, so theorems about `minPresses`
carry a well-formedness hypothesis keeping indices in range. -/
def bump (s : List Nat) (i : Nat) : List Nat :=
  s.set i (s.getD i 0 + 1)

/-- Apply one button press: `for (int idx : btn) next[idx]++`. -/
def applyButton (btn : List Nat) (s : List Nat) : List Nat :=
  btn.foldl bump s

/-- All states reachable from the all-zeros vector by exactly `k` button
presses (spec side of the BFS; duplicates are irrelevant to membership). -/
def mstatesAt (m : Machine) : Nat → List (List Nat)
  | 0 => [List.replicate m.target.length 0]
  | k + 1 => (mstatesAt m k).flatMap (fun s => m.buttons.map (fun b => applyButton b s))

/-- A state is reachable in exactly `k` presses. -/
def reachIn (m : Machine) (k : Nat) (s : List Nat) : Prop :=
  s ∈ mstatesAt m k

instance (m : Machine) (k : Nat) (s : List Nat) : Decidable (reachIn m k s) :=
  inferInstanceAs (Decidable (s ∈ mstatesAt m k))

/-- `d` is the length of a shortest press sequence reaching the target. -/
def shortestIs (m : Machine) (d : Nat) : Prop :=
  reachIn m d m.target ∧ ∀ j < d, ¬ reachIn m j m.target

/-- The all-zeros start state `vector<int> start(n, 0)`. -/
def zeroState (m : Machine) : List Nat := List.replicate m.target.length 0

/-- States reachable in exactly `k` presses starting from an arbitrary
state `w` (generalizes `mstatesAt` for the correctness proof). -/
def statesFrom (m : Machine) (w : List Nat) : Nat → List (List Nat)
  | 0 => [w]
  | k + 1 => (statesFrom m w k).flatMap (fun s => m.buttons.map (fun b => applyButton b s))

/-- `d` is the exact (shortest) press distance of state `s` from zeros. -/
def distIs (m : Machine) (s : List Nat) (d : Nat) : Prop :=
  s ∈ mstatesAt m d ∧ ∀ j < d, s ∉ mstatesAt m j

/-- Association-list lookup modelling `std::map::find`. -/
def mlookup {α β : Type} [DecidableEq α] : List (α × β) → α → Option β
  | [], _ => none
  | (k, v) :: rest, key => if k = key then some v else mlookup rest key

/-- Association-list store modelling `std::map::operator[] =`. -/
def mset {α β : Type} [DecidableEq α] : List (α × β) → α → β → List (α × β)
  | [], key, v => [(key, v)]
  | (k, w) :: rest, key, v =>
    if k = key then (k, v) :: rest else (k, w) :: mset rest key v

/-- Body of the `for (auto &btn : m.buttons)` loop of `minPresses`: try
one button from the popped state `curr` (distance `presses`); the pair
carries the evolving `dist` map and the queue pushes made so far. -/
def bfsStep (presses : Nat) (curr : List Nat)
    (acc : List (List Nat × Nat) × List (List Nat × Nat)) (b : List Nat) :
    List (List Nat × Nat) × List (List Nat × Nat) :=
  let nxt := applyButton b curr
  match mlookup acc.1 nxt with
  | none => (mset acc.1 nxt (presses + 1), acc.2 ++ [(nxt, presses + 1)])
  | some dv =>
    if presses + 1 < dv then
      (mset acc.1 nxt (presses + 1), acc.2 ++ [(nxt, presses + 1)])
    else acc

/-- Expansion of `minPresses`: try every button from the popped state in
order, updating `dist` and collecting the queue pushes, exactly as the
C++ inner loop does. -/
def bfsExpand (buttons : List (List Nat)) (curr : List Nat) (presses : Nat)
    (dist : List (List Nat × Nat)) :
    List (List Nat × Nat) × List (List Nat × Nat) :=
  buttons.foldl (bfsStep presses curr) (dist, [])

/-- The `while (!q.empty())` loop of `minPresses`, with explicit fuel:
`none` means the loop has not finished within `fuel` iterations;
`some (-1)` is the queue-exhausted return; `some p` returns the popped
distance of the target. -/
def bfsLoop (m : Machine) : Nat → List (List Nat × Nat) → List (List Nat × Nat) →
    Option Int
  | 0, _, _ => none
  | _ + 1, [], _ => some (-1)
  | fuel + 1, (curr, presses) :: rest, dist =>
    if curr = m.target then some (Int.ofNat presses)
    else
      let e := bfsExpand m.buttons curr presses dist
      bfsLoop m fuel (rest ++ e.2) e.1

/-- `minPresses` from `solution.cpp`, fuelled: BFS from the all-zeros
state with `dist[start] = 0`. -/
def minPressesF (fuel : Nat) (m : Machine) : Option Int :=
  let start := List.replicate m.target.length 0
  bfsLoop m fuel [(start, 0)] [(start, 0)]

/-- Every button index of the machine addresses an existing counter (the
C++ `next[idx]++` is undefined behaviour otherwise). -/
def Machine.wf (m : Machine) : Prop :=
  ∀ b ∈ m.buttons, ∀ i ∈ b, i < m.target.length

instance (m : Machine) : Decidable m.wf := by
  unfold Machine.wf; infer_instance

/-- Total of the per-machine minima as accumulated by `main` in
`solution.cpp` (`total += presses` for machines that are solvable). -/
def totalFewest (presses : List Int) : Int :=
  presses.foldl (fun t p => if p = -1 then t else t + p) 0

/-- Modelled from the spec: the per-machine minima of the documented
example input, which is absent from the repository; the Day 10 README
("Example Results") records them as 2, 3 and 2 presses. -/
def exampleMachineMinima : List Int := [2, 3, 2]

/-- A machine whose single button adds 2 to the single counter: its odd
target is unreachable from zero, and `minPresses` never returns on it. -/
def evenMachine : Machine := ⟨[[0, 0]], [1]⟩

/-- The distance map `minPresses` builds on `evenMachine` after `j`
insertions: the even states in discovery order. -/
def evenDist : Nat → List (List Nat × Nat)
  | 0 => []
  | j + 1 => evenDist j ++ [([2 * j], j)]

/-- Loop invariant of the `minPresses` BFS, relating the queue and the
distance map: queue entries agree with `dist` and are sorted with a gap
of at most one; `dist` holds exact shortest distances; every state at
distance up to the queue head's is already discovered; every discovered
state is queued or fully expanded; a discovered target is still queued. -/
structure BfsInv (m : Machine) (q dist : List (List Nat × Nat)) : Prop where
  entries : ∀ e ∈ q, mlookup dist e.1 = some e.2
  sorted : List.Pairwise (fun a b : List Nat × Nat => a.2 ≤ b.2) q
  gap : ∀ e ∈ q, ∀ hd, q.head? = some hd → e.2 ≤ hd.2 + 1
  dexact : ∀ s v, mlookup dist s = some v → distIs m s v
  complete : ∀ u j, distIs m u j → ∀ hd, q.head? = some hd → j ≤ hd.2 →
    mlookup dist u ≠ none
  closedness : ∀ s v, mlookup dist s = some v →
    (∃ e ∈ q, e.1 = s) ∨ ∀ btn ∈ m.buttons, mlookup dist (applyButton btn s) ≠ none
  targetq : mlookup dist m.target ≠ none → ∃ e ∈ q, e.1 = m.target

/-- A small machine used to witness the correctness theorem: two buttons
`(0)` and `(0,1)` with target `{2,1}`, solvable in 2 presses. -/
def c1WitnessMachine : Machine := ⟨[[0], [0, 1]], [2, 1]⟩


/-! ## Day 10 Part 2 solvers (`solution_part2.cpp` and
`solution_part2_dijkstra.cpp`; the two files share their data model) -/

/-- Apply one button press as both Day 10 solvers do: each listed
counter index below `n` is incremented in turn, aborting (`valid =
false`) as soon as an incremented counter exceeds its target; a listed
index `≥ n` is skipped.  Counters are C++ `int`, hence `Int`; button
indices are `Nat` (the C++ code indexes `new_state[counter_idx]`
unchecked below `n`, which is undefined behaviour for a negative parsed
index, so the embedding covers the nonnegative fragment). -/
def pressStep (n : Nat) (targets : List Int) : List Nat → List Int → Option (List Int)
  | [], st => some st
  | idx :: rest, st =>
    if idx < n then
      let st2 := st.set idx (st.getD idx 0 + 1)
      if st2.getD idx 0 > targets.getD idx 0 then none
      else pressStep n targets rest st2
    else pressStep n targets rest st

/-- Successors of a state in the pruned press graph both solvers search:
one press of any button that does not overshoot the targets. -/
def pSuccs (bs : List (List Nat)) (tg : List Int) (s : List Int) : List (List Int) :=
  bs.filterMap (fun b => pressStep tg.length tg b s)

/-- States reachable in exactly `k` pruned presses from all-zeros. -/
def pStatesAt (bs : List (List Nat)) (tg : List Int) : Nat → List (List Int)
  | 0 => [List.replicate tg.length 0]
  | k + 1 => (pStatesAt bs tg k).flatMap (pSuccs bs tg)

/-- `d` is the exact pruned press distance of `s` from all-zeros. -/
def pDistIs (bs : List (List Nat)) (tg : List Int) (s : List Int) (d : Nat) : Prop :=
  s ∈ pStatesAt bs tg d ∧ ∀ j < d, s ∉ pStatesAt bs tg j

/-- `min(best_cost, presses)` with `none` playing INT_MAX. -/
def minBest (best : Option Nat) (presses : Nat) : Option Nat :=
  match best with
  | none => some presses
  | some b => some (min b presses)

/-- The `presses >= best_cost` test with `none` playing INT_MAX. -/
def bestLe (best : Option Nat) (presses : Nat) : Bool :=
  match best with
  | none => false
  | some b => decide (b ≤ presses)

/-- Inner button loop of `solve_machine_part2_bounded`: try button `i`
and the following ones, skipping a button already pressed `cap` times,
pruning presses that overshoot, de-duplicating on the `visited` set, and
collecting queue pushes in order. -/
def bExpand (tg : List Int) (cap : Nat) (cur : List Int) (presses : Nat) (pc : List Nat) :
    List (List Nat) → Nat → List (List Int) → List (List Int × Nat × List Nat) →
    List (List Int) × List (List Int × Nat × List Nat)
  | [], _, vis, acc => (vis, acc)
  | b :: bsrest, i, vis, acc =>
    if cap ≤ pc.getD i 0 then bExpand tg cap cur presses pc bsrest (i + 1) vis acc
    else
      match pressStep tg.length tg b cur with
      | none => bExpand tg cap cur presses pc bsrest (i + 1) vis acc
      | some st2 =>
        if st2 ∈ vis then bExpand tg cap cur presses pc bsrest (i + 1) vis acc
        else
          bExpand tg cap cur presses pc bsrest (i + 1) (vis ++ [st2])
            (acc ++ [(st2, presses + 1, pc.set i (pc.getD i 0 + 1))])

/-- The `while (!q.empty())` loop of `solve_machine_part2_bounded`,
fuelled; `none` means the loop has not finished within `fuel` pops. -/
def bRun (bs : List (List Nat)) (tg : List Int) (cap : Nat) :
    Nat → List (List Int × Nat × List Nat) → List (List Int) → Option Nat → Option Int
  | 0, _, _, _ => none
  | _ + 1, [], _, best =>
    some (match best with | some b => Int.ofNat b | none => -1)
  | fuel + 1, (cur, presses, pc) :: rest, vis, best =>
    if cur = tg then bRun bs tg cap fuel rest vis (minBest best presses)
    else if bestLe best presses then bRun bs tg cap fuel rest vis best
    else
      let e := bExpand tg cap cur presses pc bs 0 vis []
      bRun bs tg cap fuel (rest ++ e.2) e.1 best

/-- `solve_machine_part2_bounded` with an explicit press cap, fuelled:
BFS from all-zeros with the start state pre-inserted in `visited`. -/
def solveBounded (fuel : Nat) (bs : List (List Nat)) (tg : List Int) (cap : Nat) :
    Option Int :=
  bRun bs tg cap fuel [(List.replicate tg.length 0, 0, List.replicate bs.length 0)]
    [List.replicate tg.length 0] none

/-- Lexicographic `<` on `vector<int>`. -/
def intListLt : List Int → List Int → Bool
  | [], [] => false
  | [], _ :: _ => true
  | _ :: _, [] => false
  | a :: as, b :: bs2 =>
    if a < b then true else if b < a then false else intListLt as bs2

/-- Lexicographic `<` on the press-count vectors. -/
def natListLt : List Nat → List Nat → Bool
  | [], [] => false
  | [], _ :: _ => true
  | _ :: _, [] => false
  | a :: as, b :: bs2 =>
    if a < b then true else if b < a then false else natListLt as bs2

/-- The `std::tuple` lexicographic order `(cost, state, press_counts)`
used by the Dijkstra priority queue (a min-heap via `greater`). -/
def pqLt (x y : Nat × List Int × List Nat) : Bool :=
  if x.1 < y.1 then true
  else if y.1 < x.1 then false
  else if intListLt x.2.1 y.2.1 then true
  else if intListLt y.2.1 x.2.1 then false
  else natListLt x.2.2 y.2.2

/-- Minimum of a nonempty bag of priority-queue items. -/
def pqMinOf : (Nat × List Int × List Nat) → List (Nat × List Int × List Nat) →
    Nat × List Int × List Nat
  | best, [] => best
  | best, x :: xs => pqMinOf (if pqLt x best then x else best) xs

/-- Remove the first occurrence of an item from the queue bag. -/
def removeFirst : List (Nat × List Int × List Nat) → (Nat × List Int × List Nat) →
    List (Nat × List Int × List Nat)
  | [], _ => []
  | x :: xs, y => if x = y then xs else x :: removeFirst xs y

/-- `pq.top(); pq.pop()`: the priority queue is modelled as a bag whose
pop extracts a least element under the tuple order (equal tuples are
identical, so which one is immaterial). -/
def pqPop (pq : List (Nat × List Int × List Nat)) :
    Option ((Nat × List Int × List Nat) × List (Nat × List Int × List Nat)) :=
  match pq with
  | [] => none
  | x :: xs => some (pqMinOf x xs, removeFirst (x :: xs) (pqMinOf x xs))

/-- `min_cost[state]` read through `operator[]`, which default-inserts 0
for an absent key. -/
def lookupOrInsert (mc : List (List Int × Nat)) (key : List Int) :
    Nat × List (List Int × Nat) :=
  match mlookup mc key with
  | some v => (v, mc)
  | none => (0, mc ++ [(key, 0)])

/-- Inner button loop of `solve_machine_part2_dijkstra`: like the
bounded expansion but de-duplicating through the `min_cost` map with a
decrease-key re-push. -/
def dExpand (tg : List Int) (cap : Nat) (cur : List Int) (cost : Nat) (pc : List Nat) :
    List (List Nat) → Nat → List (List Int × Nat) → List (Nat × List Int × List Nat) →
    List (List Int × Nat) × List (Nat × List Int × List Nat)
  | [], _, mc, acc => (mc, acc)
  | b :: bsrest, i, mc, acc =>
    if cap ≤ pc.getD i 0 then dExpand tg cap cur cost pc bsrest (i + 1) mc acc
    else
      match pressStep tg.length tg b cur with
      | none => dExpand tg cap cur cost pc bsrest (i + 1) mc acc
      | some st2 =>
        match mlookup mc st2 with
        | none =>
          dExpand tg cap cur cost pc bsrest (i + 1) (mset mc st2 (cost + 1))
            (acc ++ [(cost + 1, st2, pc.set i (pc.getD i 0 + 1))])
        | some v =>
          if cost + 1 < v then
            dExpand tg cap cur cost pc bsrest (i + 1) (mset mc st2 (cost + 1))
              (acc ++ [(cost + 1, st2, pc.set i (pc.getD i 0 + 1))])
          else dExpand tg cap cur cost pc bsrest (i + 1) mc acc

/-- The `while (!pq.empty())` loop of `solve_machine_part2_dijkstra`,
fuelled: pop a least item, skip it when stale, return its cost on the
target, otherwise expand. -/
def dRun (bs : List (List Nat)) (tg : List Int) (cap : Nat) :
    Nat → List (Nat × List Int × List Nat) → List (List Int × Nat) → Option Int
  | 0, _, _ => none
  | fuel + 1, pq, mc =>
    match pqPop pq with
    | none => some (-1)
    | some ((cost, st, pc), rest) =>
      let li := lookupOrInsert mc st
      if li.1 < cost then dRun bs tg cap fuel rest li.2
      else if st = tg then some (Int.ofNat cost)
      else
        let e := dExpand tg cap st cost pc bs 0 li.2 []
        dRun bs tg cap fuel (rest ++ e.2) e.1

/-- `solve_machine_part2_dijkstra` with an explicit press cap, fuelled. -/
def solveDijkstra (fuel : Nat) (bs : List (List Nat)) (tg : List Int) (cap : Nat) :
    Option Int :=
  dRun bs tg cap fuel
    [(0, List.replicate tg.length 0, List.replicate bs.length 0)]
    [(List.replicate tg.length 0, 0)]

/-- A state is within the box the solvers prune to: the right length,
and every counter between 0 and its target. -/
def inBox (tg : List Int) (s : List Int) : Prop :=
  s.length = tg.length ∧ ∀ i < tg.length, 0 ≤ s.getD i 0 ∧ s.getD i 0 ≤ tg.getD i 0

instance (tg s : List Int) : Decidable (inBox tg s) := by
  unfold inBox
  infer_instance

def boxList : List Int → List (List Int)
  | [] => [[]]
  | t :: ts => ((List.range (t.toNat + 1)).map Int.ofNat).flatMap
      (fun v => (boxList ts).map (fun s => v :: s))

structure BInv (bs : List (List Nat)) (tg : List Int)
    (q : List (List Int × Nat × List Nat)) (vis : List (List Int))
    (best : Option Nat) : Prop where
  qvis : ∀ e ∈ q, e.1 ∈ vis
  qexact : ∀ e ∈ q, pDistIs bs tg e.1 e.2.1
  qpc : ∀ e ∈ q, e.2.2.sum = e.2.1 ∧ e.2.2.length = bs.length
  qsum : ∀ e ∈ q, (e.2.1 : Int) ≤ e.1.sum
  qbox : ∀ e ∈ q, inBox tg e.1
  sorted : List.Pairwise (fun a b : List Int × Nat × List Nat => a.2.1 ≤ b.2.1) q
  gap : ∀ e ∈ q, ∀ hd, q.head? = some hd → e.2.1 ≤ hd.2.1 + 1
  visbox : ∀ s ∈ vis, inBox tg s
  visnd : vis.Nodup
  complete : best = none → ∀ u j, pDistIs bs tg u j → ∀ hd, q.head? = some hd →
    j ≤ hd.2.1 → u ∈ vis
  closedness : best = none → ∀ s ∈ vis,
    (∃ e ∈ q, e.1 = s) ∨
      ∀ b ∈ bs, ∀ s2, pressStep tg.length tg b s = some s2 → s2 ∈ vis
  targetflag : tg ∈ vis → (∃ e ∈ q, e.1 = tg) ∨ best ≠ none
  bestval : ∀ bv, best = some bv → pDistIs bs tg tg bv
  bestle : ∀ bv, best = some bv → ∀ e ∈ q, bv ≤ e.2.1
  startvis : List.replicate tg.length 0 ∈ vis

structure DInv (bs : List (List Nat)) (tg : List Int)
    (pq : List (Nat × List Int × List Nat)) (mc : List (List Int × Nat)) : Prop where
  pqmc : ∀ e ∈ pq, mlookup mc e.2.1 = some e.1
  mcexact : ∀ s v, mlookup mc s = some v → pDistIs bs tg s v
  gap2 : ∀ x ∈ pq, ∀ y ∈ pq, x.1 ≤ y.1 + 1
  complete : ∀ u j, pDistIs bs tg u j → ∀ it rest, pqPop pq = some (it, rest) →
    j ≤ it.1 → mlookup mc u ≠ none
  closedness : ∀ s v, mlookup mc s = some v →
    (∃ e ∈ pq, e.2.1 = s) ∨
      ∀ b ∈ bs, ∀ s2, pressStep tg.length tg b s = some s2 → mlookup mc s2 ≠ none
  targetq : mlookup mc tg ≠ none → ∃ e ∈ pq, e.2.1 = tg
  pqpcs : ∀ e ∈ pq, e.2.2.sum = e.1 ∧ e.2.2.length = bs.length
  pqsum : ∀ e ∈ pq, (e.1 : Int) ≤ e.2.1.sum
  mcbox : ∀ s v, mlookup mc s = some v → inBox tg s
  mckeynd : (mc.map (fun p => p.1)).Nodup
  startmc : mlookup mc (List.replicate tg.length 0) ≠ none

inductive bReach (bs : List (List Nat)) (tg : List Int) (cap : Nat) :
    List (List Int × Nat × List Nat) → List (List Int) → Option Nat → Prop where
  | init : bReach bs tg cap
      [(List.replicate tg.length 0, 0, List.replicate bs.length 0)]
      [List.replicate tg.length 0] none
  | popTarget : ∀ cur presses pc rest vis best,
      bReach bs tg cap ((cur, presses, pc) :: rest) vis best → cur = tg →
      bReach bs tg cap rest vis (minBest best presses)
  | popSkip : ∀ cur presses pc rest vis best,
      bReach bs tg cap ((cur, presses, pc) :: rest) vis best →
      bestLe best presses = true →
      bReach bs tg cap rest vis best
  | popExpand : ∀ cur presses pc rest vis best,
      bReach bs tg cap ((cur, presses, pc) :: rest) vis best → cur ≠ tg →
      bestLe best presses = false →
      bReach bs tg cap (rest ++ (bExpand tg cap cur presses pc bs 0 vis []).2)
        (bExpand tg cap cur presses pc bs 0 vis []).1 best

inductive dReach (bs : List (List Nat)) (tg : List Int) (cap : Nat) :
    List (Nat × List Int × List Nat) → List (List Int × Nat) → Prop where
  | init : dReach bs tg cap
      [(0, List.replicate tg.length 0, List.replicate bs.length 0)]
      [(List.replicate tg.length 0, 0)]
  | popStale : ∀ cost st pc pq rest mc,
      dReach bs tg cap pq mc →
      pqPop pq = some ((cost, st, pc), rest) →
      (lookupOrInsert mc st).1 < cost →
      dReach bs tg cap rest (lookupOrInsert mc st).2
  | popExpand : ∀ cost st pc pq rest mc,
      dReach bs tg cap pq mc →
      pqPop pq = some ((cost, st, pc), rest) →
      ¬ (lookupOrInsert mc st).1 < cost → st ≠ tg →
      dReach bs tg cap
        (rest ++ (dExpand tg cap st cost pc bs 0 (lookupOrInsert mc st).2 []).2)
        (dExpand tg cap st cost pc bs 0 (lookupOrInsert mc st).2 []).1

-- ===== IO model =====

structure RunResult where
  exitCode : Nat
  out : List String
  err : List String
deriving DecidableEq, Repr

-- ===== character-stream parsing (stringstream extraction) =====

def isWsChar (c : Char) : Bool :=
  c = ' ' || c = '\t' || c = '\r'

def skipWs (cs : List Char) : List Char :=
  cs.dropWhile isWsChar

def charsToNat (ds : List Char) : Nat :=
  ds.foldl (fun acc c => acc * 10 + (c.toNat - '0'.toNat)) 0

def readInt (cs : List Char) : Option (Int × List Char) :=
  match skipWs cs with
  | '-' :: rest =>
    let ds := rest.takeWhile Char.isDigit
    if ds = [] then none
    else some (-(charsToNat ds : Int), rest.dropWhile Char.isDigit)
  | '+' :: rest =>
    let ds := rest.takeWhile Char.isDigit
    if ds = [] then none
    else some ((charsToNat ds : Int), rest.dropWhile Char.isDigit)
  | other =>
    let ds := other.takeWhile Char.isDigit
    if ds = [] then none
    else some ((charsToNat ds : Int), other.dropWhile Char.isDigit)

-- ===== Day 9 solution.cpp, first program (pair max-area main) =====

def day9ParseLine (line : String) : Option (Int × Int) :=
  match readInt line.data with
  | none => none
  | some (x, rest1) =>
    match skipWs rest1 with
    | [] => none
    | _ :: rest2 =>
      match readInt rest2 with
      | none => none
      | some (y, _) => some (x, y)

def allPairs {α : Type} : List α → List (α × α)
  | [] => []
  | x :: xs => xs.map (fun y => (x, y)) ++ allPairs xs

def pairMaxArea (pts : List (Int × Int)) : Int :=
  (allPairs pts).foldl
    (fun m pq =>
      let area := (|pq.1.1 - pq.2.1| + 1) * (|pq.1.2 - pq.2.2| + 1)
      if area > m then area else m) 0

def runDay9Pair (file : Option (List String)) : RunResult :=
  match file with
  | none => ⟨1, [], ["Error opening input.txt"]⟩
  | some lines =>
    ⟨0, [toString (pairMaxArea (lines.filterMap day9ParseLine))],
      lines.filterMap (fun l =>
        if l = "" then none
        else if (day9ParseLine l).isSome then none
        else some ("Invalid line: " ++ l))⟩

-- ===== Day 9 solution2.cpp =====

def commaToSpace (line : String) : List Char :=
  line.data.map (fun c => if c = ',' then ' ' else c)

def readPairsGo : Nat → List Char → List (Int × Int)
  | 0, _ => []
  | fuel + 1, cs =>
    match readInt cs with
    | none => []
    | some (x, r1) =>
      match readInt r1 with
      | none => []
      | some (y, r2) => (x, y) :: readPairsGo fuel r2

def readPairs (cs : List Char) : List (Int × Int) :=
  readPairsGo cs.length cs

def cyclePairs (pts : List (Int × Int)) : List ((Int × Int) × (Int × Int)) :=
  pts.zip (pts.rotate 1)

def vEdges (pts : List (Int × Int)) : List (Int × Int × Int) :=
  (cyclePairs pts).filterMap (fun pq =>
    if pq.1.1 = pq.2.1 then some (pq.1.1, min pq.1.2 pq.2.2, max pq.1.2 pq.2.2)
    else none)

def hEdges (pts : List (Int × Int)) : List (Int × Int × Int) :=
  (cyclePairs pts).filterMap (fun pq =>
    if pq.1.1 = pq.2.1 then none
    else if pq.1.2 = pq.2.2 then some (pq.1.2, min pq.1.1 pq.2.1, max pq.1.1 pq.2.1)
    else none)

def insertByKey (e : Int × Int × Int) : List (Int × Int × Int) → List (Int × Int × Int)
  | [] => [e]
  | f :: rest => if e.1 < f.1 then e :: f :: rest else f :: insertByKey e rest

def sortByKey : List (Int × Int × Int) → List (Int × Int × Int)
  | [] => []
  | e :: rest => insertByKey e (sortByKey rest)

def checkAGo (right bottom top : Int) : List (Int × Int × Int) → Bool
  | [] => false
  | e :: rest =>
    if e.1 ≥ right then false
    else if e.2.1 < top && e.2.2 > bottom then true
    else checkAGo right bottom top rest

def checkA (ve : List (Int × Int × Int)) (left right bottom top : Int) : Bool :=
  checkAGo right bottom top (ve.dropWhile (fun e => e.1 ≤ left))

def checkBGo (top right left : Int) : List (Int × Int × Int) → Bool
  | [] => false
  | e :: rest =>
    if e.1 ≥ top then false
    else if e.2.1 < right && e.2.2 > left then true
    else checkBGo top right left rest

def checkB (he : List (Int × Int × Int)) (left right bottom top : Int) : Bool :=
  checkBGo top right left (he.dropWhile (fun e => e.1 ≤ bottom))

def rayCount (ve : List (Int × Int × Int)) (right bottom : Int) : Nat :=
  (ve.dropWhile (fun e => e.1 < right)).countP
    (fun e => e.2.1 ≤ bottom && e.2.2 > bottom)

def fastPairAccepted (ve he : List (Int × Int × Int)) (a b : Int × Int) : Bool :=
  let left := min a.1 b.1
  let right := max a.1 b.1
  let bottom := min a.2 b.2
  let top := max a.2 b.2
  !(checkA ve left right bottom top) && !(checkB he left right bottom top) &&
    (rayCount ve right bottom % 2 ≠ 0)

def fastFold (ve he : List (Int × Int × Int)) :
    List ((Int × Int) × (Int × Int)) → Int → Int
  | [], m => m
  | ab :: rest, m =>
    let area := (|ab.1.1 - ab.2.1| + 1) * (|ab.1.2 - ab.2.2| + 1)
    if area ≤ m then fastFold ve he rest m
    else if fastPairAccepted ve he ab.1 ab.2 then fastFold ve he rest area
    else fastFold ve he rest m

def solution2Max (pts : List (Int × Int)) : Int :=
  fastFold (sortByKey (vEdges pts)) (sortByKey (hEdges pts)) (allPairs pts) 0

def runSolution2 (file : Option (List String)) : RunResult :=
  match file with
  | none => ⟨1, [], ["Error: Could not open input.txt"]⟩
  | some lines =>
    let pts := lines.flatMap (fun l => readPairs (commaToSpace l))
    if pts.length < 4 then ⟨0, ["Not enough points to form a polygon."], []⟩
    else ⟨0, ["Part 2 Largest Area: " ++ toString (solution2Max pts)], []⟩

-- ===== Day 9 test_example.cpp =====

def exampleReds : List (Int × Int) :=
  [(7, 1), (11, 1), (11, 7), (9, 7), (9, 5), (2, 5), (2, 3), (7, 3)]

def isOnBoundary (tx ty : Int) (reds : List (Int × Int)) : Bool :=
  (cyclePairs reds).any (fun pq =>
    if pq.1.1 = pq.2.1 then
      tx = pq.1.1 && min pq.1.2 pq.2.2 ≤ ty && ty ≤ max pq.1.2 pq.2.2
    else if pq.1.2 = pq.2.2 then
      ty = pq.1.2 && min pq.1.1 pq.2.1 ≤ tx && tx ≤ max pq.1.1 pq.2.1
    else false)

def isInsidePolygon (tx ty : Int) (reds : List (Int × Int)) : Bool :=
  ((cyclePairs reds).countP (fun pq =>
    ((pq.1.2 ≤ ty && pq.2.2 > ty) || (pq.1.2 > ty && pq.2.2 ≤ ty)) && pq.1.1 > tx)) % 2
    = 1

def isValidTile (x y : Int) (reds : List (Int × Int)) : Bool :=
  reds.any (fun p => p.1 = x && p.2 = y) || isOnBoundary x y reds ||
    isInsidePolygon x y reds

def intRange (a b : Int) : List Int :=
  (List.range (b - a + 1).toNat).map (fun i => a + (i : Int))

def isRectangleValid (x1 y1 x2 y2 : Int) (reds : List (Int × Int)) : Bool :=
  (intRange x1 x2).all (fun x => isValidTile x y1 reds) &&
  (intRange x1 x2).all (fun x => isValidTile x y2 reds) &&
  (intRange (y1 + 1) (y2 - 1)).all (fun y => isValidTile x1 y reds) &&
  (intRange (y1 + 1) (y2 - 1)).all (fun y => isValidTile x2 y reds)

def testExampleFold (reds : List (Int × Int)) :
    List ((Int × Int) × (Int × Int)) → Int → List String → Int × List String
  | [], m, outs => (m, outs)
  | ab :: rest, m, outs =>
    let left := min ab.1.1 ab.2.1
    let right := max ab.1.1 ab.2.1
    let top := min ab.1.2 ab.2.2
    let bottom := max ab.1.2 ab.2.2
    let area := (right - left + 1) * (bottom - top + 1)
    if isRectangleValid left top right bottom reds then
      if area > m then
        testExampleFold reds rest area (outs ++
          ["Valid rectangle: (" ++ toString left ++ "," ++ toString top ++ ") to (" ++
            toString right ++ "," ++ toString bottom ++ ") area " ++ toString area])
      else testExampleFold reds rest m outs
    else testExampleFold reds rest m outs

def bruteMax (reds : List (Int × Int)) : Int :=
  (testExampleFold reds (allPairs reds) 0 []).1

def runTestExample : RunResult :=
  let r := testExampleFold exampleReds (allPairs exampleReds) 0 []
  ⟨0, ("Testing example with " ++ toString exampleReds.length ++ " red tiles") ::
    r.2 ++ ["Max area: " ++ toString r.1], []⟩


-- ===== Day 9 solution.cpp, second program (BFS main) =====

def wsTokensGo : Nat → List Char → List (List Char)
  | 0, _ => []
  | fuel + 1, cs =>
    match skipWs cs with
    | [] => []
    | c :: rest =>
      (c :: rest.takeWhile (fun d => !isWsChar d)) ::
        wsTokensGo fuel (rest.dropWhile (fun d => !isWsChar d))

def wsTokens (cs : List Char) : List (List Char) :=
  wsTokensGo cs.length cs

def day9MachineOfLine (l : String) : Option Machine :=
  if l = "" then none
  else
    let tokens := wsTokens l.data
    if tokens.length < 2 then none
    else some ⟨((tokens.drop 1).dropLast).map (fun t => parseButtonGo [] [] t),
      parseTargetGo [] [] (tokens.getLastD [])⟩

def day9BfsGo (fuel : Nat) : List Machine → Int → List String →
    Option (Int × List String)
  | [], total, outs => some (total, outs)
  | m :: rest, total, outs =>
    match minPressesF fuel m with
    | none => none
    | some p =>
      if p = -1 then day9BfsGo fuel rest total (outs ++ ["Machine unreachable!"])
      else day9BfsGo fuel rest (total + p) outs

def runDay9Bfs (fuel : Nat) (argv : List String)
    (fs : String → Option (List String)) : Option RunResult :=
  if argv.length < 2 then
    some ⟨1, [], ["Usage: " ++ argv.headD "" ++ " input.txt"]⟩
  else
    match fs (argv.getD 1 "") with
    | none => some ⟨1, [], ["Cannot open file: " ++ argv.getD 1 ""]⟩
    | some lines =>
      match day9BfsGo fuel (lines.filterMap day9MachineOfLine) 0 [] with
      | none => none
      | some r =>
        some ⟨0, r.2 ++ ["Fewest button presses: " ++ toString r.1], []⟩

-- ===== Day 10 mains =====

def lbrace : Char := Char.ofNat 123

def rbrace : Char := Char.ofNat 125

def scanGroupsGo (oc cc : Char) : Nat → List Char → List (List Char)
  | 0, _ => []
  | _ + 1, [] => []
  | fuel + 1, c :: rest =>
    if c = oc then
      match rest.dropWhile (fun d => d ≠ cc) with
      | _ :: rest3 =>
        if rest.takeWhile (fun d => d ≠ cc) = [] then scanGroupsGo oc cc fuel rest
        else rest.takeWhile (fun d => d ≠ cc) :: scanGroupsGo oc cc fuel rest3
      | [] => scanGroupsGo oc cc fuel rest
    else scanGroupsGo oc cc fuel rest

def scanGroups (oc cc : Char) (cs : List Char) : List (List Char) :=
  scanGroupsGo oc cc cs.length cs

def splitAtCommas (cur : List Char) : List Char → List (List Char)
  | [] => [cur.reverse]
  | c :: rest =>
    if c = ',' then cur.reverse :: splitAtCommas [] rest
    else splitAtCommas (c :: cur) rest

def getlineTokens (cs : List Char) : List (List Char) :=
  match cs with
  | [] => []
  | _ =>
    if cs.getLast? = some ',' then (splitAtCommas [] cs).dropLast
    else splitAtCommas [] cs

def stoiInt (cs : List Char) : Option Int :=
  (readInt cs).map (fun p => p.1)

def parseMachinePart2 (line : String) : Option (List (List Nat) × List Int) := do
  let bgroups := scanGroups '(' ')' line.data
  let tgroups := scanGroups lbrace rbrace line.data
  let rawButtons ← bgroups.mapM (fun g =>
    if g = [] then some [] else (getlineTokens g).mapM stoiInt)
  let buttons ← rawButtons.mapM (fun b =>
    if b.all (fun i => 0 ≤ i) then some (b.map Int.toNat) else none)
  let targets ← match tgroups.head? with
    | none => some []
    | some g => (getlineTokens g).mapM stoiInt
  some (buttons, targets)

def day10Filename (argv : List String) : String :=
  match argv with
  | _ :: f :: _ => f
  | _ => "input.txt"

def day10ProcessGo (solver : List (List Nat) → List Int → Option Int) :
    List String → List String × Int × Nat → Option (List String × Int × Nat)
  | [], acc => some acc
  | l :: rest, acc =>
    if l = "" then day10ProcessGo solver rest acc
    else
      match parseMachinePart2 l with
      | none => none
      | some m =>
        match solver m.1 m.2 with
        | none => none
        | some r =>
          if r = -1 then
            day10ProcessGo solver rest
              (acc.1 ++ ["Machine " ++ toString m.2.length ++ " counters, " ++
                toString m.1.length ++
                " buttons: No solution found (try increasing max_presses_per_button)"],
                acc.2.1, acc.2.2)
          else
            day10ProcessGo solver rest
              (acc.1 ++ ["Machine " ++ toString m.2.length ++ " counters, " ++
                toString m.1.length ++ " buttons: " ++ toString r ++ " presses"],
                acc.2.1 + r, acc.2.2 + 1)

def runDay10With (solver : List (List Nat) → List Int → Option Int)
    (argv : List String) (fs : String → Option (List String)) : Option RunResult :=
  match fs (day10Filename argv) with
  | none => some ⟨1, [], ["Error opening file: " ++ day10Filename argv]⟩
  | some lines =>
    match day10ProcessGo solver lines ([], 0, 0) with
    | none => none
    | some acc =>
      some ⟨0, acc.1 ++ ["Total minimum presses: " ++ toString acc.2.1,
        "Processed " ++ toString acc.2.2 ++ " machines"], []⟩

def runDay10Part2 (fuel : Nat) (argv : List String)
    (fs : String → Option (List String)) : Option RunResult :=
  runDay10With (fun bs tg => solveBounded fuel bs tg 50) argv fs

def runDay10Dijkstra (fuel : Nat) (argv : List String)
    (fs : String → Option (List String)) : Option RunResult :=
  runDay10With (fun bs tg => solveDijkstra fuel bs tg 100) argv fs

def isIntString (s : String) : Bool :=
  match s.data with
  | '-' :: ds => ds ≠ [] && ds.all Char.isDigit
  | ds => ds ≠ [] && ds.all Char.isDigit

def specOneOrTwoIntegers (out : List String) : Prop :=
  (out.length = 1 ∨ out.length = 2) ∧ ∀ l ∈ out, isIntString l = true

instance (out : List String) : Decidable (specOneOrTwoIntegers out) := by
  unfold specOneOrTwoIntegers
  infer_instance

/-! ## Theorems -/

theorem mlookup_append {α β : Type} [DecidableEq α] (l1 l2 : List (α × β)) (key : α) :
    mlookup (l1 ++ l2) key =
      match mlookup l1 key with
      | some v => some v
      | none => mlookup l2 key := by
  induction l1 with
  | nil => simp [mlookup]
  | cons p rest ih =>
    by_cases h : p.1 = key
    · simp [mlookup, h]
    · simp [mlookup, h, ih]

theorem mset_absent {α β : Type} [DecidableEq α] (l : List (α × β)) (key : α) (v : β)
    (h : mlookup l key = none) : mset l key v = l ++ [(key, v)] := by
  induction l with
  | nil => simp [mset]
  | cons p rest ih =>
    by_cases hp : p.1 = key
    · simp [mlookup, hp] at h
    · simp [mlookup, hp] at h
      simp [mset, hp, ih h]

theorem evenDist_lookup_none : ∀ j k, j ≤ k + 1 → mlookup (evenDist j) [2 * (k + 1)] = none := by
  intro j
  induction j with
  | zero => intro k _; simp [evenDist, mlookup]
  | succ i ih =>
    intro k hk
    have h1 : mlookup (evenDist i) [2 * (k + 1)] = none := ih k (Nat.le_of_succ_le hk)
    have h2 : ([2 * i] : List Nat) ≠ [2 * (k + 1)] := by
      intro h
      have h3 : 2 * i = 2 * (k + 1) := List.head_eq_of_cons_eq h
      omega
    rw [evenDist, mlookup_append, h1]
    simp [mlookup, h2]

theorem evenMachine_step (fuel k : Nat) :
    bfsLoop evenMachine (fuel + 1) [([2 * k], k)] (evenDist (k + 1)) =
      bfsLoop evenMachine fuel [([2 * (k + 1)], k + 1)] (evenDist (k + 2)) := by
  have hne : ([2 * k] : List Nat) ≠ evenMachine.target := by
    intro h
    have h3 : 2 * k = 1 := List.head_eq_of_cons_eq h
    omega
  have hnxt : applyButton [0, 0] [2 * k] = [2 * (k + 1)] := by
    simp [applyButton, bump]
    omega
  have hlk : mlookup (evenDist (k + 1)) [2 * (k + 1)] = none :=
    evenDist_lookup_none (k + 1) k (Nat.le_refl _)
  have hset : mset (evenDist (k + 1)) [2 * (k + 1)] (k + 1) = evenDist (k + 2) := by
    rw [mset_absent _ _ _ hlk]
    rfl
  show (if _ then _ else _) = _
  rw [if_neg hne]
  show bfsLoop evenMachine fuel ([] ++ (bfsExpand _ _ _ _).2) (bfsExpand _ _ _ _).1 = _
  have hexp : bfsExpand evenMachine.buttons [2 * k] k (evenDist (k + 1)) =
      (evenDist (k + 2), [([2 * (k + 1)], k + 1)]) := by
    show bfsExpand [[0, 0]] [2 * k] k (evenDist (k + 1)) = _
    simp [bfsExpand, bfsStep, hnxt, hlk, hset]
  rw [hexp]
  rfl

theorem evenMachine_no_return : ∀ fuel k,
    bfsLoop evenMachine fuel [([2 * k], k)] (evenDist (k + 1)) = none := by
  intro fuel
  induction fuel with
  | zero => intro k; rfl
  | succ f ih =>
    intro k
    rw [evenMachine_step f k]
    exact ih (k + 1)

theorem evenMachine_states : ∀ k, mstatesAt evenMachine k = [[2 * k]] := by
  intro k
  induction k with
  | zero => rfl
  | succ i ih =>
    show (mstatesAt evenMachine i).flatMap _ = _
    rw [ih]
    simp [evenMachine, applyButton, bump]
    omega

/-- C2: the claim that every script terminates is contradicted by the
code: on the machine with one button `(0,0)` and target `{1}` the target
is unreachable from the all-zeros vector, and `minPresses` never
finishes, under any iteration bound, instead of returning -1 as the
code's own `// unreachable` comment intends. -/
theorem minPresses_diverges_on_unreachable :
    (∀ k, ¬ reachIn evenMachine k evenMachine.target) ∧
      ∀ fuel, minPressesF fuel evenMachine = none := by
  constructor
  · intro k h
    rw [reachIn, evenMachine_states k] at h
    simp [evenMachine] at h
    omega
  · intro fuel
    have h0 : minPressesF fuel evenMachine =
        bfsLoop evenMachine fuel [([2 * 0], 0)] (evenDist 1) := by
      rfl
    rw [h0]
    exact evenMachine_no_return fuel 0

/-- C5: the Day 7 row-by-row beam simulation described in the
walkthrough, run on the (spec-modelled) example grid from the `S` column
of the first row, produces exactly the documented 21 splits. -/
theorem day7_example_grid_splits : day7Splits day7ExampleGrid = 21 := by
  rfl

theorem parseButtonGo_eq_runs (l : List Char) : ∀ res tmp,
    parseButtonGo res tmp l = res ++ (digitRunsGo tmp l).map stoiNat := by
  induction l with
  | nil =>
    intro res tmp
    by_cases h : tmp = [] <;> simp [parseButtonGo, digitRunsGo, h]
  | cons c cs ih =>
    intro res tmp
    by_cases hd : c.isDigit
    · simp [parseButtonGo, digitRunsGo, hd, ih]
    · by_cases ht : tmp = []
      · simp [parseButtonGo, digitRunsGo, hd, ht, ih]
      · simp [parseButtonGo, digitRunsGo, hd, ht, ih]

theorem parseTargetGo_eq_runs (l : List Char) : ∀ res tmp,
    parseTargetGo res tmp l = res ++ (digitRunsGo tmp l).map stoiNat := by
  induction l with
  | nil =>
    intro res tmp
    by_cases h : tmp = [] <;> simp [parseTargetGo, digitRunsGo, h]
  | cons c cs ih =>
    intro res tmp
    by_cases hd : c.isDigit
    · simp [parseTargetGo, digitRunsGo, hd, ih]
    · by_cases ht : tmp = []
      · simp [parseTargetGo, digitRunsGo, hd, ht, ih]
      · simp [parseTargetGo, digitRunsGo, hd, ht, ih]

/-- C10: `parseButton` and `parseTarget` agree on every string, and both
return exactly the maximal runs of decimal digits of the input, each
converted to its decimal value, in left-to-right order. -/
theorem parseButton_eq_parseTarget_eq_digit_runs :
    ∀ s, parseButton s = parseTarget s ∧ parseButton s = digitRunsSpec s := by
  intro s
  constructor
  · rw [parseButton, parseTarget, parseButtonGo_eq_runs, parseTargetGo_eq_runs]
  · rw [parseButton, digitRunsSpec, parseButtonGo_eq_runs]
    rfl

theorem mstatesAt_eq_statesFrom (m : Machine) :
    ∀ k, mstatesAt m k = statesFrom m (zeroState m) k := by
  intro k
  induction k with
  | zero => rfl
  | succ i ih => show (mstatesAt m i).flatMap _ = (statesFrom m _ i).flatMap _; rw [ih]

theorem statesFrom_append (m : Machine) :
    ∀ b a t u w, u ∈ statesFrom m w a → t ∈ statesFrom m u b →
      t ∈ statesFrom m w (a + b) := by
  intro b
  induction b with
  | zero =>
    intro a t u w hu ht
    simp [statesFrom] at ht
    subst ht
    exact hu
  | succ i ih =>
    intro a t u w hu ht
    simp only [statesFrom, List.mem_flatMap, List.mem_map] at ht
    obtain ⟨v, hv, btn, hbtn, rfl⟩ := ht
    have := ih a _ u w hu hv
    show _ ∈ (statesFrom m w (a + (i + 1)))
    have harr : a + (i + 1) = (a + i) + 1 := by omega
    rw [harr]
    simp only [statesFrom, List.mem_flatMap, List.mem_map]
    exact ⟨v, this, btn, hbtn, rfl⟩

theorem mem_statesFrom_succ (m : Machine) (w t : List Nat) (k : Nat) :
    t ∈ statesFrom m w (k + 1) ↔
      ∃ v ∈ statesFrom m w k, ∃ btn ∈ m.buttons, t = applyButton btn v := by
  show t ∈ (statesFrom m w k).flatMap _ ↔ _
  simp only [List.mem_flatMap, List.mem_map]
  constructor
  · rintro ⟨v, hv, btn, hbtn, h⟩
    exact ⟨v, hv, btn, hbtn, h.symm⟩
  · rintro ⟨v, hv, btn, hbtn, h⟩
    exact ⟨v, hv, btn, hbtn, h.symm⟩

theorem statesFrom_succ_left (m : Machine) :
    ∀ k t w, t ∈ statesFrom m w (k + 1) ↔
      ∃ btn ∈ m.buttons, t ∈ statesFrom m (applyButton btn w) k := by
  intro k
  induction k with
  | zero =>
    intro t w
    rw [mem_statesFrom_succ]
    simp [statesFrom]
  | succ i ih =>
    intro t w
    constructor
    · intro ht
      obtain ⟨v, hv, btn, hbtn, rfl⟩ := (mem_statesFrom_succ m w _ (i + 1)).1 ht
      obtain ⟨b2, hb2, hv2⟩ := (ih v w).1 hv
      refine ⟨b2, hb2, ?_⟩
      rw [mem_statesFrom_succ]
      exact ⟨v, hv2, btn, hbtn, rfl⟩
    · intro ⟨b2, hb2, ht⟩
      obtain ⟨v, hv, btn, hbtn, rfl⟩ := (mem_statesFrom_succ m _ _ i).1 ht
      have hv2 : v ∈ statesFrom m w (i + 1) := (ih v w).2 ⟨b2, hb2, hv⟩
      rw [mem_statesFrom_succ]
      exact ⟨v, hv2, btn, hbtn, rfl⟩

theorem distIs_unique (m : Machine) (s : List Nat) (a b : Nat)
    (ha : distIs m s a) (hb : distIs m s b) : a = b := by
  rcases Nat.lt_trichotomy a b with h | h | h
  · exact absurd ha.1 (hb.2 a h)
  · exact h
  · exact absurd hb.1 (ha.2 b h)

theorem distIs_exists (m : Machine) (s : List Nat) (k : Nat) (h : s ∈ mstatesAt m k) :
    ∃ d ≤ k, distIs m s d := by
  have hex : ∃ j, s ∈ mstatesAt m j := ⟨k, h⟩
  refine ⟨Nat.find hex, Nat.find_min' hex h, Nat.find_spec hex, ?_⟩
  intro j hj
  exact Nat.find_min hex hj

theorem mstatesAt_pred (m : Machine) (u : List Nat) (p : Nat)
    (h : u ∈ mstatesAt m (p + 1)) :
    ∃ w ∈ mstatesAt m p, ∃ btn ∈ m.buttons, u = applyButton btn w := by
  simp only [mstatesAt, List.mem_flatMap, List.mem_map] at h
  obtain ⟨w, hw, btn, hbtn, rfl⟩ := h
  exact ⟨w, hw, btn, hbtn, rfl⟩

theorem distIs_succ_le (m : Machine) (w u : List Nat) (p : Nat)
    (hw : distIs m w p) (btn : List Nat) (hbtn : btn ∈ m.buttons)
    (hu : u = applyButton btn w) :
    ∃ j ≤ p + 1, distIs m u j := by
  have : u ∈ mstatesAt m (p + 1) := by
    simp only [mstatesAt, List.mem_flatMap, List.mem_map]
    exact ⟨w, hw.1, btn, hbtn, hu.symm⟩
  exact distIs_exists m u (p + 1) this

theorem mlookup_some_mem {α β : Type} [DecidableEq α] (l : List (α × β)) (key : α) (v : β)
    (h : mlookup l key = some v) : (key, v) ∈ l := by
  induction l with
  | nil => simp [mlookup] at h
  | cons p rest ih =>
    by_cases hp : p.1 = key
    · simp [mlookup, hp] at h
      refine List.mem_cons.2 (Or.inl ?_)
      rw [← hp, ← h]
    · simp [mlookup, hp] at h
      exact List.mem_cons.2 (Or.inr (ih h))

theorem mlookup_append_some {α β : Type} [DecidableEq α] (l1 l2 : List (α × β)) (key : α)
    (v : β) (h : mlookup l1 key = some v) : mlookup (l1 ++ l2) key = some v := by
  rw [mlookup_append, h]

theorem bfsStep_none (presses : Nat) (curr : List Nat) (acc) (b : List Nat)
    (h : mlookup acc.1 (applyButton b curr) = none) :
    bfsStep presses curr acc b =
      (mset acc.1 (applyButton b curr) (presses + 1),
        acc.2 ++ [(applyButton b curr, presses + 1)]) := by
  simp only [bfsStep, h]

theorem bfsStep_skip (presses : Nat) (curr : List Nat) (acc) (b : List Nat) (dv : Nat)
    (h : mlookup acc.1 (applyButton b curr) = some dv) (h2 : ¬ presses + 1 < dv) :
    bfsStep presses curr acc b = acc := by
  simp only [bfsStep, h]
  simp [h2]

theorem mlookup_append_none {α β : Type} [DecidableEq α] (l1 l2 : List (α × β)) (key : α)
    (h : mlookup l1 key = none) : mlookup (l1 ++ l2) key = mlookup l2 key := by
  rw [mlookup_append, h]

theorem mlookup_cons_self {α β : Type} [DecidableEq α] (l : List (α × β)) (key : α) (v : β) :
    mlookup ((key, v) :: l) key = some v := by
  simp [mlookup]

theorem mlookup_append_cases {α β : Type} [DecidableEq α] (l1 l2 : List (α × β)) (key : α)
    (v : β) (h : mlookup (l1 ++ l2) key = some v) :
    mlookup l1 key = some v ∨ (mlookup l1 key = none ∧ mlookup l2 key = some v) := by
  rw [mlookup_append] at h
  cases h1 : mlookup l1 key with
  | none => rw [h1] at h; exact Or.inr ⟨rfl, h⟩
  | some w => rw [h1] at h; exact Or.inl (by rw [← h])

theorem mlookup_append_none_split {α β : Type} [DecidableEq α] (l1 l2 : List (α × β))
    (key : α) (h : mlookup (l1 ++ l2) key = none) :
    mlookup l1 key = none ∧ mlookup l2 key = none := by
  rw [mlookup_append] at h
  cases h1 : mlookup l1 key with
  | none => rw [h1] at h; exact ⟨rfl, h⟩
  | some w => rw [h1] at h; exact absurd h (by simp)

theorem bfsExpand_fold (m : Machine) (curr : List Nat) (p : Nat)
    (dist : List (List Nat × Nat))
    (hcur : distIs m curr p)
    (hexact : ∀ s v, mlookup dist s = some v → distIs m s v)
    (hcompl : ∀ u j, distIs m u j → j ≤ p → mlookup dist u ≠ none) :
    ∀ bs, (∀ b ∈ bs, b ∈ m.buttons) → ∀ acc,
      (∀ e ∈ acc, e.2 = p + 1 ∧ distIs m e.1 (p + 1) ∧ mlookup dist e.1 = none) →
      ∃ delta,
        List.foldl (bfsStep p curr) (dist ++ acc, acc) bs =
          (dist ++ (acc ++ delta), acc ++ delta) ∧
        (∀ e ∈ acc ++ delta, e.2 = p + 1 ∧ distIs m e.1 (p + 1) ∧
          mlookup dist e.1 = none) ∧
        (∀ btn ∈ bs, mlookup (dist ++ (acc ++ delta)) (applyButton btn curr) ≠ none) := by
  intro bs
  induction bs with
  | nil =>
    intro _ acc hacc
    refine ⟨[], by simp, by simpa using hacc, by simp⟩
  | cons b bs' ih =>
    intro hbs acc hacc
    have hbm : b ∈ m.buttons := hbs b (List.mem_cons_self b bs')
    have hbs' : ∀ x ∈ bs', x ∈ m.buttons := fun x hx => hbs x (List.mem_cons_of_mem b hx)
    rw [List.foldl_cons]
    cases hlk : mlookup (dist ++ acc) (applyButton b curr) with
    | some dv =>
      have hskip : ¬ p + 1 < dv := by
        rcases mlookup_append_cases dist acc _ dv hlk with hin | ⟨_, hin⟩
        · have hdv : distIs m (applyButton b curr) dv := hexact _ _ hin
          obtain ⟨j, hj, hdj⟩ := distIs_succ_le m curr _ p hcur b hbm rfl
          have : dv = j := distIs_unique m _ _ _ hdv hdj
          omega
        · have := (hacc _ (mlookup_some_mem acc _ _ hin)).1
          simp at this
          omega
      rw [bfsStep_skip p curr (dist ++ acc, acc) b dv hlk hskip]
      obtain ⟨delta, heq, hprops, hcov⟩ := ih hbs' acc hacc
      refine ⟨delta, heq, hprops, ?_⟩
      intro btn hbtn
      rcases List.mem_cons.1 hbtn with rfl | hbtn'
      · rw [← List.append_assoc]
        rw [mlookup_append_some (dist ++ acc) delta _ dv hlk]
        simp
      · exact hcov btn hbtn'
    | none =>
      obtain ⟨hd, ha⟩ := mlookup_append_none_split dist acc _ hlk
      rw [bfsStep_none p curr (dist ++ acc, acc) b hlk]
      have hmset : mset (dist ++ acc) (applyButton b curr) (p + 1) =
          dist ++ (acc ++ [(applyButton b curr, p + 1)]) := by
        rw [mset_absent _ _ _ hlk, List.append_assoc]
      have hnew : distIs m (applyButton b curr) (p + 1) := by
        obtain ⟨j, hj, hdj⟩ := distIs_succ_le m curr _ p hcur b hbm rfl
        have : j = p + 1 := by
          by_contra hne
          have hjp : j ≤ p := by omega
          exact hcompl _ j hdj hjp hd
        rw [← this]
        exact hdj
      have hacc2 : ∀ e ∈ acc ++ [(applyButton b curr, p + 1)],
          e.2 = p + 1 ∧ distIs m e.1 (p + 1) ∧ mlookup dist e.1 = none := by
        intro e he
        rcases List.mem_append.1 he with he1 | he2
        · exact hacc e he1
        · simp at he2
          rw [he2]
          exact ⟨rfl, hnew, hd⟩
      obtain ⟨delta', heq, hprops, hcov⟩ := ih hbs' (acc ++ [(applyButton b curr, p + 1)]) hacc2
      refine ⟨(applyButton b curr, p + 1) :: delta', ?_, ?_, ?_⟩
      · show List.foldl (bfsStep p curr) (mset (dist ++ acc) _ (p + 1), _) bs' = _
        rw [hmset]
        rw [heq]
        simp
      · intro e he
        apply hprops
        simp at he ⊢
        tauto
      · intro btn hbtn
        rcases List.mem_cons.1 hbtn with rfl | hbtn'
        · rw [mlookup_append_none dist _ _ hd]
          rw [mlookup_append_none acc _ _ ha]
          rw [mlookup_cons_self]
          simp
        · have hc := hcov btn hbtn'
          rw [List.append_assoc, List.singleton_append] at hc
          exact hc

theorem mlookup_const_mem {α : Type} [DecidableEq α] (c : Nat) :
    ∀ (l : List (α × Nat)), (∀ x ∈ l, x.2 = c) → ∀ e ∈ l, mlookup l e.1 = some c := by
  intro l
  induction l with
  | nil => intro _ e he; simp at he
  | cons x rest ih =>
    intro hall e he
    by_cases hx : x.1 = e.1
    · show (if x.1 = e.1 then some x.2 else _) = _
      rw [if_pos hx, hall x (List.mem_cons_self x rest)]
    · show (if x.1 = e.1 then some x.2 else mlookup rest e.1) = _
      rw [if_neg hx]
      rcases List.mem_cons.1 he with rfl | he'
      · exact absurd rfl hx
      · exact ih (fun y hy => hall y (List.mem_cons_of_mem x hy)) e he'

theorem pairwise_snd_const {α : Type} (c : Nat) :
    ∀ (l : List (α × Nat)), (∀ x ∈ l, x.2 = c) →
      List.Pairwise (fun a b : α × Nat => a.2 ≤ b.2) l := by
  intro l
  induction l with
  | nil => intro _; exact List.Pairwise.nil
  | cons x rest ih =>
    intro hall
    refine List.Pairwise.cons ?_ (ih fun y hy => hall y (List.mem_cons_of_mem x hy))
    intro y hy
    rw [hall x (List.mem_cons_self x rest), hall y (List.mem_cons_of_mem x hy)]

theorem bfsInv_init (m : Machine) :
    BfsInv m [(zeroState m, 0)] [(zeroState m, 0)] := by
  have hz : mstatesAt m 0 = [zeroState m] := rfl
  have hlk : ∀ s v, mlookup [(zeroState m, 0)] s = some v → s = zeroState m ∧ v = 0 := by
    intro s v h
    simp only [mlookup] at h
    by_cases hs : zeroState m = s
    · rw [if_pos hs] at h
      exact ⟨hs.symm, (Option.some_inj.1 h).symm⟩
    · rw [if_neg hs] at h
      exact absurd h (by simp)
  refine ⟨?_, ?_, ?_, ?_, ?_, ?_, ?_⟩
  · intro e he
    simp at he
    rw [he]
    simp [mlookup]
  · simp
  · intro e he hd hhd
    simp at he hhd
    rw [he]
    omega
  · intro s v h
    obtain ⟨rfl, rfl⟩ := hlk s v h
    exact ⟨by rw [hz]; exact List.mem_singleton.2 rfl, by omega⟩
  · intro u j hdj hd hhd hj
    simp at hhd
    rw [← hhd] at hj
    simp at hj
    rw [hj] at hdj
    have : u ∈ mstatesAt m 0 := hdj.1
    rw [hz] at this
    have hu : u = zeroState m := List.mem_singleton.1 this
    rw [hu]
    simp [mlookup]
  · intro s v h
    obtain ⟨rfl, rfl⟩ := hlk s v h
    exact Or.inl ⟨(zeroState m, 0), List.mem_singleton.2 rfl, rfl⟩
  · intro h
    by_cases ht : zeroState m = m.target
    · exact ⟨(zeroState m, 0), List.mem_singleton.2 rfl, ht⟩
    · simp [mlookup, ht] at h

theorem bfsInv_step (m : Machine) (curr : List Nat) (p : Nat)
    (rest dist : List (List Nat × Nat))
    (hinv : BfsInv m ((curr, p) :: rest) dist)
    (hne : curr ≠ m.target) :
    BfsInv m (rest ++ (bfsExpand m.buttons curr p dist).2)
      (bfsExpand m.buttons curr p dist).1 ∧
      ∀ btn ∈ m.buttons,
        mlookup (bfsExpand m.buttons curr p dist).1 (applyButton btn curr) ≠ none := by
  have hlkc : mlookup dist curr = some p := hinv.entries (curr, p) (List.mem_cons_self _ _)
  have hcur : distIs m curr p := hinv.dexact curr p hlkc
  have hcompl : ∀ u j, distIs m u j → j ≤ p → mlookup dist u ≠ none := by
    intro u j hdj hjp
    exact hinv.complete u j hdj (curr, p) rfl hjp
  obtain ⟨delta, heq, hfresh, hcov⟩ :=
    bfsExpand_fold m curr p dist hcur hinv.dexact hcompl m.buttons (fun b hb => hb) []
      (by simp)
  rw [List.append_nil] at heq
  simp only [List.nil_append] at heq hfresh hcov
  have hexp : bfsExpand m.buttons curr p dist = (dist ++ delta, delta) := heq
  rw [hexp]
  have hfv : ∀ e ∈ delta, e.2 = p + 1 := fun e he => (hfresh e he).1
  have hfd : ∀ e ∈ delta, distIs m e.1 (p + 1) := fun e he => (hfresh e he).2.1
  have hfn : ∀ e ∈ delta, mlookup dist e.1 = none := fun e he => (hfresh e he).2.2
  obtain ⟨hhead, hrest⟩ := List.pairwise_cons.1 hinv.sorted
  have hgap : ∀ e ∈ rest, e.2 ≤ p + 1 := by
    intro e he
    exact hinv.gap e (List.mem_cons_of_mem _ he) (curr, p) rfl
  refine ⟨⟨?_, ?_, ?_, ?_, ?_, ?_, ?_⟩, hcov⟩
  · -- entries
    intro e he
    rcases List.mem_append.1 he with h1 | h2
    · exact mlookup_append_some dist delta _ _ (hinv.entries e (List.mem_cons_of_mem _ h1))
    · rw [mlookup_append_none dist delta _ (hfn e h2),
        mlookup_const_mem (p + 1) delta hfv e h2, (hfv e h2)]
  · -- sorted
    rw [List.pairwise_append]
    refine ⟨hrest, pairwise_snd_const (p + 1) delta hfv, ?_⟩
    intro a ha b hb
    rw [hfv b hb]
    exact hgap a ha
  · -- gap
    intro e he hd hhd
    cases rest with
    | nil =>
      simp only [List.nil_append] at he hhd
      have hdm : hd ∈ delta := by
        cases delta with
        | nil => simp at hhd
        | cons d ds =>
          simp at hhd
          rw [← hhd]
          exact List.mem_cons_self d ds
      rw [hfv e he, hfv hd hdm]
      omega
    | cons r0 rest' =>
      simp only [List.cons_append, List.head?_cons, Option.some_inj] at hhd
      have hr0 : p ≤ r0.2 := hhead r0 (List.mem_cons_self r0 rest')
      rcases List.mem_append.1 he with h1 | h2
      · have h3 := hinv.gap e (List.mem_cons_of_mem _ h1) (curr, p) rfl
        rw [← hhd]
        simp at h3 ⊢
        omega
      · rw [hfv e h2, ← hhd]
        omega
  · -- dexact
    intro s v h
    rcases mlookup_append_cases dist delta s v h with h1 | ⟨h1, h2⟩
    · exact hinv.dexact s v h1
    · have hm := mlookup_some_mem delta s v h2
      have h3 := hfresh (s, v) hm
      have h4 : v = p + 1 := h3.1
      rw [h4]
      exact h3.2.1
  · -- complete
    intro u j hdj hd hhd hj
    by_cases hjp : j ≤ p
    · have h1 := hcompl u j hdj hjp
      cases hu : mlookup dist u with
      | none => exact absurd hu h1
      | some w =>
        rw [mlookup_append_some dist delta u w hu]
        simp
    · have hdmem : hd ∈ rest ++ delta := by
        cases hq : rest ++ delta with
        | nil => rw [hq] at hhd; simp at hhd
        | cons x xs =>
          rw [hq] at hhd
          simp at hhd
          rw [← hhd]
          exact List.mem_cons_self x xs
      have hhd2 : hd.2 ≤ p + 1 := by
        rcases List.mem_append.1 hdmem with h1 | h2
        · exact hgap hd h1
        · rw [hfv hd h2]
      have hj1 : j = p + 1 := by omega
      rw [hj1] at hdj
      obtain ⟨w, hw, btn, hbtn, hu⟩ := mstatesAt_pred m u p hdj.1
      obtain ⟨j', hj', hdw⟩ := distIs_exists m w p hw
      have hlw : mlookup dist w ≠ none := hcompl w j' hdw hj'
      cases hval : mlookup dist w with
      | none => exact absurd hval hlw
      | some val =>
      have hdval : distIs m w val := hinv.dexact w val hval
      have hvj : val = j' := distIs_unique m w _ _ hdval hdw
      rcases hinv.closedness w val hval with ⟨e, he, hew⟩ | hcl
      · rcases List.mem_cons.1 he with heq1 | her
        · have hwc : curr = w := by rw [heq1] at hew; exact hew
          have := hcov btn hbtn
          rw [hu, ← hwc]
          exact this
        · -- e ∈ rest: contradiction with hd.2 ≥ p + 1
          exfalso
          have hev : e.2 = val := by
            have h5 := hinv.entries e (List.mem_cons_of_mem _ her)
            rw [hew, hval] at h5
            exact (Option.some_inj.1 h5).symm
          cases rest with
          | nil => simp at her
          | cons r0 rest' =>
            have hhdr : hd = r0 := by
              simp only [List.cons_append, List.head?_cons, Option.some_inj] at hhd
              exact hhd.symm
            have hr0e : r0.2 ≤ e.2 := by
              rcases List.mem_cons.1 her with rfl | her2
              · exact le_refl _
              · exact (List.pairwise_cons.1 hrest).1 e her2
            rw [hhdr] at hj
            omega
      · have h6 := hcl btn hbtn
        rw [← hu] at h6
        cases hx : mlookup dist u with
        | none => exact absurd hx h6
        | some w2 =>
          rw [mlookup_append_some dist delta u w2 hx]
          simp
  · -- closedness
    intro s v h
    rcases mlookup_append_cases dist delta s v h with h1 | ⟨h1, h2⟩
    · rcases hinv.closedness s v h1 with ⟨e, he, hes⟩ | hcl
      · rcases List.mem_cons.1 he with heq1 | her
        · right
          intro btn hbtn
          have hsc : curr = s := by rw [heq1] at hes; exact hes
          rw [← hsc]
          exact hcov btn hbtn
        · left
          exact ⟨e, List.mem_append_left _ her, hes⟩
      · right
        intro btn hbtn
        have h3 := hcl btn hbtn
        cases hx : mlookup dist (applyButton btn s) with
        | none => exact absurd hx h3
        | some w2 =>
          rw [mlookup_append_some dist delta _ w2 hx]
          simp
    · left
      exact ⟨(s, v), List.mem_append_right _ (mlookup_some_mem delta s v h2), rfl⟩
  · -- targetq
    intro h
    cases hx : mlookup dist m.target with
    | some w =>
      obtain ⟨e, he, het⟩ := hinv.targetq (by rw [hx]; simp)
      rcases List.mem_cons.1 he with heq1 | her
      · exfalso
        apply hne
        rw [heq1] at het
        exact het
      · exact ⟨e, List.mem_append_left _ her, het⟩
    | none =>
      rw [mlookup_append_none dist delta _ hx] at h
      cases hy : mlookup delta m.target with
      | none => exact absurd hy h
      | some w =>
        exact ⟨(m.target, w), List.mem_append_right _ (mlookup_some_mem delta _ _ hy), rfl⟩

theorem bfs_pop_value (m : Machine) (d : Nat) (hdt : distIs m m.target d)
    (curr : List Nat) (pp : Nat) (rest dist : List (List Nat × Nat))
    (hinv : BfsInv m ((curr, pp) :: rest) dist)
    (hc : curr = m.target) : pp = d := by
  have h1 := hinv.entries (curr, pp) (List.mem_cons_self _ _)
  have h2 := hinv.dexact curr pp h1
  rw [hc] at h2
  exact distIs_unique m m.target pp d h2 hdt

theorem bfs_target_queued (m : Machine) (d : Nat) (hdt : distIs m m.target d) :
    ∀ i q dist, BfsInv m q dist → ∀ e, q.get? i = some e → e.1 = m.target →
      ∃ fuel, bfsLoop m fuel q dist = some (Int.ofNat d) := by
  intro i
  induction i with
  | zero =>
    intro q dist hinv e hget het
    cases q with
    | nil => simp at hget
    | cons hd rest =>
      obtain ⟨curr, pp⟩ := hd
      have he : (curr, pp) = e := Option.some_inj.1 hget
      have hc : curr = m.target := by rw [← he] at het; exact het
      refine ⟨1, ?_⟩
      show (if curr = m.target then some (Int.ofNat pp) else _) = _
      rw [if_pos hc, bfs_pop_value m d hdt curr pp rest dist hinv hc]
  | succ i' ih =>
    intro q dist hinv e hget het
    cases q with
    | nil => simp at hget
    | cons hd rest =>
      obtain ⟨curr, pp⟩ := hd
      have hget' : rest.get? i' = some e := hget
      by_cases hc : curr = m.target
      · refine ⟨1, ?_⟩
        show (if curr = m.target then some (Int.ofNat pp) else _) = _
        rw [if_pos hc, bfs_pop_value m d hdt curr pp rest dist hinv hc]
      · obtain ⟨hinv2, hcov2⟩ := bfsInv_step m curr pp rest dist hinv hc
        have hlen : i' < rest.length := by
          by_contra hge
          rw [List.get?_eq_none.2 (by omega)] at hget'
          simp at hget'
        have hget2 : (rest ++ (bfsExpand m.buttons curr pp dist).2).get? i' = some e := by
          rw [List.get?_append hlen]
          exact hget'
        obtain ⟨fuel, hf⟩ := ih _ _ hinv2 e hget2 het
        refine ⟨fuel + 1, ?_⟩
        show (if curr = m.target then _
          else bfsLoop m fuel (rest ++ (bfsExpand m.buttons curr pp dist).2)
            (bfsExpand m.buttons curr pp dist).1) = _
        rw [if_neg hc]
        exact hf

theorem bfs_discovery_aux (m : Machine) (d : Nat) (hdt : distIs m m.target d)
    (w btn : List Nat) (hbtn : btn ∈ m.buttons)
    (IHc : ∀ q dist, BfsInv m q dist → mlookup dist (applyButton btn w) ≠ none →
      ∃ fuel, bfsLoop m fuel q dist = some (Int.ofNat d)) :
    ∀ i q dist, BfsInv m q dist → ∀ e, q.get? i = some e → e.1 = w →
      ∃ fuel, bfsLoop m fuel q dist = some (Int.ofNat d) := by
  intro i
  induction i with
  | zero =>
    intro q dist hinv e hget hew
    cases q with
    | nil => simp at hget
    | cons hd rest =>
      obtain ⟨curr, pp⟩ := hd
      have he : (curr, pp) = e := Option.some_inj.1 hget
      have hcw : curr = w := by rw [← he] at hew; exact hew
      by_cases hc : curr = m.target
      · refine ⟨1, ?_⟩
        show (if curr = m.target then some (Int.ofNat pp) else _) = _
        rw [if_pos hc, bfs_pop_value m d hdt curr pp rest dist hinv hc]
      · obtain ⟨hinv2, hcov2⟩ := bfsInv_step m curr pp rest dist hinv hc
        have hw2 : mlookup (bfsExpand m.buttons curr pp dist).1
            (applyButton btn w) ≠ none := by
          rw [← hcw]
          exact hcov2 btn hbtn
        obtain ⟨fuel, hf⟩ := IHc _ _ hinv2 hw2
        refine ⟨fuel + 1, ?_⟩
        show (if curr = m.target then _
          else bfsLoop m fuel (rest ++ (bfsExpand m.buttons curr pp dist).2)
            (bfsExpand m.buttons curr pp dist).1) = _
        rw [if_neg hc]
        exact hf
  | succ i' ih =>
    intro q dist hinv e hget hew
    cases q with
    | nil => simp at hget
    | cons hd rest =>
      obtain ⟨curr, pp⟩ := hd
      have hget' : rest.get? i' = some e := hget
      by_cases hc : curr = m.target
      · refine ⟨1, ?_⟩
        show (if curr = m.target then some (Int.ofNat pp) else _) = _
        rw [if_pos hc, bfs_pop_value m d hdt curr pp rest dist hinv hc]
      · obtain ⟨hinv2, hcov2⟩ := bfsInv_step m curr pp rest dist hinv hc
        have hlen : i' < rest.length := by
          by_contra hge
          rw [List.get?_eq_none.2 (by omega)] at hget'
          simp at hget'
        have hget2 : (rest ++ (bfsExpand m.buttons curr pp dist).2).get? i' = some e := by
          rw [List.get?_append hlen]
          exact hget'
        obtain ⟨fuel, hf⟩ := ih _ _ hinv2 e hget2 hew
        refine ⟨fuel + 1, ?_⟩
        show (if curr = m.target then _
          else bfsLoop m fuel (rest ++ (bfsExpand m.buttons curr pp dist).2)
            (bfsExpand m.buttons curr pp dist).1) = _
        rw [if_neg hc]
        exact hf

theorem bfs_discovery (m : Machine) (d : Nat) (hdt : distIs m m.target d) :
    ∀ c j w, distIs m w j → j + c = d → m.target ∈ statesFrom m w c →
      ∀ q dist, BfsInv m q dist → mlookup dist w ≠ none →
        ∃ fuel, bfsLoop m fuel q dist = some (Int.ofNat d) := by
  intro c
  induction c with
  | zero =>
    intro j w hdw hjc htc q dist hinv hlw
    have hwt : m.target = w := by simpa [statesFrom] using htc
    rw [← hwt] at hlw
    obtain ⟨e, he, het⟩ := hinv.targetq hlw
    obtain ⟨n, hn⟩ := List.get?_of_mem he
    exact bfs_target_queued m d hdt n q dist hinv e hn het
  | succ ci ih =>
    intro j w hdw hjc htc q dist hinv hlw
    obtain ⟨btn, hbtn, htc'⟩ := (statesFrom_succ_left m ci m.target w).1 htc
    have hw'r : applyButton btn w ∈ mstatesAt m (j + 1) := by
      show applyButton btn w ∈ (mstatesAt m j).flatMap _
      simp only [List.mem_flatMap, List.mem_map]
      exact ⟨w, hdw.1, btn, hbtn, rfl⟩
    obtain ⟨j2, hj2, hdw'⟩ := distIs_exists m (applyButton btn w) (j + 1) hw'r
    have ht2 : m.target ∈ mstatesAt m (j2 + ci) := by
      rw [mstatesAt_eq_statesFrom]
      refine statesFrom_append m ci j2 _ _ _ ?_ htc'
      rw [← mstatesAt_eq_statesFrom]
      exact hdw'.1
    have hge : d ≤ j2 + ci := by
      by_contra hlt
      push_neg at hlt
      exact hdt.2 _ hlt ht2
    have hj2e : j2 = j + 1 := by omega
    rw [hj2e] at hdw'
    cases hval : mlookup dist w with
    | none => exact absurd hval hlw
    | some val =>
    rcases hinv.closedness w val hval with ⟨e, he, hew⟩ | hcl
    · obtain ⟨n, hn⟩ := List.get?_of_mem he
      exact bfs_discovery_aux m d hdt w btn hbtn
        (fun q2 dist2 hinv2 hlw2 => ih (j + 1) _ hdw' (by omega) htc' q2 dist2 hinv2 hlw2)
        n q dist hinv e hn hew
    · exact ih (j + 1) _ hdw' (by omega) htc' q dist hinv (hcl btn hbtn)

theorem minPresses_finds_shortest (m : Machine)
    (hreach : ∃ k, reachIn m k m.target) :
    ∃ d fuel, minPressesF fuel m = some (Int.ofNat d) ∧ shortestIs m d := by
  obtain ⟨k, hk⟩ := hreach
  obtain ⟨d, hdk, hdt⟩ := distIs_exists m m.target k hk
  have hz : distIs m (zeroState m) 0 := by
    constructor
    · show zeroState m ∈ [zeroState m]
      exact List.mem_singleton.2 rfl
    · intro j hj
      exact absurd hj (Nat.not_lt_zero j)
  have htc : m.target ∈ statesFrom m (zeroState m) d := by
    rw [← mstatesAt_eq_statesFrom]
    exact hdt.1
  obtain ⟨fuel, hf⟩ := bfs_discovery m d hdt d 0 (zeroState m) hz (by omega) htc
    [(zeroState m, 0)] [(zeroState m, 0)] (bfsInv_init m) (by simp [mlookup])
  exact ⟨d, fuel, hf, hdt⟩

/-- C1: for every well-formed machine (all button indices address
existing counters) whose target vector is reachable from all-zeros by
button presses, `minPresses` terminates (at some iteration bound) with
the length of a shortest press sequence; and the per-machine minima of
the documented example input (2, 3 and 2) accumulate, as `main` does, to
the documented 7 total presses. -/
theorem minPresses_shortest_and_example_total :
    (∀ m : Machine, m.wf → (∃ k, reachIn m k m.target) →
      ∃ d fuel, minPressesF fuel m = some (Int.ofNat d) ∧ shortestIs m d) ∧
    totalFewest exampleMachineMinima = 7 := by
  constructor
  · intro m _ hreach
    exact minPresses_finds_shortest m hreach
  · rfl

/-- Witness for C1: a concrete well-formed machine with reachable target
`{2,1}` on which the theorem applies; its hypotheses hold by computation. -/
theorem minPresses_shortest_witness :
    c1WitnessMachine.wf ∧
      (∃ k, reachIn c1WitnessMachine k c1WitnessMachine.target) ∧
      ∃ d fuel, minPressesF fuel c1WitnessMachine = some (Int.ofNat d) ∧
        shortestIs c1WitnessMachine d :=
  ⟨by decide, ⟨2, by decide⟩,
    minPresses_shortest_and_example_total.1 c1WitnessMachine (by decide) ⟨2, by decide⟩⟩

theorem getD_set_self {α : Type} (d : α) :
    ∀ (l : List α) (i : Nat) (v : α), i < l.length → (l.set i v).getD i d = v := by
  intro l
  induction l with
  | nil => intro i v h; simp at h
  | cons a rest ih =>
    intro i v h
    cases i with
    | zero => rfl
    | succ j =>
      show (rest.set j v).getD j d = v
      exact ih j v (by simpa using h)

theorem getD_set_ne {α : Type} (d : α) :
    ∀ (l : List α) (i j : Nat) (v : α), i ≠ j → (l.set i v).getD j d = l.getD j d := by
  intro l
  induction l with
  | nil => intro i j v _; simp
  | cons a rest ih =>
    intro i j v hij
    cases i with
    | zero =>
      cases j with
      | zero => exact absurd rfl hij
      | succ j2 => rfl
    | succ i2 =>
      cases j with
      | zero => rfl
      | succ j2 =>
        show (rest.set i2 v).getD j2 d = rest.getD j2 d
        exact ih i2 j2 v (fun h => hij (by rw [h]))

theorem sum_set_int : ∀ (l : List Int) (i : Nat), i < l.length →
    (l.set i (l.getD i 0 + 1)).sum = l.sum + 1 := by
  intro l
  induction l with
  | nil => intro i h; simp at h
  | cons a rest ih =>
    intro i h
    cases i with
    | zero =>
      show ((a + 1) :: rest).sum = (a :: rest).sum + 1
      simp [List.sum_cons]
      ring
    | succ j =>
      show (a :: rest.set j (rest.getD j 0 + 1)).sum = (a :: rest).sum + 1
      simp only [List.sum_cons]
      rw [ih j (by simpa using h)]
      ring

theorem sum_set_nat : ∀ (l : List Nat) (i : Nat), i < l.length →
    (l.set i (l.getD i 0 + 1)).sum = l.sum + 1 := by
  intro l
  induction l with
  | nil => intro i h; simp at h
  | cons a rest ih =>
    intro i h
    cases i with
    | zero =>
      show ((a + 1) :: rest).sum = (a :: rest).sum + 1
      simp [List.sum_cons]
      omega
    | succ j =>
      show (a :: rest.set j (rest.getD j 0 + 1)).sum = (a :: rest).sum + 1
      simp only [List.sum_cons]
      rw [ih j (by simpa using h)]
      omega

theorem getD_le_sum_nat : ∀ (l : List Nat) (i : Nat), l.getD i 0 ≤ l.sum := by
  intro l
  induction l with
  | nil => intro i; simp
  | cons a rest ih =>
    intro i
    cases i with
    | zero => show a ≤ (a :: rest).sum; simp [List.sum_cons]
    | succ j =>
      show rest.getD j 0 ≤ (a :: rest).sum
      calc rest.getD j 0 ≤ rest.sum := ih j
        _ ≤ (a :: rest).sum := by simp [List.sum_cons]

theorem sum_le_sum_getD : ∀ (tg s : List Int), s.length = tg.length →
    (∀ i < tg.length, s.getD i 0 ≤ tg.getD i 0) → s.sum ≤ tg.sum := by
  intro tg
  induction tg with
  | nil =>
    intro s hlen _
    rw [List.length_nil] at hlen
    rw [List.eq_nil_of_length_eq_zero hlen]
  | cons t ts ih =>
    intro s hlen hle
    cases s with
    | nil => simp at hlen
    | cons a s2 =>
      simp only [List.sum_cons]
      have h0 : a ≤ t := hle 0 (by simp)
      have h2 : s2.sum ≤ ts.sum := by
        refine ih s2 (by simpa using hlen) ?_
        intro i hi
        exact hle (i + 1) (by simpa using hi)
      omega

theorem pressStep_length (n : Nat) (tg : List Int) :
    ∀ (b : List Nat) (s s2 : List Int), pressStep n tg b s = some s2 →
      s2.length = s.length := by
  intro b
  induction b with
  | nil =>
    intro s s2 h
    simp [pressStep] at h
    rw [← h]
  | cons idx rest ih =>
    intro s s2 h
    simp only [pressStep] at h
    by_cases hidx : idx < n
    · rw [if_pos hidx] at h
      by_cases hgt : (s.set idx (s.getD idx 0 + 1)).getD idx 0 > tg.getD idx 0
      · rw [if_pos hgt] at h; exact absurd h (by simp)
      · rw [if_neg hgt] at h
        rw [ih _ _ h]
        simp
    · rw [if_neg hidx] at h
      exact ih _ _ h

theorem pressStep_box (n : Nat) (tg : List Int) (hn : n = tg.length) :
    ∀ (b : List Nat) (s s2 : List Int), pressStep n tg b s = some s2 →
      inBox tg s → inBox tg s2 := by
  intro b
  induction b with
  | nil =>
    intro s s2 h hbox
    simp [pressStep] at h
    rw [← h]
    exact hbox
  | cons idx rest ih =>
    intro s s2 h hbox
    simp only [pressStep] at h
    by_cases hidx : idx < n
    · rw [if_pos hidx] at h
      by_cases hgt : (s.set idx (s.getD idx 0 + 1)).getD idx 0 > tg.getD idx 0
      · rw [if_pos hgt] at h; exact absurd h (by simp)
      · rw [if_neg hgt] at h
        refine ih _ _ h ?_
        have hidx2 : idx < s.length := by rw [hbox.1, ← hn]; exact hidx
        constructor
        · rw [List.length_set]; exact hbox.1
        · intro i hi
          by_cases hie : idx = i
          · rw [← hie]
            rw [getD_set_self 0 s idx _ hidx2]
            constructor
            · have := (hbox.2 idx (by rw [← hn]; exact hidx)).1
              omega
            · rw [getD_set_self 0 s idx _ hidx2] at hgt
              omega
          · rw [getD_set_ne 0 s idx i _ hie]
            exact hbox.2 i hi
    · rw [if_neg hidx] at h
      exact ih _ _ h hbox

theorem pressStep_sum (n : Nat) (tg : List Int) :
    ∀ (b : List Nat) (s s2 : List Int), pressStep n tg b s = some s2 →
      s.length = n →
      s.sum ≤ s2.sum ∧ (s2 = s ∨ s.sum < s2.sum) := by
  intro b
  induction b with
  | nil =>
    intro s s2 h _
    simp [pressStep] at h
    rw [← h]
    exact ⟨le_refl _, Or.inl rfl⟩
  | cons idx rest ih =>
    intro s s2 h hlen
    simp only [pressStep] at h
    by_cases hidx : idx < n
    · rw [if_pos hidx] at h
      by_cases hgt : (s.set idx (s.getD idx 0 + 1)).getD idx 0 > tg.getD idx 0
      · rw [if_pos hgt] at h; exact absurd h (by simp)
      · rw [if_neg hgt] at h
        have hidx2 : idx < s.length := by omega
        have hsum : (s.set idx (s.getD idx 0 + 1)).sum = s.sum + 1 :=
          sum_set_int s idx hidx2
        have hlen2 : (s.set idx (s.getD idx 0 + 1)).length = n := by
          rw [List.length_set]; exact hlen
        obtain ⟨h1, _⟩ := ih _ _ h hlen2
        rw [hsum] at h1
        exact ⟨by omega, Or.inr (by omega)⟩
    · rw [if_neg hidx] at h
      exact ih _ _ h hlen

theorem pDistIs_unique (bs : List (List Nat)) (tg : List Int) (s : List Int) (a b : Nat)
    (ha : pDistIs bs tg s a) (hb : pDistIs bs tg s b) : a = b := by
  rcases Nat.lt_trichotomy a b with h | h | h
  · exact absurd ha.1 (hb.2 a h)
  · exact h
  · exact absurd hb.1 (ha.2 b h)

theorem pDistIs_exists (bs : List (List Nat)) (tg : List Int) (s : List Int) (k : Nat)
    (h : s ∈ pStatesAt bs tg k) : ∃ d ≤ k, pDistIs bs tg s d := by
  have hex : ∃ j, s ∈ pStatesAt bs tg j := ⟨k, h⟩
  refine ⟨Nat.find hex, Nat.find_min' hex h, Nat.find_spec hex, ?_⟩
  intro j hj
  exact Nat.find_min hex hj

theorem mem_pSuccs (bs : List (List Nat)) (tg : List Int) (s u : List Int) :
    u ∈ pSuccs bs tg s ↔ ∃ b ∈ bs, pressStep tg.length tg b s = some u := by
  simp [pSuccs, List.mem_filterMap]

theorem mem_pStatesAt_succ (bs : List (List Nat)) (tg : List Int) (u : List Int) (k : Nat) :
    u ∈ pStatesAt bs tg (k + 1) ↔
      ∃ w ∈ pStatesAt bs tg k, ∃ b ∈ bs, pressStep tg.length tg b w = some u := by
  show u ∈ (pStatesAt bs tg k).flatMap _ ↔ _
  simp only [List.mem_flatMap, mem_pSuccs]

theorem pDist_succ_le (bs : List (List Nat)) (tg : List Int) (w u : List Int) (p : Nat)
    (hw : pDistIs bs tg w p) (b : List Nat) (hb : b ∈ bs)
    (hu : pressStep tg.length tg b w = some u) :
    ∃ j ≤ p + 1, pDistIs bs tg u j := by
  have : u ∈ pStatesAt bs tg (p + 1) :=
    (mem_pStatesAt_succ bs tg u p).2 ⟨w, hw.1, b, hb, hu⟩
  exact pDistIs_exists bs tg u (p + 1) this

theorem getD_mem_of_lt {α : Type} (d : α) :
    ∀ (l : List α) (i : Nat), i < l.length → l.getD i d ∈ l := by
  intro l
  induction l with
  | nil => intro i h; simp at h
  | cons a rest ih =>
    intro i h
    cases i with
    | zero => exact List.mem_cons_self a rest
    | succ j =>
      show rest.getD j d ∈ a :: rest
      exact List.mem_cons_of_mem a (ih j (by simpa using h))

theorem pStatesAt_box (bs : List (List Nat)) (tg : List Int)
    (hnn : ∀ t ∈ tg, 0 ≤ t) :
    ∀ k, ∀ s ∈ pStatesAt bs tg k, inBox tg s := by
  intro k
  induction k with
  | zero =>
    intro s hs
    have : s = List.replicate tg.length 0 := List.mem_singleton.1 hs
    rw [this]
    refine ⟨by simp, ?_⟩
    intro i hi
    have hz : (List.replicate tg.length (0 : Int)).getD i 0 = 0 := by
      rcases Nat.lt_or_ge i tg.length with h | h
      · rw [List.getD_eq_getElem?_getD]
        simp [List.getElem?_replicate, h]
      · rw [List.getD_eq_getElem?_getD]
        rw [List.getElem?_eq_none (by simpa using h)]
        rfl
    rw [hz]
    refine ⟨le_refl _, ?_⟩
    rcases Nat.lt_or_ge i tg.length with h | h
    · exact hnn (tg.getD i 0) (getD_mem_of_lt 0 tg i h)
    · omega
  | succ j ih =>
    intro s hs
    obtain ⟨w, hw, b, hb, hps⟩ := (mem_pStatesAt_succ bs tg s j).1 hs
    exact pressStep_box tg.length tg rfl b w s hps (ih w hw)

theorem getD_replicate_zero : ∀ (n i : Nat), (List.replicate n (0 : Int)).getD i 0 = 0 := by
  intro n
  induction n with
  | zero => intro i; simp
  | succ k ih =>
    intro i
    cases i with
    | zero => rfl
    | succ j => exact ih j

theorem boxList_mem : ∀ (tg s : List Int), (∀ t ∈ tg, 0 ≤ t) → inBox tg s →
    s ∈ boxList tg := by
  intro tg
  induction tg with
  | nil =>
    intro s _ hbox
    have : s = [] := List.eq_nil_of_length_eq_zero (by simpa using hbox.1)
    rw [this]
    exact List.mem_singleton.2 rfl
  | cons t ts ih =>
    intro s hnn hbox
    cases s with
    | nil =>
      have := hbox.1
      simp at this
    | cons a s2 =>
      have h0 := hbox.2 0 (by simp)
      have ha0 : (0 : Int) ≤ a := h0.1
      have hat : a ≤ t := h0.2
      show (a :: s2) ∈ List.flatMap _ _
      rw [List.mem_flatMap]
      refine ⟨a, ?_, ?_⟩
      · rw [List.mem_map]
        refine ⟨a.toNat, ?_, Int.toNat_of_nonneg ha0⟩
        rw [List.mem_range]
        have := Int.toNat_le_toNat hat
        have ht0 : (0 : Int) ≤ t := le_trans ha0 hat
        omega
      · rw [List.mem_map]
        refine ⟨s2, ?_, rfl⟩
        refine ih s2 (fun x hx => hnn x (List.mem_cons_of_mem t hx)) ⟨by simpa using hbox.1, ?_⟩
        intro i hi
        exact hbox.2 (i + 1) (by simpa using hi)

theorem nodup_box_length_le (tg : List Int) (vis : List (List Int))
    (h1 : vis.Nodup) (hnn : ∀ t ∈ tg, 0 ≤ t) (h2 : ∀ s ∈ vis, inBox tg s) :
    vis.length ≤ (boxList tg).length :=
  (List.Nodup.subperm h1 (fun s hs => boxList_mem tg s hnn (h2 s hs))).length_le

theorem bExpand_spec (bs : List (List Nat)) (tg : List Int) (cap : Nat)
    (cur : List Int) (presses : Nat) (pc : List Nat)
    (hcur : pDistIs bs tg cur presses)
    (hbox : inBox tg cur)
    (hsum : (presses : Int) ≤ cur.sum)
    (hpcsum : pc.sum = presses)
    (hcap : presses < cap)
    (vis0 : List (List Int))
    (hvc : cur ∈ vis0)
    (hcomplete : ∀ u j, pDistIs bs tg u j → j ≤ presses → u ∈ vis0) :
    ∀ bsl i0 acc,
      (∀ b ∈ bsl, b ∈ bs) →
      i0 + bsl.length ≤ pc.length →
      (∀ e ∈ acc, e.2.1 = presses + 1 ∧ pDistIs bs tg e.1 (presses + 1) ∧
        e.1 ∉ vis0 ∧ inBox tg e.1 ∧ e.2.2.sum = presses + 1 ∧
        e.2.2.length = pc.length ∧ ((presses : Int) + 1) ≤ e.1.sum) →
      (vis0 ++ acc.map (fun e => e.1)).Nodup →
      ∃ fresh,
        bExpand tg cap cur presses pc bsl i0 (vis0 ++ acc.map (fun e => e.1)) acc =
          (vis0 ++ (acc ++ fresh).map (fun e => e.1), acc ++ fresh) ∧
        (∀ e ∈ acc ++ fresh, e.2.1 = presses + 1 ∧ pDistIs bs tg e.1 (presses + 1) ∧
          e.1 ∉ vis0 ∧ inBox tg e.1 ∧ e.2.2.sum = presses + 1 ∧
          e.2.2.length = pc.length ∧ ((presses : Int) + 1) ≤ e.1.sum) ∧
        (vis0 ++ (acc ++ fresh).map (fun e => e.1)).Nodup ∧
        (∀ b ∈ bsl, ∀ s2, pressStep tg.length tg b cur = some s2 →
          s2 ∈ vis0 ++ (acc ++ fresh).map (fun e => e.1)) := by
  intro bsl
  induction bsl with
  | nil =>
    intro i0 acc _ _ hacc hnd
    refine ⟨[], by simp [bExpand], by simpa using hacc, by simpa using hnd, by simp⟩
  | cons b bsl' ih =>
    intro i0 acc hbsl hidx hacc hnd
    have hbm : b ∈ bs := hbsl b (List.mem_cons_self b bsl')
    have hbsl' : ∀ x ∈ bsl', x ∈ bs := fun x hx => hbsl x (List.mem_cons_of_mem b hx)
    have hidx' : i0 + 1 + bsl'.length ≤ pc.length := by
      simp at hidx
      omega
    have hi0 : i0 < pc.length := by
      simp at hidx
      omega
    have hskip : ¬ cap ≤ pc.getD i0 0 := by
      have := getD_le_sum_nat pc i0
      omega
    cases hps : pressStep tg.length tg b cur with
    | none =>
      have hstep : bExpand tg cap cur presses pc (b :: bsl') i0
          (vis0 ++ acc.map (fun e => e.1)) acc =
          bExpand tg cap cur presses pc bsl' (i0 + 1)
            (vis0 ++ acc.map (fun e => e.1)) acc := by
        simp only [bExpand]
        rw [if_neg hskip, hps]
      rw [hstep]
      obtain ⟨fresh, heq, hprop, hnd2, hcov⟩ := ih (i0 + 1) acc hbsl' hidx' hacc hnd
      refine ⟨fresh, heq, hprop, hnd2, ?_⟩
      intro b2 hb2 s2 hs2
      rcases List.mem_cons.1 hb2 with rfl | hb2'
      · rw [hps] at hs2; exact absurd hs2 (by simp)
      · exact hcov b2 hb2' s2 hs2
    | some st2 =>
      by_cases hmem : st2 ∈ vis0 ++ acc.map (fun e => e.1)
      · have hstep : bExpand tg cap cur presses pc (b :: bsl') i0
            (vis0 ++ acc.map (fun e => e.1)) acc =
            bExpand tg cap cur presses pc bsl' (i0 + 1)
              (vis0 ++ acc.map (fun e => e.1)) acc := by
          simp only [bExpand]
          rw [if_neg hskip, hps]
          simp only [if_pos hmem]
        rw [hstep]
        obtain ⟨fresh, heq, hprop, hnd2, hcov⟩ := ih (i0 + 1) acc hbsl' hidx' hacc hnd
        refine ⟨fresh, heq, hprop, hnd2, ?_⟩
        intro b2 hb2 s2 hs2
        rcases List.mem_cons.1 hb2 with rfl | hb2'
        · have hss : st2 = s2 := by rw [hps] at hs2; exact Option.some_inj.1 hs2
          rw [← hss]
          rcases List.mem_append.1 hmem with h1 | h2
          · exact List.mem_append_left _ h1
          · refine List.mem_append_right _ ?_
            rw [List.map_append]
            exact List.mem_append_left _ h2
        · exact hcov b2 hb2' s2 hs2
      · have hstv : st2 ∉ vis0 := fun h => hmem (List.mem_append_left _ h)
        have hdj : pDistIs bs tg st2 (presses + 1) := by
          obtain ⟨j, hj, hdj⟩ := pDist_succ_le bs tg cur st2 presses hcur b hbm hps
          have : j = presses + 1 := by
            by_contra hne
            have hjp : j ≤ presses := by omega
            exact hstv (hcomplete st2 j hdj hjp)
          rw [← this]
          exact hdj
        have hbox2 : inBox tg st2 := pressStep_box tg.length tg rfl b cur st2 hps hbox
        have hpc2 : (pc.set i0 (pc.getD i0 0 + 1)).sum = presses + 1 := by
          rw [sum_set_nat pc i0 hi0, hpcsum]
        have hpcl2 : (pc.set i0 (pc.getD i0 0 + 1)).length = pc.length := by
          simp
        have hsum2 : ((presses : Int) + 1) ≤ st2.sum := by
          obtain ⟨h1, h2⟩ := pressStep_sum tg.length tg b cur st2 hps hbox.1
          rcases h2 with rfl | h2
          · exact absurd (List.mem_append_left _ hvc) hmem
          · omega
        have hstep : bExpand tg cap cur presses pc (b :: bsl') i0
            (vis0 ++ acc.map (fun e => e.1)) acc =
            bExpand tg cap cur presses pc bsl' (i0 + 1)
              (vis0 ++ (acc ++ [(st2, presses + 1,
                pc.set i0 (pc.getD i0 0 + 1))]).map (fun e => e.1))
              (acc ++ [(st2, presses + 1, pc.set i0 (pc.getD i0 0 + 1))]) := by
          simp only [bExpand]
          rw [if_neg hskip, hps]
          simp only [if_neg hmem]
          simp [List.map_append, List.append_assoc]
        rw [hstep]
        have hacc2 : ∀ e ∈ acc ++ [(st2, presses + 1, pc.set i0 (pc.getD i0 0 + 1))],
            e.2.1 = presses + 1 ∧ pDistIs bs tg e.1 (presses + 1) ∧
            e.1 ∉ vis0 ∧ inBox tg e.1 ∧ e.2.2.sum = presses + 1 ∧
            e.2.2.length = pc.length ∧ ((presses : Int) + 1) ≤ e.1.sum := by
          intro e he
          rcases List.mem_append.1 he with h1 | h2
          · exact hacc e h1
          · have he2 : e = (st2, presses + 1, pc.set i0 (pc.getD i0 0 + 1)) := by
              simpa using h2
            rw [he2]
            exact ⟨rfl, hdj, hstv, hbox2, hpc2, hpcl2, hsum2⟩
        have hnd2 : (vis0 ++ (acc ++ [(st2, presses + 1,
            pc.set i0 (pc.getD i0 0 + 1))]).map (fun e => e.1)).Nodup := by
          rw [List.map_append, ← List.append_assoc]
          rw [List.nodup_append]
          refine ⟨hnd, by simp, ?_⟩
          intro a ha hb
          have hb3 : a = st2 := by simpa using hb
          rw [hb3] at ha
          exact hmem ha
        obtain ⟨fresh', heq, hprop, hnd3, hcov⟩ :=
          ih (i0 + 1) (acc ++ [(st2, presses + 1, pc.set i0 (pc.getD i0 0 + 1))])
            hbsl' hidx' hacc2 hnd2
        refine ⟨(st2, presses + 1, pc.set i0 (pc.getD i0 0 + 1)) :: fresh', ?_, ?_, ?_, ?_⟩
        · rw [show acc ++ (st2, presses + 1, pc.set i0 (pc.getD i0 0 + 1)) :: fresh' =
            (acc ++ [(st2, presses + 1, pc.set i0 (pc.getD i0 0 + 1))]) ++ fresh' by simp]
          exact heq
        · intro e he
          apply hprop
          simp at he ⊢
          tauto
        · rw [show acc ++ (st2, presses + 1, pc.set i0 (pc.getD i0 0 + 1)) :: fresh' =
            (acc ++ [(st2, presses + 1, pc.set i0 (pc.getD i0 0 + 1))]) ++ fresh' by simp]
          exact hnd3
        · intro b2 hb2 s2 hs2
          rcases List.mem_cons.1 hb2 with rfl | hb2'
          · have hss : st2 = s2 := by rw [hps] at hs2; exact Option.some_inj.1 hs2
            rw [← hss]
            refine List.mem_append_right _ ?_
            rw [List.mem_map]
            exact ⟨(st2, presses + 1, pc.set i0 (pc.getD i0 0 + 1)), by simp, rfl⟩
          · have hc2 := hcov b2 hb2' s2 hs2
            rw [show acc ++ (st2, presses + 1, pc.set i0 (pc.getD i0 0 + 1)) :: fresh' =
              (acc ++ [(st2, presses + 1, pc.set i0 (pc.getD i0 0 + 1))]) ++ fresh' by simp]
            exact hc2

theorem box_sum_le (tg s : List Int) (h : inBox tg s) : s.sum ≤ tg.sum := by
  refine sum_le_sum_getD tg s h.1 ?_
  intro i hi
  exact (h.2 i hi).2

theorem bInv_pop_target (bs : List (List Nat)) (tg : List Int)
    (cur : List Int) (presses : Nat) (pc : List Nat)
    (rest : List (List Int × Nat × List Nat)) (vis : List (List Int)) (best : Option Nat)
    (hinv : BInv bs tg ((cur, presses, pc) :: rest) vis best)
    (hc : cur = tg) :
    BInv bs tg rest vis (minBest best presses) := by
  have hhd : pDistIs bs tg tg presses := by
    have := hinv.qexact (cur, presses, pc) (List.mem_cons_self _ _)
    rw [hc] at this
    exact this
  obtain ⟨hhead, hrest⟩ := List.pairwise_cons.1 hinv.sorted
  refine ⟨?_, ?_, ?_, ?_, ?_, hrest, ?_, hinv.visbox, hinv.visnd, ?_, ?_, ?_, ?_, ?_,
    hinv.startvis⟩
  · exact fun e he => hinv.qvis e (List.mem_cons_of_mem _ he)
  · exact fun e he => hinv.qexact e (List.mem_cons_of_mem _ he)
  · exact fun e he => hinv.qpc e (List.mem_cons_of_mem _ he)
  · exact fun e he => hinv.qsum e (List.mem_cons_of_mem _ he)
  · exact fun e he => hinv.qbox e (List.mem_cons_of_mem _ he)
  · intro e he hd hhd2
    have h1 := hinv.gap e (List.mem_cons_of_mem _ he) (cur, presses, pc) rfl
    have h2 : hd ∈ rest := by
      cases rest with
      | nil => simp at hhd2
      | cons x xs =>
        simp at hhd2
        rw [← hhd2]
        exact List.mem_cons_self x xs
    have h3 := hhead hd h2
    simp at h1 h3 ⊢
    omega
  · intro hbn
    exact absurd hbn (by simp [minBest]; cases best <;> simp [minBest])
  · intro hbn
    exact absurd hbn (by cases best <;> simp [minBest])
  · intro htv
    right
    cases best <;> simp [minBest]
  · intro bv hbv
    cases best with
    | none =>
      simp [minBest] at hbv
      rw [← hbv]
      exact hhd
    | some b =>
      simp [minBest] at hbv
      have hb := hinv.bestval b rfl
      have : b = presses := pDistIs_unique bs tg tg b presses hb hhd
      rw [← hbv, this]
      simpa using hhd
  · intro bv hbv e he
    cases best with
    | none =>
      simp [minBest] at hbv
      rw [← hbv]
      exact hhead e he
    | some b =>
      simp [minBest] at hbv
      have h1 := hinv.bestle b rfl e (List.mem_cons_of_mem _ he)
      have h2 := hhead e he
      simp at h2
      omega

theorem bInv_pop_skip (bs : List (List Nat)) (tg : List Int)
    (cur : List Int) (presses : Nat) (pc : List Nat)
    (rest : List (List Int × Nat × List Nat)) (vis : List (List Int)) (best : Option Nat)
    (hinv : BInv bs tg ((cur, presses, pc) :: rest) vis best)
    (hble : bestLe best presses = true) :
    BInv bs tg rest vis best := by
  have hbn : best ≠ none := by
    intro h
    rw [h] at hble
    simp [bestLe] at hble
  obtain ⟨hhead, hrest⟩ := List.pairwise_cons.1 hinv.sorted
  refine ⟨?_, ?_, ?_, ?_, ?_, hrest, ?_, hinv.visbox, hinv.visnd, ?_, ?_, ?_, ?_, ?_,
    hinv.startvis⟩
  · exact fun e he => hinv.qvis e (List.mem_cons_of_mem _ he)
  · exact fun e he => hinv.qexact e (List.mem_cons_of_mem _ he)
  · exact fun e he => hinv.qpc e (List.mem_cons_of_mem _ he)
  · exact fun e he => hinv.qsum e (List.mem_cons_of_mem _ he)
  · exact fun e he => hinv.qbox e (List.mem_cons_of_mem _ he)
  · intro e he hd hhd2
    have h1 := hinv.gap e (List.mem_cons_of_mem _ he) (cur, presses, pc) rfl
    have h2 : hd ∈ rest := by
      cases rest with
      | nil => simp at hhd2
      | cons x xs =>
        simp at hhd2
        rw [← hhd2]
        exact List.mem_cons_self x xs
    have h3 := hhead hd h2
    simp at h1 h3 ⊢
    omega
  · intro h; exact absurd h hbn
  · intro h; exact absurd h hbn
  · intro htv
    right
    exact hbn
  · exact fun bv hbv => hinv.bestval bv hbv
  · exact fun bv hbv e he => hinv.bestle bv hbv e (List.mem_cons_of_mem _ he)

theorem bInv_expand (bs : List (List Nat)) (tg : List Int) (cap : Nat)
    (cur : List Int) (presses : Nat) (pc : List Nat)
    (rest : List (List Int × Nat × List Nat)) (vis : List (List Int)) (best : Option Nat)
    (hinv : BInv bs tg ((cur, presses, pc) :: rest) vis best)
    (hne : cur ≠ tg)
    (hble : bestLe best presses = false)
    (htgcap : tg.sum < (cap : Int)) :
    BInv bs tg (rest ++ (bExpand tg cap cur presses pc bs 0 vis []).2)
      (bExpand tg cap cur presses pc bs 0 vis []).1 none ∧
    (bExpand tg cap cur presses pc bs 0 vis []).1 =
      vis ++ (bExpand tg cap cur presses pc bs 0 vis []).2.map (fun e => e.1) ∧
    best = none := by
  have hbest : best = none := by
    cases hb : best with
    | none => rfl
    | some b =>
      rw [hb] at hble
      simp [bestLe] at hble
      have := hinv.bestle b hb (cur, presses, pc) (List.mem_cons_self _ _)
      simp at this
      omega
  have hmem0 : (cur, presses, pc) ∈ (cur, presses, pc) :: rest := List.mem_cons_self _ _
  have hcur : pDistIs bs tg cur presses := hinv.qexact _ hmem0
  have hbox : inBox tg cur := hinv.qbox _ hmem0
  have hsum : (presses : Int) ≤ cur.sum := hinv.qsum _ hmem0
  obtain ⟨hpcsum0, hpclen0⟩ := hinv.qpc _ hmem0
  have hpcsum : pc.sum = presses := hpcsum0
  have hpclen : pc.length = bs.length := hpclen0
  have hsum2 : (presses : Int) ≤ cur.sum := hsum
  have hcap : presses < cap := by
    have h1 : cur.sum ≤ tg.sum := box_sum_le tg cur hbox
    omega
  have hvc : cur ∈ vis := hinv.qvis _ hmem0
  have hcomplete : ∀ u j, pDistIs bs tg u j → j ≤ presses → u ∈ vis := by
    intro u j hdj hjp
    exact hinv.complete hbest u j hdj (cur, presses, pc) rfl hjp
  obtain ⟨fresh, heq, hprop, hnd, hcov⟩ :=
    bExpand_spec bs tg cap cur presses pc hcur hbox hsum hpcsum hcap vis hvc hcomplete
      bs 0 [] (fun b hb => hb) (by omega) (by simp) (by simpa using hinv.visnd)
  simp only [List.map_nil, List.append_nil, List.nil_append] at heq hprop hnd hcov
  have hE : bExpand tg cap cur presses pc bs 0 vis [] =
      (vis ++ fresh.map (fun e => e.1), fresh) := heq
  rw [hE]
  obtain ⟨hhead, hrest⟩ := List.pairwise_cons.1 hinv.sorted
  have hgap : ∀ e ∈ rest, e.2.1 ≤ presses + 1 := by
    intro e he
    exact hinv.gap e (List.mem_cons_of_mem _ he) (cur, presses, pc) rfl
  have hfv : ∀ e ∈ fresh, e.2.1 = presses + 1 := fun e he => (hprop e he).1
  have hfd : ∀ e ∈ fresh, pDistIs bs tg e.1 (presses + 1) := fun e he => (hprop e he).2.1
  have hfnv : ∀ e ∈ fresh, e.1 ∉ vis := fun e he => (hprop e he).2.2.1
  have hfbox : ∀ e ∈ fresh, inBox tg e.1 := fun e he => (hprop e he).2.2.2.1
  have hfmem : ∀ e ∈ fresh, e.1 ∈ vis ++ fresh.map (fun x => x.1) := by
    intro e he
    exact List.mem_append_right _ (List.mem_map.2 ⟨e, he, rfl⟩)
  refine ⟨⟨?_, ?_, ?_, ?_, ?_, ?_, ?_, ?_, hnd, ?_, ?_, ?_, ?_, ?_, ?_⟩, by simp, hbest⟩
  · -- qvis
    intro e he
    rcases List.mem_append.1 he with h1 | h2
    · exact List.mem_append_left _ (hinv.qvis e (List.mem_cons_of_mem _ h1))
    · exact hfmem e h2
  · -- qexact
    intro e he
    rcases List.mem_append.1 he with h1 | h2
    · exact hinv.qexact e (List.mem_cons_of_mem _ h1)
    · rw [hfv e h2]
      exact hfd e h2
  · -- qpc
    intro e he
    rcases List.mem_append.1 he with h1 | h2
    · exact hinv.qpc e (List.mem_cons_of_mem _ h1)
    · have := hprop e h2
      rw [hfv e h2]
      exact ⟨this.2.2.2.2.1, by rw [this.2.2.2.2.2.1, hpclen]⟩
  · -- qsum
    intro e he
    rcases List.mem_append.1 he with h1 | h2
    · exact hinv.qsum e (List.mem_cons_of_mem _ h1)
    · have := (hprop e h2).2.2.2.2.2.2
      rw [hfv e h2]
      push_cast
      push_cast at this
      omega
  · -- qbox
    intro e he
    rcases List.mem_append.1 he with h1 | h2
    · exact hinv.qbox e (List.mem_cons_of_mem _ h1)
    · exact hfbox e h2
  · -- sorted
    rw [List.pairwise_append]
    refine ⟨hrest, ?_, ?_⟩
    · refine List.pairwise_iff_forall_sublist.2 ?_
      intro a b hab
      have ha := hfv a (hab.subset (List.mem_cons_self a [b]))
      have hb := hfv b (hab.subset (List.mem_cons_of_mem a (List.mem_singleton.2 rfl)))
      omega
    · intro a ha b hb
      have h1 := hgap a ha
      rw [hfv b hb]
      omega
  · -- gap
    intro e he hd hhd
    cases rest with
    | nil =>
      simp only [List.nil_append] at he hhd
      have hdm : hd ∈ fresh := by
        cases fresh with
        | nil => simp at hhd
        | cons x xs =>
          simp at hhd
          rw [← hhd]
          exact List.mem_cons_self x xs
      rw [hfv e he, hfv hd hdm]
      omega
    | cons r0 rest' =>
      simp only [List.cons_append, List.head?_cons, Option.some_inj] at hhd
      have hr0 : presses ≤ r0.2.1 := by
        have := hhead r0 (List.mem_cons_self r0 rest')
        simpa using this
      rcases List.mem_append.1 he with h1 | h2
      · have h3 := hgap e h1
        rw [← hhd]
        omega
      · rw [hfv e h2, ← hhd]
        omega
  · -- visbox
    intro s hs
    rcases List.mem_append.1 hs with h1 | h2
    · exact hinv.visbox s h1
    · obtain ⟨e, he, rfl⟩ := List.mem_map.1 h2
      exact hfbox e he
  · -- complete
    intro _ u j hdj hd hhd hj
    by_cases hjp : j ≤ presses
    · exact List.mem_append_left _ (hcomplete u j hdj hjp)
    · have hdmem : hd ∈ rest ++ fresh := by
        cases hq : rest ++ fresh with
        | nil => rw [hq] at hhd; simp at hhd
        | cons x xs =>
          rw [hq] at hhd
          simp at hhd
          rw [← hhd]
          exact List.mem_cons_self x xs
      have hhd2 : hd.2.1 ≤ presses + 1 := by
        rcases List.mem_append.1 hdmem with h1 | h2
        · exact hgap hd h1
        · rw [hfv hd h2]
      have hj1 : j = presses + 1 := by omega
      rw [hj1] at hdj
      obtain ⟨w, hw, b, hb, hps⟩ := (mem_pStatesAt_succ bs tg u presses).1 hdj.1
      obtain ⟨j2, hj2, hdw⟩ := pDistIs_exists bs tg w presses hw
      have hwv : w ∈ vis := hcomplete w j2 hdw hj2
      rcases hinv.closedness hbest w hwv with ⟨e, he, hew⟩ | hcl
      · rcases List.mem_cons.1 he with heq1 | her
        · have hwc : cur = w := by rw [heq1] at hew; exact hew
          rw [← hwc] at hps
          exact hcov b hb u hps
        · exfalso
          have hev : e.2.1 = j2 := by
            have h5 := hinv.qexact e (List.mem_cons_of_mem _ her)
            rw [hew] at h5
            exact pDistIs_unique bs tg w _ _ h5 hdw
          cases rest with
          | nil => simp at her
          | cons r0 rest' =>
            have hhdr : hd = r0 := by
              simp only [List.cons_append, List.head?_cons, Option.some_inj] at hhd
              exact hhd.symm
            have hr0e : r0.2.1 ≤ e.2.1 := by
              rcases List.mem_cons.1 her with rfl | her2
              · exact le_refl _
              · exact (List.pairwise_cons.1 hrest).1 e her2
            rw [hhdr] at hj
            omega
      · exact List.mem_append_left _ (hcl b hb u hps)
  · -- closedness
    intro _ s hs
    rcases List.mem_append.1 hs with h1 | h2
    · rcases hinv.closedness hbest s h1 with ⟨e, he, hes⟩ | hcl
      · rcases List.mem_cons.1 he with heq1 | her
        · right
          intro b hb s2 hs2
          have hsc : cur = s := by rw [heq1] at hes; exact hes
          rw [← hsc] at hs2
          exact hcov b hb s2 hs2
        · left
          exact ⟨e, List.mem_append_left _ her, hes⟩
      · right
        intro b hb s2 hs2
        exact List.mem_append_left _ (hcl b hb s2 hs2)
    · obtain ⟨e, he, rfl⟩ := List.mem_map.1 h2
      left
      exact ⟨e, List.mem_append_right _ he, rfl⟩
  · -- targetflag
    intro htv
    left
    rcases List.mem_append.1 htv with h1 | h2
    · rcases hinv.targetflag h1 with ⟨e, he, het⟩ | hb
      · rcases List.mem_cons.1 he with heq1 | her
        · exfalso
          apply hne
          rw [heq1] at het
          exact het
        · exact ⟨e, List.mem_append_left _ her, het⟩
      · exact absurd hbest hb
    · obtain ⟨e, he, rfl⟩ := List.mem_map.1 h2
      exact ⟨e, List.mem_append_right _ he, rfl⟩
  · -- bestval
    intro bv hbv
    simp at hbv
  · -- bestle
    intro bv hbv
    simp at hbv
  · -- startvis
    exact List.mem_append_left _ hinv.startvis

theorem bInv_init (bs : List (List Nat)) (tg : List Int) (hnn : ∀ t ∈ tg, 0 ≤ t) :
    BInv bs tg [(List.replicate tg.length 0, 0, List.replicate bs.length 0)]
      [List.replicate tg.length 0] none := by
  have hstart : pDistIs bs tg (List.replicate tg.length 0) 0 := by
    constructor
    · exact List.mem_singleton.2 rfl
    · intro j hj
      exact absurd hj (Nat.not_lt_zero j)
  have hbox : inBox tg (List.replicate tg.length 0) :=
    pStatesAt_box bs tg hnn 0 _ (List.mem_singleton.2 rfl)
  refine ⟨?_, ?_, ?_, ?_, ?_, ?_, ?_, ?_, ?_, ?_, ?_, ?_, ?_, ?_, ?_⟩
  · intro e he
    rw [List.mem_singleton.1 he]
    exact List.mem_singleton.2 rfl
  · intro e he
    rw [List.mem_singleton.1 he]
    exact hstart
  · intro e he
    rw [List.mem_singleton.1 he]
    constructor
    · simp
    · simp
  · intro e he
    rw [List.mem_singleton.1 he]
    simp
  · intro e he
    rw [List.mem_singleton.1 he]
    exact hbox
  · simp
  · intro e he hd hhd
    simp at he hhd
    rw [he, ← hhd]
    omega
  · intro s hs
    rw [List.mem_singleton.1 hs]
    exact hbox
  · simp
  · intro _ u j hdj hd hhd hj
    simp at hhd
    rw [← hhd] at hj
    simp at hj
    rw [hj] at hdj
    have : u ∈ pStatesAt bs tg 0 := hdj.1
    rw [List.mem_singleton.1 this]
    exact List.mem_singleton.2 rfl
  · intro _ s hs
    left
    refine ⟨(List.replicate tg.length 0, 0, List.replicate bs.length 0), ?_, ?_⟩
    · exact List.mem_singleton.2 rfl
    · exact (List.mem_singleton.1 hs).symm
  · intro htv
    left
    refine ⟨(List.replicate tg.length 0, 0, List.replicate bs.length 0), ?_, ?_⟩
    · exact List.mem_singleton.2 rfl
    · exact (List.mem_singleton.1 htv).symm
  · intro bv hbv
    simp at hbv
  · intro bv hbv
    simp at hbv
  · exact List.mem_singleton.2 rfl

theorem bRun_mono (bs : List (List Nat)) (tg : List Int) (cap : Nat) :
    ∀ f f', f ≤ f' → ∀ q vis best r, bRun bs tg cap f q vis best = some r →
      bRun bs tg cap f' q vis best = some r := by
  intro f
  induction f with
  | zero =>
    intro f' _ q vis best r h
    exact absurd h (by simp [bRun])
  | succ f ih =>
    intro f' hff q vis best r h
    cases f' with
    | zero => omega
    | succ f2 =>
      cases q with
      | nil => exact h
      | cons e rest =>
        obtain ⟨cur, presses, pc⟩ := e
        show bRun bs tg cap (f2 + 1) ((cur, presses, pc) :: rest) vis best = some r
        by_cases hc : cur = tg
        · show (if cur = tg then bRun bs tg cap f2 rest vis (minBest best presses)
            else _) = some r
          rw [if_pos hc]
          have h2 : bRun bs tg cap f rest vis (minBest best presses) = some r := by
            show _ = some r
            rw [← h]
            show bRun bs tg cap f rest vis (minBest best presses) =
              (if cur = tg then bRun bs tg cap f rest vis (minBest best presses) else _)
            rw [if_pos hc]
          exact ih f2 (by omega) rest vis _ r h2
        · by_cases hble : bestLe best presses = true
          · show (if cur = tg then _
              else if bestLe best presses then bRun bs tg cap f2 rest vis best
              else _) = some r
            rw [if_neg hc, if_pos hble]
            have h2 : bRun bs tg cap f rest vis best = some r := by
              rw [← h]
              show bRun bs tg cap f rest vis best =
                (if cur = tg then _
                  else if bestLe best presses then bRun bs tg cap f rest vis best else _)
              rw [if_neg hc, if_pos hble]
            exact ih f2 (by omega) rest vis best r h2
          · rw [Bool.not_eq_true] at hble
            show (if cur = tg then _
              else if bestLe best presses then _
              else bRun bs tg cap f2
                (rest ++ (bExpand tg cap cur presses pc bs 0 vis []).2)
                (bExpand tg cap cur presses pc bs 0 vis []).1 best) = some r
            rw [if_neg hc, hble]
            simp only [Bool.false_eq_true, if_false]
            show bRun bs tg cap f2 _ _ _ = some r
            have h2 : bRun bs tg cap f
                (rest ++ (bExpand tg cap cur presses pc bs 0 vis []).2)
                (bExpand tg cap cur presses pc bs 0 vis []).1 best = some r := by
              rw [← h]
              show bRun bs tg cap f _ _ _ =
                (if cur = tg then _
                  else if bestLe best presses then _
                  else bRun bs tg cap f
                    (rest ++ (bExpand tg cap cur presses pc bs 0 vis []).2)
                    (bExpand tg cap cur presses pc bs 0 vis []).1 best)
              rw [if_neg hc, hble]
              simp only [Bool.false_eq_true, if_false]
            exact ih f2 (by omega) _ _ best r h2

theorem bVis_reach (bs : List (List Nat)) (tg : List Int) (vis : List (List Int))
    (best : Option Nat)
    (hinv : BInv bs tg [] vis best) (hbest : best = none) :
    ∀ k, ∀ u ∈ pStatesAt bs tg k, u ∈ vis := by
  intro k
  induction k with
  | zero =>
    intro u hu
    rw [List.mem_singleton.1 hu]
    exact hinv.startvis
  | succ j ih =>
    intro u hu
    obtain ⟨w, hw, b, hb, hps⟩ := (mem_pStatesAt_succ bs tg u j).1 hu
    have hwv : w ∈ vis := ih w hw
    rcases hinv.closedness hbest w hwv with ⟨e, he, _⟩ | hcl
    · simp at he
    · exact hcl b hb u hps

theorem bRun_sound (bs : List (List Nat)) (tg : List Int) (cap : Nat)
    (htgcap : tg.sum < (cap : Int)) :
    ∀ fuel q vis best r, BInv bs tg q vis best →
      bRun bs tg cap fuel q vis best = some r →
      (∃ d, r = Int.ofNat d ∧ pDistIs bs tg tg d) ∨
        (r = -1 ∧ ∀ k, tg ∉ pStatesAt bs tg k) := by
  intro fuel
  induction fuel with
  | zero =>
    intro q vis best r _ h
    exact absurd h (by simp [bRun])
  | succ f ih =>
    intro q vis best r hinv h
    cases q with
    | nil =>
      cases hb : best with
      | some b =>
        rw [hb] at h
        have hr : r = Int.ofNat b := by
          have : bRun bs tg cap (f + 1) [] vis (some b) = some (Int.ofNat b) := rfl
          rw [this] at h
          exact (Option.some_inj.1 h).symm
        exact Or.inl ⟨b, hr, hinv.bestval b hb⟩
      | none =>
        rw [hb] at h
        have hr : r = -1 := by
          have : bRun bs tg cap (f + 1) [] vis none = some (-1) := rfl
          rw [this] at h
          exact (Option.some_inj.1 h).symm
        refine Or.inr ⟨hr, ?_⟩
        intro k hk
        have htv : tg ∈ vis := bVis_reach bs tg vis best hinv hb k tg hk
        rcases hinv.targetflag htv with ⟨e, he, _⟩ | hbn
        · simp at he
        · exact hbn hb
    | cons e rest =>
      obtain ⟨cur, presses, pc⟩ := e
      by_cases hc : cur = tg
      · have h2 : bRun bs tg cap f rest vis (minBest best presses) = some r := by
          rw [← h]
          show bRun bs tg cap f rest vis (minBest best presses) =
            (if cur = tg then bRun bs tg cap f rest vis (minBest best presses) else _)
          rw [if_pos hc]
        exact ih rest vis _ r
          (bInv_pop_target bs tg cur presses pc rest vis best hinv hc) h2
      · by_cases hble : bestLe best presses = true
        · have h2 : bRun bs tg cap f rest vis best = some r := by
            rw [← h]
            show bRun bs tg cap f rest vis best =
              (if cur = tg then _
                else if bestLe best presses then bRun bs tg cap f rest vis best else _)
            rw [if_neg hc, if_pos hble]
          exact ih rest vis best r
            (bInv_pop_skip bs tg cur presses pc rest vis best hinv hble) h2
        · rw [Bool.not_eq_true] at hble
          have h2 : bRun bs tg cap f
              (rest ++ (bExpand tg cap cur presses pc bs 0 vis []).2)
              (bExpand tg cap cur presses pc bs 0 vis []).1 best = some r := by
            rw [← h]
            show bRun bs tg cap f _ _ _ =
              (if cur = tg then _
                else if bestLe best presses then _
                else bRun bs tg cap f
                  (rest ++ (bExpand tg cap cur presses pc bs 0 vis []).2)
                  (bExpand tg cap cur presses pc bs 0 vis []).1 best)
            rw [if_neg hc, hble]
            simp only [Bool.false_eq_true, if_false]
          obtain ⟨hinv2, _, hbn⟩ :=
            bInv_expand bs tg cap cur presses pc rest vis best hinv hc hble htgcap
          rw [hbn] at h2
          have hinv3 := hinv2
          rw [← hbn] at h2
          exact ih _ _ best r (by rw [hbn]; exact hinv2) h2

theorem bRun_total (bs : List (List Nat)) (tg : List Int) (cap : Nat)
    (hnn : ∀ t ∈ tg, 0 ≤ t) (htgcap : tg.sum < (cap : Int)) :
    ∀ mu q vis best, BInv bs tg q vis best →
      q.length + ((boxList tg).length - vis.length) ≤ mu →
      ∃ r, bRun bs tg cap (mu + 1) q vis best = some r := by
  intro mu
  induction mu using Nat.strong_induction_on with
  | _ mu ih =>
  intro q vis best hinv hmu
  cases q with
  | nil => exact ⟨_, rfl⟩
  | cons e rest =>
    obtain ⟨cur, presses, pc⟩ := e
    have hmu1 : 1 ≤ mu := by
      simp at hmu
      omega
    by_cases hc : cur = tg
    · have hinv2 := bInv_pop_target bs tg cur presses pc rest vis best hinv hc
      obtain ⟨r, hr⟩ := ih (mu - 1) (by omega) rest vis (minBest best presses) hinv2
        (by simp at hmu ⊢; omega)
      refine ⟨r, ?_⟩
      show (if cur = tg then bRun bs tg cap mu rest vis (minBest best presses) else _) =
        some r
      rw [if_pos hc]
      rw [show mu = (mu - 1) + 1 by omega]
      exact hr
    · by_cases hble : bestLe best presses = true
      · have hinv2 := bInv_pop_skip bs tg cur presses pc rest vis best hinv hble
        obtain ⟨r, hr⟩ := ih (mu - 1) (by omega) rest vis best hinv2
          (by simp at hmu ⊢; omega)
        refine ⟨r, ?_⟩
        show (if cur = tg then _
          else if bestLe best presses then bRun bs tg cap mu rest vis best else _) = some r
        rw [if_neg hc, if_pos hble]
        rw [show mu = (mu - 1) + 1 by omega]
        exact hr
      · rw [Bool.not_eq_true] at hble
        obtain ⟨hinv2, hveq, hbn⟩ :=
          bInv_expand bs tg cap cur presses pc rest vis best hinv hc hble htgcap
        have hlen1 : (bExpand tg cap cur presses pc bs 0 vis []).1.length =
            vis.length + (bExpand tg cap cur presses pc bs 0 vis []).2.length := by
          rw [hveq]
          simp
        have hlenB : (bExpand tg cap cur presses pc bs 0 vis []).1.length ≤
            (boxList tg).length := by
          refine nodup_box_length_le tg _ hinv2.visnd hnn hinv2.visbox
        have hinv3 : BInv bs tg (rest ++ (bExpand tg cap cur presses pc bs 0 vis []).2)
            (bExpand tg cap cur presses pc bs 0 vis []).1 best := by
          rw [hbn]
          exact hinv2
        obtain ⟨r, hr⟩ := ih (mu - 1) (by omega) _ _ best hinv3 (by
          simp only [List.length_append]
          simp at hmu
          omega)
        refine ⟨r, ?_⟩
        show (if cur = tg then _
          else if bestLe best presses then _
          else bRun bs tg cap mu
            (rest ++ (bExpand tg cap cur presses pc bs 0 vis []).2)
            (bExpand tg cap cur presses pc bs 0 vis []).1 best) = some r
        rw [if_neg hc, hble]
        simp only [Bool.false_eq_true, if_false]
        rw [show mu = (mu - 1) + 1 by omega]
        exact hr

theorem bounded_characterized (bs : List (List Nat)) (tg : List Int) (cap : Nat)
    (hnn : ∀ t ∈ tg, 0 ≤ t) (htgcap : tg.sum < (cap : Int)) :
    ∃ r, (∃ f, solveBounded f bs tg cap = some r) ∧
      ((∃ d, r = Int.ofNat d ∧ pDistIs bs tg tg d) ∨
        (r = -1 ∧ ∀ k, tg ∉ pStatesAt bs tg k)) := by
  have hinv := bInv_init bs tg hnn
  obtain ⟨r, hr⟩ := bRun_total bs tg cap hnn htgcap (1 + (boxList tg).length) _ _ _ hinv
    (by simp)
  refine ⟨r, ⟨1 + (boxList tg).length + 1, hr⟩, ?_⟩
  exact bRun_sound bs tg cap htgcap _ _ _ _ r hinv hr

theorem mlookup_none_key {α β : Type} [DecidableEq α] :
    ∀ (l : List (α × β)) (key : α), mlookup l key = none → key ∉ l.map (fun p => p.1) := by
  intro l
  induction l with
  | nil => intro key _; simp
  | cons p rest ih =>
    intro key h
    by_cases hp : p.1 = key
    · simp [mlookup, hp] at h
    · simp [mlookup, hp] at h
      intro hc
      rw [List.map_cons] at hc
      rcases List.mem_cons.1 hc with h1 | h2
      · exact hp h1.symm
      · exact ih key h h2

theorem pqLt_false_le (x y : Nat × List Int × List Nat) (h : pqLt x y = false) :
    y.1 ≤ x.1 := by
  by_contra hlt
  push_neg at hlt
  rw [pqLt, if_pos hlt] at h
  exact absurd h (by simp)

theorem pqMinOf_cost : ∀ (xs : List (Nat × List Int × List Nat)) (best),
    (pqMinOf best xs).1 ≤ best.1 ∧ ∀ y ∈ xs, (pqMinOf best xs).1 ≤ y.1 := by
  intro xs
  induction xs with
  | nil => intro best; exact ⟨le_refl _, by simp⟩
  | cons x xs2 ih =>
    intro best
    simp only [pqMinOf]
    by_cases hlt : pqLt x best
    · rw [if_pos hlt]
      obtain ⟨h1, h2⟩ := ih x
      have hxb : x.1 ≤ best.1 := by
        by_contra hgt
        push_neg at hgt
        rw [pqLt, if_neg (by omega), if_pos hgt] at hlt
        simp at hlt
      refine ⟨le_trans h1 hxb, ?_⟩
      intro y hy
      rcases List.mem_cons.1 hy with rfl | hy2
      · exact h1
      · exact h2 y hy2
    · rw [if_neg hlt]
      obtain ⟨h1, h2⟩ := ih best
      refine ⟨h1, ?_⟩
      intro y hy
      rcases List.mem_cons.1 hy with rfl | hy2
      · have := pqLt_false_le y best (by simpa using hlt)
        omega
      · exact h2 y hy2

theorem pqMinOf_mem : ∀ (xs : List (Nat × List Int × List Nat)) (best),
    pqMinOf best xs ∈ best :: xs := by
  intro xs
  induction xs with
  | nil => intro best; simp [pqMinOf]
  | cons x xs2 ih =>
    intro best
    simp only [pqMinOf]
    by_cases hlt : pqLt x best
    · rw [if_pos hlt]
      have := ih x
      rcases List.mem_cons.1 this with h1 | h2
      · rw [h1]; simp
      · simp [List.mem_cons_of_mem, h2]
    · rw [if_neg hlt]
      have := ih best
      rcases List.mem_cons.1 this with h1 | h2
      · rw [h1]; simp
      · simp [h2]

theorem removeFirst_length : ∀ (l : List (Nat × List Int × List Nat)) (y), y ∈ l →
    (removeFirst l y).length + 1 = l.length := by
  intro l
  induction l with
  | nil => intro y hy; simp at hy
  | cons x xs ih =>
    intro y hy
    by_cases hxy : x = y
    · show (if x = y then xs else _).length + 1 = _
      rw [if_pos hxy]
      simp
    · show (if x = y then _ else x :: removeFirst xs y).length + 1 = _
      rw [if_neg hxy]
      have hy2 : y ∈ xs := by
        rcases List.mem_cons.1 hy with h1 | h2
        · exact absurd h1.symm hxy
        · exact h2
      simp only [List.length_cons]
      rw [← ih y hy2]

theorem removeFirst_subset : ∀ (l : List (Nat × List Int × List Nat)) (y),
    ∀ z ∈ removeFirst l y, z ∈ l := by
  intro l
  induction l with
  | nil => intro y z hz; simp [removeFirst] at hz
  | cons x xs ih =>
    intro y z hz
    by_cases hxy : x = y
    · rw [show removeFirst (x :: xs) y = if x = y then xs else x :: removeFirst xs y from rfl,
        if_pos hxy] at hz
      exact List.mem_cons_of_mem x hz
    · rw [show removeFirst (x :: xs) y = if x = y then xs else x :: removeFirst xs y from rfl,
        if_neg hxy] at hz
      rcases List.mem_cons.1 hz with h1 | h2
      · rw [h1]; exact List.mem_cons_self x xs
      · exact List.mem_cons_of_mem x (ih y z h2)

theorem removeFirst_missing : ∀ (l : List (Nat × List Int × List Nat)) (y z), z ∈ l →
    z ∉ removeFirst l y → z = y := by
  intro l
  induction l with
  | nil => intro y z hz; simp at hz
  | cons x xs ih =>
    intro y z hz hnz
    by_cases hxy : x = y
    · rw [show removeFirst (x :: xs) y = if x = y then xs else x :: removeFirst xs y from rfl,
        if_pos hxy] at hnz
      rcases List.mem_cons.1 hz with h1 | h2
      · rw [h1, hxy]
      · exact absurd h2 hnz
    · rw [show removeFirst (x :: xs) y = if x = y then xs else x :: removeFirst xs y from rfl,
        if_neg hxy] at hnz
      rcases List.mem_cons.1 hz with h1 | h2
      · exfalso
        exact hnz (by rw [h1]; exact List.mem_cons_self x _)
      · refine ih y z h2 (fun hc => hnz ?_)
        exact List.mem_cons_of_mem x hc

theorem pqPop_none (pq : List (Nat × List Int × List Nat)) :
    pqPop pq = none ↔ pq = [] := by
  cases pq with
  | nil => simp [pqPop]
  | cons x xs => simp [pqPop]

theorem pqPop_spec (pq : List (Nat × List Int × List Nat)) (it rest)
    (h : pqPop pq = some (it, rest)) :
    it ∈ pq ∧ rest.length + 1 = pq.length ∧ (∀ z ∈ rest, z ∈ pq) ∧
      (∀ z ∈ pq, z ∉ rest → z = it) ∧ ∀ y ∈ pq, it.1 ≤ y.1 := by
  cases pq with
  | nil => simp [pqPop] at h
  | cons x xs =>
    simp only [pqPop, Option.some_inj, Prod.mk.injEq] at h
    obtain ⟨h1, h2⟩ := h
    have hit : it = pqMinOf x xs := h1.symm
    have hrest : rest = removeFirst (x :: xs) (pqMinOf x xs) := h2.symm
    have hmem : pqMinOf x xs ∈ x :: xs := pqMinOf_mem xs x
    rw [hit, hrest]
    refine ⟨hmem, removeFirst_length _ _ hmem, removeFirst_subset _ _, ?_, ?_⟩
    · intro z hz hnz
      exact removeFirst_missing _ _ z hz hnz
    · intro y hy
      obtain ⟨h1, h2⟩ := pqMinOf_cost xs x
      rcases List.mem_cons.1 hy with rfl | hy2
      · exact h1
      · exact h2 y hy2

theorem dExpand_spec (bs : List (List Nat)) (tg : List Int) (cap : Nat)
    (st : List Int) (c : Nat) (pc : List Nat)
    (hcur : pDistIs bs tg st c)
    (hbox : inBox tg st)
    (hsum : (c : Int) ≤ st.sum)
    (hpcsum : pc.sum = c)
    (hcap : c < cap)
    (mc0 : List (List Int × Nat))
    (hstmc : mlookup mc0 st = some c)
    (hexact : ∀ s v, mlookup mc0 s = some v → pDistIs bs tg s v)
    (hcomplete : ∀ u j, pDistIs bs tg u j → j ≤ c → mlookup mc0 u ≠ none) :
    ∀ bsl i0 acc,
      (∀ b ∈ bsl, b ∈ bs) →
      i0 + bsl.length ≤ pc.length →
      (∀ e ∈ acc, e.1 = c + 1 ∧ pDistIs bs tg e.2.1 (c + 1) ∧
        mlookup mc0 e.2.1 = none ∧ inBox tg e.2.1 ∧ e.2.2.sum = c + 1 ∧
        e.2.2.length = pc.length ∧ ((c : Int) + 1) ≤ e.2.1.sum) →
      ((mc0 ++ acc.map (fun e => (e.2.1, e.1))).map (fun p => p.1)).Nodup →
      ∃ fresh,
        dExpand tg cap st c pc bsl i0 (mc0 ++ acc.map (fun e => (e.2.1, e.1))) acc =
          (mc0 ++ (acc ++ fresh).map (fun e => (e.2.1, e.1)), acc ++ fresh) ∧
        (∀ e ∈ acc ++ fresh, e.1 = c + 1 ∧ pDistIs bs tg e.2.1 (c + 1) ∧
          mlookup mc0 e.2.1 = none ∧ inBox tg e.2.1 ∧ e.2.2.sum = c + 1 ∧
          e.2.2.length = pc.length ∧ ((c : Int) + 1) ≤ e.2.1.sum) ∧
        ((mc0 ++ (acc ++ fresh).map (fun e => (e.2.1, e.1))).map (fun p => p.1)).Nodup ∧
        (∀ b ∈ bsl, ∀ s2, pressStep tg.length tg b st = some s2 →
          mlookup (mc0 ++ (acc ++ fresh).map (fun e => (e.2.1, e.1))) s2 ≠ none) := by
  intro bsl
  induction bsl with
  | nil =>
    intro i0 acc _ _ hacc hnd
    refine ⟨[], by simp [dExpand], by simpa using hacc, by simpa using hnd, by simp⟩
  | cons b bsl' ih =>
    intro i0 acc hbsl hidx hacc hnd
    have hbm : b ∈ bs := hbsl b (List.mem_cons_self b bsl')
    have hbsl' : ∀ x ∈ bsl', x ∈ bs := fun x hx => hbsl x (List.mem_cons_of_mem b hx)
    have hidx' : i0 + 1 + bsl'.length ≤ pc.length := by
      simp at hidx
      omega
    have hi0 : i0 < pc.length := by
      simp at hidx
      omega
    have hskip : ¬ cap ≤ pc.getD i0 0 := by
      have := getD_le_sum_nat pc i0
      omega
    cases hps : pressStep tg.length tg b st with
    | none =>
      have hstep : dExpand tg cap st c pc (b :: bsl') i0
          (mc0 ++ acc.map (fun e => (e.2.1, e.1))) acc =
          dExpand tg cap st c pc bsl' (i0 + 1)
            (mc0 ++ acc.map (fun e => (e.2.1, e.1))) acc := by
        simp only [dExpand]
        rw [if_neg hskip, hps]
      rw [hstep]
      obtain ⟨fresh, heq, hprop, hnd2, hcov⟩ := ih (i0 + 1) acc hbsl' hidx' hacc hnd
      refine ⟨fresh, heq, hprop, hnd2, ?_⟩
      intro b2 hb2 s2 hs2
      rcases List.mem_cons.1 hb2 with rfl | hb2'
      · rw [hps] at hs2; exact absurd hs2 (by simp)
      · exact hcov b2 hb2' s2 hs2
    | some st2 =>
      cases hlk : mlookup (mc0 ++ acc.map (fun e => (e.2.1, e.1))) st2 with
      | some v =>
        have hnlt : ¬ c + 1 < v := by
          rcases mlookup_append_cases mc0 _ st2 v hlk with h1 | ⟨h1, h2⟩
          · have hdv := hexact st2 v h1
            obtain ⟨j, hj, hdj⟩ := pDist_succ_le bs tg st st2 c hcur b hbm hps
            have : v = j := pDistIs_unique bs tg st2 _ _ hdv hdj
            omega
          · have hm := mlookup_some_mem _ _ _ h2
            obtain ⟨e, he, hee⟩ := List.mem_map.1 hm
            have hv : v = e.1 := by
              have := congrArg Prod.snd hee
              simpa using this.symm
            have := (hacc e he).1
            omega
        have hstep : dExpand tg cap st c pc (b :: bsl') i0
            (mc0 ++ acc.map (fun e => (e.2.1, e.1))) acc =
            dExpand tg cap st c pc bsl' (i0 + 1)
              (mc0 ++ acc.map (fun e => (e.2.1, e.1))) acc := by
          simp only [dExpand]
          rw [if_neg hskip, hps]
          simp only [hlk]
          rw [if_neg hnlt]
        rw [hstep]
        obtain ⟨fresh, heq, hprop, hnd2, hcov⟩ := ih (i0 + 1) acc hbsl' hidx' hacc hnd
        refine ⟨fresh, heq, hprop, hnd2, ?_⟩
        intro b2 hb2 s2 hs2
        rcases List.mem_cons.1 hb2 with rfl | hb2'
        · have hss : st2 = s2 := by rw [hps] at hs2; exact Option.some_inj.1 hs2
          rw [← hss]
          rw [show mc0 ++ (acc ++ fresh).map (fun e => (e.2.1, e.1)) =
            (mc0 ++ acc.map (fun e => (e.2.1, e.1))) ++ fresh.map (fun e => (e.2.1, e.1))
            by rw [List.map_append, List.append_assoc]]
          rw [mlookup_append_some _ _ st2 v hlk]
          simp
        · exact hcov b2 hb2' s2 hs2
      | none =>
        obtain ⟨hmc0n, haccn⟩ := mlookup_append_none_split mc0 _ st2 hlk
        have hdj : pDistIs bs tg st2 (c + 1) := by
          obtain ⟨j, hj, hdj⟩ := pDist_succ_le bs tg st st2 c hcur b hbm hps
          have : j = c + 1 := by
            by_contra hne
            have hjp : j ≤ c := by omega
            exact (hcomplete st2 j hdj hjp) hmc0n
          rw [← this]
          exact hdj
        have hbox2 : inBox tg st2 := pressStep_box tg.length tg rfl b st st2 hps hbox
        have hpc2 : (pc.set i0 (pc.getD i0 0 + 1)).sum = c + 1 := by
          rw [sum_set_nat pc i0 hi0, hpcsum]
        have hpcl2 : (pc.set i0 (pc.getD i0 0 + 1)).length = pc.length := by
          simp
        have hstst2 : st2 ≠ st := by
          intro hc2
          rw [hc2] at hlk
          rw [mlookup_append_some mc0 _ st c hstmc] at hlk
          exact absurd hlk (by simp)
        have hsum2 : ((c : Int) + 1) ≤ st2.sum := by
          obtain ⟨h1, h2⟩ := pressStep_sum tg.length tg b st st2 hps hbox.1
          rcases h2 with rfl | h2
          · exact absurd rfl hstst2
          · omega
        have hmset : mset (mc0 ++ acc.map (fun e => (e.2.1, e.1))) st2 (c + 1) =
            mc0 ++ (acc ++ [(c + 1, st2, pc.set i0 (pc.getD i0 0 + 1))]).map
              (fun e => (e.2.1, e.1)) := by
          rw [mset_absent _ _ _ hlk]
          simp [List.map_append, List.append_assoc]
        have hstep : dExpand tg cap st c pc (b :: bsl') i0
            (mc0 ++ acc.map (fun e => (e.2.1, e.1))) acc =
            dExpand tg cap st c pc bsl' (i0 + 1)
              (mc0 ++ (acc ++ [(c + 1, st2, pc.set i0 (pc.getD i0 0 + 1))]).map
                (fun e => (e.2.1, e.1)))
              (acc ++ [(c + 1, st2, pc.set i0 (pc.getD i0 0 + 1))]) := by
          simp only [dExpand]
          rw [if_neg hskip, hps]
          simp only [hlk]
          rw [hmset]
        rw [hstep]
        have hacc2 : ∀ e ∈ acc ++ [(c + 1, st2, pc.set i0 (pc.getD i0 0 + 1))],
            e.1 = c + 1 ∧ pDistIs bs tg e.2.1 (c + 1) ∧
            mlookup mc0 e.2.1 = none ∧ inBox tg e.2.1 ∧ e.2.2.sum = c + 1 ∧
            e.2.2.length = pc.length ∧ ((c : Int) + 1) ≤ e.2.1.sum := by
          intro e he
          rcases List.mem_append.1 he with h1 | h2
          · exact hacc e h1
          · have he2 : e = (c + 1, st2, pc.set i0 (pc.getD i0 0 + 1)) := by
              simpa using h2
            rw [he2]
            exact ⟨rfl, hdj, hmc0n, hbox2, hpc2, hpcl2, hsum2⟩
        have hnd2 : ((mc0 ++ (acc ++ [(c + 1, st2, pc.set i0 (pc.getD i0 0 + 1))]).map
            (fun e => (e.2.1, e.1))).map (fun p => p.1)).Nodup := by
          have hkey := mlookup_none_key _ st2 hlk
          simp only [List.map_append] at hnd hkey ⊢
          simp only [List.map_cons, List.map_nil]
          rw [← List.append_assoc, List.nodup_append]
          refine ⟨hnd, by simp, ?_⟩
          intro a ha hb
          have hb3 : a = st2 := by simpa using hb
          rw [hb3] at ha
          exact hkey ha
        obtain ⟨fresh', heq, hprop, hnd3, hcov⟩ :=
          ih (i0 + 1) (acc ++ [(c + 1, st2, pc.set i0 (pc.getD i0 0 + 1))])
            hbsl' hidx' hacc2 hnd2
        refine ⟨(c + 1, st2, pc.set i0 (pc.getD i0 0 + 1)) :: fresh', ?_, ?_, ?_, ?_⟩
        · rw [show acc ++ (c + 1, st2, pc.set i0 (pc.getD i0 0 + 1)) :: fresh' =
            (acc ++ [(c + 1, st2, pc.set i0 (pc.getD i0 0 + 1))]) ++ fresh' by simp]
          exact heq
        · intro e he
          apply hprop
          simp at he ⊢
          tauto
        · rw [show acc ++ (c + 1, st2, pc.set i0 (pc.getD i0 0 + 1)) :: fresh' =
            (acc ++ [(c + 1, st2, pc.set i0 (pc.getD i0 0 + 1))]) ++ fresh' by simp]
          exact hnd3
        · intro b2 hb2 s2 hs2
          rcases List.mem_cons.1 hb2 with rfl | hb2'
          · have hss : st2 = s2 := by rw [hps] at hs2; exact Option.some_inj.1 hs2
            rw [← hss]
            rw [mlookup_append_none mc0 _ st2 hmc0n]
            have hin : (st2, c + 1) ∈ (acc ++ (c + 1, st2, pc.set i0
                (pc.getD i0 0 + 1)) :: fresh').map (fun e => (e.2.1, e.1)) := by
              rw [List.mem_map]
              exact ⟨(c + 1, st2, pc.set i0 (pc.getD i0 0 + 1)), by simp, rfl⟩
            have hcval : ∀ x ∈ (acc ++ (c + 1, st2, pc.set i0
                (pc.getD i0 0 + 1)) :: fresh').map (fun e => (e.2.1, e.1)),
                x.2 = c + 1 := by
              intro x hx
              obtain ⟨e, he, hee⟩ := List.mem_map.1 hx
              have h5 : e ∈ acc ++ ((c + 1, st2, pc.set i0 (pc.getD i0 0 + 1)) :: fresh') :=
                he
              have h6 : e.1 = c + 1 := by
                apply (hprop e ?_).1
                simp at h5 ⊢
                tauto
              rw [← hee]
              simpa using h6
            have := mlookup_const_mem (c + 1) _ hcval (st2, c + 1) hin
            simp at this ⊢
            rw [this]
            simp
          · have hc2 := hcov b2 hb2' s2 hs2
            rw [show acc ++ (c + 1, st2, pc.set i0 (pc.getD i0 0 + 1)) :: fresh' =
              (acc ++ [(c + 1, st2, pc.set i0 (pc.getD i0 0 + 1))]) ++ fresh' by simp]
            exact hc2

theorem dInv_step (bs : List (List Nat)) (tg : List Int) (cap : Nat)
    (c : Nat) (st : List Int) (pc : List Nat)
    (pq rest : List (Nat × List Int × List Nat)) (mc : List (List Int × Nat))
    (hinv : DInv bs tg pq mc)
    (hpop : pqPop pq = some ((c, st, pc), rest))
    (hne : st ≠ tg)
    (htgcap : tg.sum < (cap : Int)) :
    mlookup mc st = some c ∧
    DInv bs tg (rest ++ (dExpand tg cap st c pc bs 0 mc []).2)
      (dExpand tg cap st c pc bs 0 mc []).1 ∧
    (dExpand tg cap st c pc bs 0 mc []).1.length =
      mc.length + (dExpand tg cap st c pc bs 0 mc []).2.length := by
  obtain ⟨hmem, hlen, hsub, hmiss, hmin⟩ := pqPop_spec pq _ _ hpop
  have hstmc : mlookup mc st = some c := hinv.pqmc (c, st, pc) hmem
  have hcur : pDistIs bs tg st c := hinv.mcexact st c hstmc
  have hbox : inBox tg st := hinv.mcbox st c hstmc
  have hsum : (c : Int) ≤ st.sum := hinv.pqsum (c, st, pc) hmem
  obtain ⟨hpcsum0, hpclen0⟩ := hinv.pqpcs (c, st, pc) hmem
  have hpcsum : pc.sum = c := hpcsum0
  have hpclen : pc.length = bs.length := hpclen0
  have hcap : c < cap := by
    have h1 : st.sum ≤ tg.sum := box_sum_le tg st hbox
    omega
  have hcomplete : ∀ u j, pDistIs bs tg u j → j ≤ c → mlookup mc u ≠ none := by
    intro u j hdj hjp
    exact hinv.complete u j hdj (c, st, pc) rest hpop hjp
  obtain ⟨fresh, heq, hprop, hnd, hcov⟩ :=
    dExpand_spec bs tg cap st c pc hcur hbox hsum hpcsum hcap mc hstmc hinv.mcexact
      hcomplete bs 0 [] (fun b hb => hb) (by omega) (by simp)
      (by simpa using hinv.mckeynd)
  simp only [List.map_nil, List.append_nil, List.nil_append] at heq hprop hnd hcov
  have hE : dExpand tg cap st c pc bs 0 mc [] =
      (mc ++ fresh.map (fun e => (e.2.1, e.1)), fresh) := heq
  rw [hE]
  refine ⟨hstmc, ?_, by simp⟩
  have hfv : ∀ e ∈ fresh, e.1 = c + 1 := fun e he => (hprop e he).1
  have hfd : ∀ e ∈ fresh, pDistIs bs tg e.2.1 (c + 1) := fun e he => (hprop e he).2.1
  have hfn : ∀ e ∈ fresh, mlookup mc e.2.1 = none := fun e he => (hprop e he).2.2.1
  have hfbox : ∀ e ∈ fresh, inBox tg e.2.1 := fun e he => (hprop e he).2.2.2.1
  have hflk : ∀ e ∈ fresh,
      mlookup (mc ++ fresh.map (fun x => (x.2.1, x.1))) e.2.1 = some (c + 1) := by
    intro e he
    rw [mlookup_append_none mc _ _ (hfn e he)]
    have hcval : ∀ x ∈ fresh.map (fun x => (x.2.1, x.1)), x.2 = c + 1 := by
      intro x hx
      obtain ⟨e2, he2, hee⟩ := List.mem_map.1 hx
      rw [← hee]
      simpa using hfv e2 he2
    have hin : (e.2.1, e.1) ∈ fresh.map (fun x => (x.2.1, x.1)) :=
      List.mem_map.2 ⟨e, he, rfl⟩
    have := mlookup_const_mem (c + 1) _ hcval (e.2.1, e.1) hin
    simpa using this
  have hrest_le : ∀ y ∈ rest, y.1 ≤ c + 1 := by
    intro y hy
    exact hinv.gap2 y (hsub y hy) (c, st, pc) hmem
  have hrest_ge : ∀ y ∈ rest, c ≤ y.1 := fun y hy => hmin y (hsub y hy)
  refine ⟨?_, ?_, ?_, ?_, ?_, ?_, ?_, ?_, ?_, hnd, ?_⟩
  · -- pqmc
    intro e he
    rcases List.mem_append.1 he with h1 | h2
    · exact mlookup_append_some mc _ _ _ (hinv.pqmc e (hsub e h1))
    · rw [hflk e h2, hfv e h2]
  · -- mcexact
    intro s v h
    rcases mlookup_append_cases mc _ s v h with h1 | ⟨h1, h2⟩
    · exact hinv.mcexact s v h1
    · obtain ⟨e, he, hee⟩ := List.mem_map.1 (mlookup_some_mem _ s v h2)
      have hs : e.2.1 = s := by
        have := congrArg Prod.fst hee
        simpa using this
      have hv : e.1 = v := by
        have := congrArg Prod.snd hee
        simpa using this
      rw [← hs, ← hv, hfv e he]
      exact hfd e he
  · -- gap2
    intro x hx y hy
    rcases List.mem_append.1 hx with hx1 | hx2
    · rcases List.mem_append.1 hy with hy1 | hy2
      · exact hinv.gap2 x (hsub x hx1) y (hsub y hy1)
      · have := hrest_le x hx1
        rw [hfv y hy2]
        omega
    · rcases List.mem_append.1 hy with hy1 | hy2
      · rw [hfv x hx2]
        have := hrest_ge y hy1
        omega
      · rw [hfv x hx2, hfv y hy2]
        omega
  · -- complete
    intro u j hdj it' rest'' hpop' hj
    by_cases hjp : j ≤ c
    · have h1 := hcomplete u j hdj hjp
      cases hu : mlookup mc u with
      | none => exact absurd hu h1
      | some w =>
        rw [mlookup_append_some mc _ u w hu]
        simp
    · obtain ⟨hmem', _, _, _, hmin'⟩ := pqPop_spec _ _ _ hpop'
      have hit' : it'.1 ≤ c + 1 := by
        rcases List.mem_append.1 hmem' with h1 | h2
        · exact hrest_le it' h1
        · rw [hfv it' h2]
      have hj1 : j = c + 1 := by omega
      have hminc : c + 1 ≤ it'.1 := by omega
      rw [hj1] at hdj
      obtain ⟨w, hw, b, hb, hps⟩ := (mem_pStatesAt_succ bs tg u c).1 hdj.1
      obtain ⟨j2, hj2, hdw⟩ := pDistIs_exists bs tg w c hw
      have hlw : mlookup mc w ≠ none := hcomplete w j2 hdw hj2
      cases hval : mlookup mc w with
      | none => exact absurd hval hlw
      | some val =>
      have hvj : val = j2 := pDistIs_unique bs tg w _ _ (hinv.mcexact w val hval) hdw
      rcases hinv.closedness w val hval with ⟨e, he, hew⟩ | hcl
      · by_cases her : e ∈ rest
        · exfalso
          have he1 : val = e.1 := by
            have := hinv.pqmc e he
            rw [hew, hval] at this
            exact Option.some_inj.1 this
          have : c + 1 ≤ e.1 := le_trans hminc (hmin' e (List.mem_append_left _ her))
          omega
        · have heq2 : e = (c, st, pc) := hmiss e he her
          have hwst : st = w := by rw [heq2] at hew; exact hew
          rw [← hwst] at hps
          exact hcov b hb u hps
      · have h6 := hcl b hb u hps
        cases hx : mlookup mc u with
        | none => exact absurd hx h6
        | some w2 =>
          rw [mlookup_append_some mc _ u w2 hx]
          simp
  · -- closedness
    intro s v h
    rcases mlookup_append_cases mc _ s v h with h1 | ⟨h1, h2⟩
    · rcases hinv.closedness s v h1 with ⟨e, he, hes⟩ | hcl
      · by_cases her : e ∈ rest
        · left
          exact ⟨e, List.mem_append_left _ her, hes⟩
        · have heq2 : e = (c, st, pc) := hmiss e he her
          right
          intro b hb s2 hs2
          have hsc : st = s := by rw [heq2] at hes; exact hes
          rw [← hsc] at hs2
          exact hcov b hb s2 hs2
      · right
        intro b hb s2 hs2
        have h3 := hcl b hb s2 hs2
        cases hx : mlookup mc s2 with
        | none => exact absurd hx h3
        | some w2 =>
          rw [mlookup_append_some mc _ s2 w2 hx]
          simp
    · obtain ⟨e, he, hee⟩ := List.mem_map.1 (mlookup_some_mem _ s v h2)
      left
      refine ⟨e, List.mem_append_right _ he, ?_⟩
      have := congrArg Prod.fst hee
      simpa using this
  · -- targetq
    intro h
    cases hx : mlookup mc tg with
    | some w =>
      obtain ⟨e, he, het⟩ := hinv.targetq (by rw [hx]; simp)
      by_cases her : e ∈ rest
      · exact ⟨e, List.mem_append_left _ her, het⟩
      · exfalso
        have heq2 : e = (c, st, pc) := hmiss e he her
        apply hne
        rw [heq2] at het
        exact het
    | none =>
      rw [mlookup_append_none mc _ _ hx] at h
      cases hy : mlookup (fresh.map (fun x => (x.2.1, x.1))) tg with
      | none => exact absurd hy h
      | some w =>
        obtain ⟨e, he, hee⟩ := List.mem_map.1 (mlookup_some_mem _ tg w hy)
        refine ⟨e, List.mem_append_right _ he, ?_⟩
        have := congrArg Prod.fst hee
        simpa using this
  · -- pqpcs
    intro e he
    rcases List.mem_append.1 he with h1 | h2
    · exact hinv.pqpcs e (hsub e h1)
    · have hp := hprop e h2
      refine ⟨by rw [hp.2.2.2.2.1, hfv e h2], by rw [hp.2.2.2.2.2.1, hpclen]⟩
  · -- pqsum
    intro e he
    rcases List.mem_append.1 he with h1 | h2
    · exact hinv.pqsum e (hsub e h1)
    · have hp := (hprop e h2).2.2.2.2.2.2
      rw [hfv e h2]
      push_cast at hp ⊢
      omega
  · -- mcbox
    intro s v h
    rcases mlookup_append_cases mc _ s v h with h1 | ⟨h1, h2⟩
    · exact hinv.mcbox s v h1
    · obtain ⟨e, he, hee⟩ := List.mem_map.1 (mlookup_some_mem _ s v h2)
      have hs : e.2.1 = s := by
        have := congrArg Prod.fst hee
        simpa using this
      rw [← hs]
      exact hfbox e he
  · -- startmc
    have := hinv.startmc
    cases hx : mlookup mc (List.replicate tg.length 0) with
    | none => exact absurd hx this
    | some w =>
      rw [mlookup_append_some mc _ _ w hx]
      simp

theorem dMc_reach (bs : List (List Nat)) (tg : List Int) (mc : List (List Int × Nat))
    (hinv : DInv bs tg [] mc) :
    ∀ k, ∀ u ∈ pStatesAt bs tg k, mlookup mc u ≠ none := by
  intro k
  induction k with
  | zero =>
    intro u hu
    rw [List.mem_singleton.1 hu]
    exact hinv.startmc
  | succ j ih =>
    intro u hu
    obtain ⟨w, hw, b, hb, hps⟩ := (mem_pStatesAt_succ bs tg u j).1 hu
    have hwv := ih w hw
    cases hval : mlookup mc w with
    | none => exact absurd hval hwv
    | some v =>
      rcases hinv.closedness w v hval with ⟨e, he, _⟩ | hcl
      · simp at he
      · exact hcl b hb u hps

theorem dInv_init (bs : List (List Nat)) (tg : List Int) (hnn : ∀ t ∈ tg, 0 ≤ t) :
    DInv bs tg [(0, List.replicate tg.length 0, List.replicate bs.length 0)]
      [(List.replicate tg.length 0, 0)] := by
  have hstart : pDistIs bs tg (List.replicate tg.length 0) 0 := by
    constructor
    · exact List.mem_singleton.2 rfl
    · intro j hj
      exact absurd hj (Nat.not_lt_zero j)
  have hbox : inBox tg (List.replicate tg.length 0) :=
    pStatesAt_box bs tg hnn 0 _ (List.mem_singleton.2 rfl)
  refine ⟨?_, ?_, ?_, ?_, ?_, ?_, ?_, ?_, ?_, ?_, ?_⟩
  · intro e he
    rw [List.mem_singleton.1 he]
    simp [mlookup]
  · intro s v h
    simp [mlookup] at h
    rw [← h.1, ← h.2]
    exact hstart
  · intro x hx y hy
    rw [List.mem_singleton.1 hx]
    omega
  · intro u j hdj it rest hpop hj
    have hit : it = (0, List.replicate tg.length 0, List.replicate bs.length 0) := by
      have := (pqPop_spec _ _ _ hpop).1
      exact List.mem_singleton.1 this
    rw [hit] at hj
    have hj0 : j = 0 := by simpa using hj
    rw [hj0] at hdj
    have hu : u = List.replicate tg.length 0 := List.mem_singleton.1 hdj.1
    rw [hu]
    simp [mlookup]
  · intro s v h
    simp [mlookup] at h
    left
    exact ⟨(0, List.replicate tg.length 0, List.replicate bs.length 0),
      List.mem_singleton.2 rfl, h.1⟩
  · intro h
    simp [mlookup] at h
    exact ⟨(0, List.replicate tg.length 0, List.replicate bs.length 0),
      List.mem_singleton.2 rfl, h⟩
  · intro e he
    rw [List.mem_singleton.1 he]
    constructor
    · simp
    · simp
  · intro e he
    rw [List.mem_singleton.1 he]
    simp
  · intro s v h
    simp [mlookup] at h
    rw [← h.1]
    exact hbox
  · simp
  · simp [mlookup]

theorem dRun_sound (bs : List (List Nat)) (tg : List Int) (cap : Nat)
    (htgcap : tg.sum < (cap : Int)) :
    ∀ fuel pq mc r, DInv bs tg pq mc →
      dRun bs tg cap fuel pq mc = some r →
      (∃ d, r = Int.ofNat d ∧ pDistIs bs tg tg d) ∨
        (r = -1 ∧ ∀ k, tg ∉ pStatesAt bs tg k) := by
  intro fuel
  induction fuel with
  | zero =>
    intro pq mc r _ h
    exact absurd h (by simp [dRun])
  | succ f ih =>
    intro pq mc r hinv h
    cases hpq : pqPop pq with
    | none =>
      have hpqe : pq = [] := (pqPop_none pq).1 hpq
      rw [hpqe] at h hinv
      have hr : r = -1 := by
        have hx : dRun bs tg cap (f + 1) [] mc = some (-1) := rfl
        rw [hx] at h
        exact (Option.some_inj.1 h).symm
      refine Or.inr ⟨hr, ?_⟩
      intro k hk
      have htv := dMc_reach bs tg mc hinv k tg hk
      obtain ⟨e, he, _⟩ := hinv.targetq htv
      simp at he
    | some x =>
      obtain ⟨⟨cost, st, pc⟩, rest⟩ := x
      have hstmc : mlookup mc st = some cost := hinv.pqmc (cost, st, pc) (pqPop_spec _ _ _ hpq).1
      simp only [dRun] at h
      rw [hpq] at h
      simp only [lookupOrInsert, hstmc] at h
      rw [if_neg (lt_irrefl cost)] at h
      by_cases hc : st = tg
      · rw [if_pos hc] at h
        have hr : r = Int.ofNat cost := (Option.some_inj.1 h).symm
        rw [hc] at hstmc
        exact Or.inl ⟨cost, hr, hinv.mcexact tg cost hstmc⟩
      · rw [if_neg hc] at h
        obtain ⟨_, hinv2, _⟩ := dInv_step bs tg cap cost st pc pq rest mc hinv hpq hc htgcap
        exact ih _ _ r hinv2 h

theorem dRun_total (bs : List (List Nat)) (tg : List Int) (cap : Nat)
    (hnn : ∀ t ∈ tg, 0 ≤ t) (htgcap : tg.sum < (cap : Int)) :
    ∀ mu pq mc, DInv bs tg pq mc →
      pq.length + ((boxList tg).length - mc.length) ≤ mu →
      ∃ r, dRun bs tg cap (mu + 1) pq mc = some r := by
  intro mu
  induction mu using Nat.strong_induction_on with
  | _ mu ih =>
  intro pq mc hinv hmu
  cases hpq : pqPop pq with
  | none =>
    refine ⟨-1, ?_⟩
    simp only [dRun]
    rw [hpq]
  | some x =>
    obtain ⟨⟨cost, st, pc⟩, rest⟩ := x
    have hspec := pqPop_spec pq _ _ hpq
    have hstmc : mlookup mc st = some cost := hinv.pqmc (cost, st, pc) hspec.1
    have hlenpq : rest.length + 1 = pq.length := hspec.2.1
    by_cases hc : st = tg
    · refine ⟨Int.ofNat cost, ?_⟩
      simp only [dRun]
      rw [hpq]
      simp only [lookupOrInsert, hstmc]
      rw [if_neg (lt_irrefl cost), if_pos hc]
    · obtain ⟨_, hinv2, hlen⟩ := dInv_step bs tg cap cost st pc pq rest mc hinv hpq hc htgcap
      have hkeysbox : ∀ key ∈ ((dExpand tg cap st cost pc bs 0 mc []).1.map (fun p => p.1)),
          inBox tg key := by
        intro key hk
        cases hv : mlookup (dExpand tg cap st cost pc bs 0 mc []).1 key with
        | none => exact absurd hk (mlookup_none_key _ key hv)
        | some v => exact hinv2.mcbox key v hv
      have hB : ((dExpand tg cap st cost pc bs 0 mc []).1.map (fun p => p.1)).length ≤
          (boxList tg).length :=
        nodup_box_length_le tg _ hinv2.mckeynd hnn hkeysbox
      rw [List.length_map] at hB
      have hmu1 : 1 ≤ mu := by omega
      obtain ⟨r, hr⟩ := ih (mu - 1) (by omega) _ _ hinv2 (by
        rw [List.length_append]
        omega)
      refine ⟨r, ?_⟩
      simp only [dRun]
      rw [hpq]
      simp only [lookupOrInsert, hstmc]
      rw [if_neg (lt_irrefl cost), if_neg hc]
      rw [show mu = (mu - 1) + 1 by omega]
      exact hr

theorem dijkstra_characterized (bs : List (List Nat)) (tg : List Int) (cap : Nat)
    (hnn : ∀ t ∈ tg, 0 ≤ t) (htgcap : tg.sum < (cap : Int)) :
    ∃ r, (∃ f, solveDijkstra f bs tg cap = some r) ∧
      ((∃ d, r = Int.ofNat d ∧ pDistIs bs tg tg d) ∨
        (r = -1 ∧ ∀ k, tg ∉ pStatesAt bs tg k)) := by
  have hinv := dInv_init bs tg hnn
  obtain ⟨r, hr⟩ := dRun_total bs tg cap hnn htgcap (1 + (boxList tg).length) _ _ hinv
    (by simp)
  refine ⟨r, ⟨1 + (boxList tg).length + 1, hr⟩, ?_⟩
  exact dRun_sound bs tg cap htgcap _ _ _ r hinv hr

/-- C3 (amended): the claim that the two Day 10 solvers always agree is
true only below the bounded solver's press cap: for every machine with
nonnegative targets summing to at most 49 (so under both caps, 50 and
100), `solve_machine_part2_bounded` and `solve_machine_part2_dijkstra`
return the same value, and that value is the exact minimum number of
presses (or -1 exactly when the target is unreachable under the
per-target pruning). -/
theorem solvers_agree_small (bs : List (List Nat)) (tg : List Int)
    (hnn : ∀ t ∈ tg, 0 ≤ t) (hsmall : tg.sum ≤ 49) :
    ∃ r, (∃ f, solveBounded f bs tg 50 = some r) ∧
      (∃ f2, solveDijkstra f2 bs tg 100 = some r) ∧
      ((∃ d, r = Int.ofNat d ∧ pDistIs bs tg tg d) ∨
        (r = -1 ∧ ∀ k, tg ∉ pStatesAt bs tg k)) := by
  have h50 : tg.sum < ((50 : Nat) : Int) := by push_cast; omega
  have h100 : tg.sum < ((100 : Nat) : Int) := by push_cast; omega
  obtain ⟨r1, ⟨f1, hf1⟩, hc1⟩ := bounded_characterized bs tg 50 hnn h50
  obtain ⟨r2, ⟨f2, hf2⟩, hc2⟩ := dijkstra_characterized bs tg 100 hnn h100
  have hr : r1 = r2 := by
    rcases hc1 with ⟨d1, he1, hd1⟩ | ⟨he1, hu1⟩
    · rcases hc2 with ⟨d2, he2, hd2⟩ | ⟨he2, hu2⟩
      · rw [he1, he2, pDistIs_unique bs tg tg d1 d2 hd1 hd2]
      · exact absurd hd1.1 (hu2 d1)
    · rcases hc2 with ⟨d2, he2, hd2⟩ | ⟨he2, hu2⟩
      · exact absurd hd2.1 (hu1 d2)
      · rw [he1, he2]
  refine ⟨r1, ⟨f1, hf1⟩, ⟨f2, ?_⟩, hc1⟩
  rw [hr]
  exact hf2

/-- Counterexample for C3: on the machine with one button `(0)` and
target `{51}` the bounded solver (cap 50) answers -1 while the Dijkstra
solver (cap 100) answers 51, so the two programs do not agree on every
machine line. -/
theorem solvers_disagree_cx :
    solveBounded 60 [[0]] [51] 50 = some (-1) ∧
    solveDijkstra 60 [[0]] [51] 100 = some 51 ∧
    ((-1 : Int) ≠ 51) := ⟨by decide, by decide, by decide⟩

theorem solvers_agree_small_witness :
    (∀ t ∈ ([3, 1] : List Int), 0 ≤ t) ∧ ([3, 1] : List Int).sum ≤ 49 ∧
    (∃ r, (∃ f, solveBounded f [[0], [0, 1]] [3, 1] 50 = some r) ∧
      (∃ f2, solveDijkstra f2 [[0], [0, 1]] [3, 1] 100 = some r) ∧
      ((∃ d, r = Int.ofNat d ∧ pDistIs [[0], [0, 1]] [3, 1] [3, 1] d) ∨
        (r = -1 ∧ ∀ k, [3, 1] ∉ pStatesAt [[0], [0, 1]] [3, 1] k))) :=
  ⟨by decide, by decide, solvers_agree_small [[0], [0, 1]] [3, 1] (by decide) (by decide)⟩

theorem mlookup_mset {α β : Type} [DecidableEq α] :
    ∀ (l : List (α × β)) (key : α) (v : β) (s : α),
      mlookup (mset l key v) s = if key = s then some v else mlookup l s := by
  intro l
  induction l with
  | nil =>
    intro key v s
    simp [mset, mlookup]
  | cons p rest ih =>
    intro key v s
    obtain ⟨k, w⟩ := p
    by_cases hk : k = key
    · subst hk
      by_cases hs : k = s
      · simp [mset, mlookup, hs]
      · simp [mset, mlookup, hs]
    · simp only [mset, if_neg hk, mlookup, ih]
      by_cases hs1 : key = s
      · by_cases hs2 : k = s
        · exact absurd (hs2.trans hs1.symm) hk
        · rw [if_neg hs2, if_pos hs1, if_pos hs1]
      · by_cases hs2 : k = s
        · rw [if_pos hs2, if_neg hs1, if_pos hs2]
        · simp [hs1, hs2]

theorem bExpand_box (tg : List Int) (cap : Nat) (cur : List Int)
    (presses : Nat) (pc : List Nat) (hcur : inBox tg cur) :
    ∀ (bsl : List (List Nat)) (i : Nat) (vis : List (List Int))
      (acc : List (List Int × Nat × List Nat)),
      (∀ s ∈ vis, inBox tg s) → (∀ e ∈ acc, inBox tg e.1) →
      (∀ s ∈ (bExpand tg cap cur presses pc bsl i vis acc).1, inBox tg s) ∧
      (∀ e ∈ (bExpand tg cap cur presses pc bsl i vis acc).2, inBox tg e.1) := by
  intro bsl
  induction bsl with
  | nil =>
    intro i vis acc hv ha
    exact ⟨hv, ha⟩
  | cons b bsl' ih =>
    intro i vis acc hv ha
    by_cases hcap : cap ≤ pc.getD i 0
    · have hstep : bExpand tg cap cur presses pc (b :: bsl') i vis acc =
          bExpand tg cap cur presses pc bsl' (i + 1) vis acc := by
        simp only [bExpand]
        rw [if_pos hcap]
      rw [hstep]
      exact ih (i + 1) vis acc hv ha
    · cases hps : pressStep tg.length tg b cur with
      | none =>
        have hstep : bExpand tg cap cur presses pc (b :: bsl') i vis acc =
            bExpand tg cap cur presses pc bsl' (i + 1) vis acc := by
          simp only [bExpand, hps]
          rw [if_neg hcap]
        rw [hstep]
        exact ih (i + 1) vis acc hv ha
      | some st2 =>
        have hst2 : inBox tg st2 := pressStep_box tg.length tg rfl b cur st2 hps hcur
        by_cases hmem : st2 ∈ vis
        · have hstep : bExpand tg cap cur presses pc (b :: bsl') i vis acc =
              bExpand tg cap cur presses pc bsl' (i + 1) vis acc := by
            simp only [bExpand, hps]
            rw [if_neg hcap, if_pos hmem]
          rw [hstep]
          exact ih (i + 1) vis acc hv ha
        · have hstep : bExpand tg cap cur presses pc (b :: bsl') i vis acc =
              bExpand tg cap cur presses pc bsl' (i + 1) (vis ++ [st2])
                (acc ++ [(st2, presses + 1, pc.set i (pc.getD i 0 + 1))]) := by
            simp only [bExpand, hps]
            rw [if_neg hcap, if_neg hmem]
          rw [hstep]
          refine ih (i + 1) _ _ ?_ ?_
          · intro s hs
            rcases List.mem_append.1 hs with h1 | h2
            · exact hv s h1
            · rw [List.mem_singleton.1 h2]
              exact hst2
          · intro e he
            rcases List.mem_append.1 he with h1 | h2
            · exact ha e h1
            · rw [List.mem_singleton.1 h2]
              exact hst2

theorem dExpand_box (tg : List Int) (cap : Nat) (cur : List Int)
    (cost : Nat) (pc : List Nat) (hcur : inBox tg cur) :
    ∀ (bsl : List (List Nat)) (i : Nat) (mc : List (List Int × Nat))
      (acc : List (Nat × List Int × List Nat)),
      (∀ s v, mlookup mc s = some v → inBox tg s) → (∀ e ∈ acc, inBox tg e.2.1) →
      (∀ s v, mlookup (dExpand tg cap cur cost pc bsl i mc acc).1 s = some v →
        inBox tg s) ∧
      (∀ e ∈ (dExpand tg cap cur cost pc bsl i mc acc).2, inBox tg e.2.1) := by
  intro bsl
  induction bsl with
  | nil =>
    intro i mc acc hm ha
    exact ⟨hm, ha⟩
  | cons b bsl' ih =>
    intro i mc acc hm ha
    by_cases hcap : cap ≤ pc.getD i 0
    · have hstep : dExpand tg cap cur cost pc (b :: bsl') i mc acc =
          dExpand tg cap cur cost pc bsl' (i + 1) mc acc := by
        simp only [dExpand]
        rw [if_pos hcap]
      rw [hstep]
      exact ih (i + 1) mc acc hm ha
    · cases hps : pressStep tg.length tg b cur with
      | none =>
        have hstep : dExpand tg cap cur cost pc (b :: bsl') i mc acc =
            dExpand tg cap cur cost pc bsl' (i + 1) mc acc := by
          simp only [dExpand, hps]
          rw [if_neg hcap]
        rw [hstep]
        exact ih (i + 1) mc acc hm ha
      | some st2 =>
        have hst2 : inBox tg st2 := pressStep_box tg.length tg rfl b cur st2 hps hcur
        have hmset : ∀ s v, mlookup (mset mc st2 (cost + 1)) s = some v → inBox tg s := by
          intro s v h
          rw [mlookup_mset] at h
          by_cases hs : st2 = s
          · rw [← hs]
            exact hst2
          · rw [if_neg hs] at h
            exact hm s v h
        have hacc : ∀ e ∈ acc ++ [(cost + 1, st2, pc.set i (pc.getD i 0 + 1))],
            inBox tg e.2.1 := by
          intro e he
          rcases List.mem_append.1 he with h1 | h2
          · exact ha e h1
          · rw [List.mem_singleton.1 h2]
            exact hst2
        cases hlk : mlookup mc st2 with
        | none =>
          have hstep : dExpand tg cap cur cost pc (b :: bsl') i mc acc =
              dExpand tg cap cur cost pc bsl' (i + 1) (mset mc st2 (cost + 1))
                (acc ++ [(cost + 1, st2, pc.set i (pc.getD i 0 + 1))]) := by
            simp only [dExpand, hps, hlk]
            rw [if_neg hcap]
          rw [hstep]
          exact ih (i + 1) _ _ hmset hacc
        | some v0 =>
          by_cases hlt : cost + 1 < v0
          · have hstep : dExpand tg cap cur cost pc (b :: bsl') i mc acc =
                dExpand tg cap cur cost pc bsl' (i + 1) (mset mc st2 (cost + 1))
                  (acc ++ [(cost + 1, st2, pc.set i (pc.getD i 0 + 1))]) := by
              simp only [dExpand, hps, hlk]
              rw [if_neg hcap, if_pos hlt]
            rw [hstep]
            exact ih (i + 1) _ _ hmset hacc
          · have hstep : dExpand tg cap cur cost pc (b :: bsl') i mc acc =
                dExpand tg cap cur cost pc bsl' (i + 1) mc acc := by
              simp only [dExpand, hps, hlk]
              rw [if_neg hcap, if_neg hlt]
            rw [hstep]
            exact ih (i + 1) mc acc hm ha

theorem bReach_box (bs : List (List Nat)) (tg : List Int) (cap : Nat)
    (hnn : ∀ t ∈ tg, 0 ≤ t) :
    ∀ q vis best, bReach bs tg cap q vis best →
      (∀ e ∈ q, inBox tg e.1) ∧ (∀ s ∈ vis, inBox tg s) := by
  intro q vis best h
  have hbox0 : inBox tg (List.replicate tg.length 0) :=
    pStatesAt_box bs tg hnn 0 _ (List.mem_singleton.2 rfl)
  induction h with
  | init =>
    constructor
    · intro e he
      rw [List.mem_singleton.1 he]
      exact hbox0
    · intro s hs
      rw [List.mem_singleton.1 hs]
      exact hbox0
  | popTarget cur presses pc rest vis' best' hr hc ih =>
    exact ⟨fun e he => ih.1 e (List.mem_cons.2 (Or.inr he)), ih.2⟩
  | popSkip cur presses pc rest vis' best' hr hb ih =>
    exact ⟨fun e he => ih.1 e (List.mem_cons.2 (Or.inr he)), ih.2⟩
  | popExpand cur presses pc rest vis' best' hr hc hb ih =>
    have hcur : inBox tg cur := ih.1 (cur, presses, pc) (List.mem_cons.2 (Or.inl rfl))
    obtain ⟨h1, h2⟩ := bExpand_box tg cap cur presses pc hcur bs 0 vis' [] ih.2 (by simp)
    constructor
    · intro e he
      rcases List.mem_append.1 he with hh | hh
      · exact ih.1 e (List.mem_cons.2 (Or.inr hh))
      · exact h2 e hh
    · exact h1

theorem dReach_box (bs : List (List Nat)) (tg : List Int) (cap : Nat)
    (hnn : ∀ t ∈ tg, 0 ≤ t) :
    ∀ pq mc, dReach bs tg cap pq mc →
      (∀ e ∈ pq, inBox tg e.2.1) ∧ (∀ s v, mlookup mc s = some v → inBox tg s) := by
  intro pq mc h
  have hbox0 : inBox tg (List.replicate tg.length 0) :=
    pStatesAt_box bs tg hnn 0 _ (List.mem_singleton.2 rfl)
  induction h with
  | init =>
    constructor
    · intro e he
      rw [List.mem_singleton.1 he]
      exact hbox0
    · intro s v hv
      simp [mlookup] at hv
      rw [← hv.1]
      exact hbox0
  | popStale cost st pc pq' rest mc' hr hpop hlt ih =>
    have hsub := (pqPop_spec pq' _ _ hpop).2.2.1
    have hst : inBox tg st := ih.1 (cost, st, pc) (pqPop_spec pq' _ _ hpop).1
    constructor
    · intro e he
      exact ih.1 e (hsub e he)
    · intro s v hv
      simp only [lookupOrInsert] at hv
      cases hlk : mlookup mc' st with
      | some w =>
        rw [hlk] at hv
        exact ih.2 s v hv
      | none =>
        rw [hlk] at hv
        rcases mlookup_append_cases mc' _ s v hv with h1 | ⟨h1, h2⟩
        · exact ih.2 s v h1
        · simp [mlookup] at h2
          rw [← h2.1]
          exact hst
  | popExpand cost st pc pq' rest mc' hr hpop hlt hne ih =>
    have hsub := (pqPop_spec pq' _ _ hpop).2.2.1
    have hst : inBox tg st := ih.1 (cost, st, pc) (pqPop_spec pq' _ _ hpop).1
    have hmc2 : ∀ s v, mlookup (lookupOrInsert mc' st).2 s = some v → inBox tg s := by
      intro s v hv
      simp only [lookupOrInsert] at hv
      cases hlk : mlookup mc' st with
      | some w =>
        rw [hlk] at hv
        exact ih.2 s v hv
      | none =>
        rw [hlk] at hv
        rcases mlookup_append_cases mc' _ s v hv with h1 | ⟨h1, h2⟩
        · exact ih.2 s v h1
        · simp [mlookup] at h2
          rw [← h2.1]
          exact hst
    obtain ⟨h1, h2⟩ := dExpand_box tg cap st cost pc hst bs 0
      (lookupOrInsert mc' st).2 [] hmc2 (by simp)
    constructor
    · intro e he
      rcases List.mem_append.1 he with hh | hh
      · exact ih.1 e (hsub e hh)
      · exact h2 e hh
    · exact h1

/-- C9 (amended): provided every target is nonnegative, every state in
any configuration either Day 10 solver can reach (BFS queue and visited
set; Dijkstra priority queue and min_cost map) satisfies
0 <= state[i] <= targets[i] for all i. Without that proviso the claim
fails at the very first insertion (see the counterexample). -/
theorem day10_search_states_in_box (bs : List (List Nat)) (tg : List Int)
    (cap1 cap2 : Nat) (hnn : ∀ t ∈ tg, 0 ≤ t) :
    (∀ q vis best, bReach bs tg cap1 q vis best →
      (∀ e ∈ q, inBox tg e.1) ∧ (∀ s ∈ vis, inBox tg s)) ∧
    (∀ pq mc, dReach bs tg cap2 pq mc →
      (∀ e ∈ pq, inBox tg e.2.1) ∧ (∀ s v, mlookup mc s = some v → inBox tg s)) :=
  ⟨bReach_box bs tg cap1 hnn, dReach_box bs tg cap2 hnn⟩

/-- Counterexample for C9: with target vector {-1} both solvers insert
the start state [0] into their structures (visited set / min_cost map)
at initialisation, and 0 <= state[0] <= targets[0] is already false. -/
theorem day10_box_violated_cx :
    bReach [[0]] [-1] 50 [(List.replicate 1 0, 0, List.replicate 1 0)]
      [List.replicate 1 0] none ∧
    List.replicate 1 0 ∈ [List.replicate 1 0] ∧
    ¬ inBox [-1] (List.replicate 1 0) ∧
    dReach [[0]] [-1] 100
      [(0, List.replicate 1 0, List.replicate 1 0)] [(List.replicate 1 0, 0)] ∧
    mlookup [(List.replicate 1 0, 0)] (List.replicate 1 0) = some 0 :=
  ⟨bReach.init, by decide, by decide, dReach.init, by decide⟩

theorem day10_search_states_in_box_witness :
    (∀ t ∈ ([2] : List Int), 0 ≤ t) ∧ inBox [2] (List.replicate 1 0) :=
  ⟨by decide,
    ((day10_search_states_in_box [[0]] [2] 50 100 (by decide)).1 _ _ _ bReach.init).2
      (List.replicate 1 0) (List.mem_singleton.2 rfl)⟩

-- ===== C4 theorems =====

/-- Counterexample for C4: for the documented example polygon the red
tiles (2,3) and (2,5) span a degenerate 1x3 rectangle lying on the
polygon's left edge; every boundary tile is red or on the boundary so
`isRectangleValid` accepts it, yet the fast check's ray cast from
y = 3.5 crosses the edges at x = 2 and x = 11 (an even count) and
rejects the pair. -/
theorem fast_brute_pair_cx :
    fastPairAccepted (sortByKey (vEdges exampleReds)) (sortByKey (hEdges exampleReds))
      (2, 3) (2, 5) = false ∧
    isRectangleValid 2 3 2 5 exampleReds = true ∧
    (2, 3) ∈ exampleReds ∧ (2, 5) ∈ exampleReds :=
  ⟨by decide, by decide, by decide, by decide⟩

/-- C4 (amended): the claimed per-pair equivalence of the fast check and
the brute-force `isRectangleValid` is false (see the counterexample),
but on the documented 8-point example polygon the two programs do
compute the same maximum rectangle area, 24. -/
theorem fast_brute_example_max :
    solution2Max exampleReds = 24 ∧ bruteMax exampleReds = 24 :=
  ⟨by decide, by decide⟩

-- ===== C6 theorems =====

theorem runDay10With_exit (solver : List (List Nat) → List Int → Option Int)
    (argv : List String) (fs : String → Option (List String)) (r : RunResult)
    (h : runDay10With solver argv fs = some r) :
    r.exitCode = if fs (day10Filename argv) = none then 1 else 0 := by
  cases hfs : fs (day10Filename argv) with
  | none =>
    simp only [runDay10With, hfs] at h
    rw [if_pos rfl]
    rw [← Option.some_inj.1 h]
  | some lines =>
    simp only [runDay10With, hfs] at h
    cases hgo : day10ProcessGo solver lines ([], 0, 0) with
    | none =>
      rw [hgo] at h
      exact absurd h (by simp)
    | some acc =>
      rw [hgo] at h
      rw [if_neg (by simp)]
      rw [← Option.some_inj.1 h]

/-- C6 (amended): the exit-code rule "1 on open failure, otherwise 0"
holds for the fixed-filename programs, but the Day 9 BFS `main` also
exits 1 when no argument is given (see the counterexample), even though
no file open was attempted: for each embedded `main`, the exit code is 1
exactly on open failure or (for that program) a missing argument, and 0
otherwise. -/
theorem exit_codes_characterized :
    (∀ lines, (runDay9Pair (some lines)).exitCode = 0) ∧
    ((runDay9Pair none).exitCode = 1 ∧ (runDay9Pair none).err ≠ []) ∧
    (∀ lines, (runSolution2 (some lines)).exitCode = 0) ∧
    ((runSolution2 none).exitCode = 1 ∧ (runSolution2 none).err ≠ []) ∧
    runTestExample.exitCode = 0 ∧
    (∀ fuel argv fs r, runDay9Bfs fuel argv fs = some r →
      r.exitCode = if argv.length < 2 ∨ fs (argv.getD 1 "") = none then 1 else 0) ∧
    (∀ fuel argv fs r, runDay10Part2 fuel argv fs = some r →
      r.exitCode = if fs (day10Filename argv) = none then 1 else 0) ∧
    (∀ fuel argv fs r, runDay10Dijkstra fuel argv fs = some r →
      r.exitCode = if fs (day10Filename argv) = none then 1 else 0) := by
  refine ⟨?_, ⟨rfl, by simp [runDay9Pair]⟩, ?_, ⟨rfl, by simp [runSolution2]⟩, rfl,
    ?_, ?_, ?_⟩
  · intro lines
    rfl
  · intro lines
    simp only [runSolution2]
    split <;> rfl
  · intro fuel argv fs r h
    by_cases hargv : argv.length < 2
    · simp only [runDay9Bfs, if_pos hargv] at h
      rw [if_pos (Or.inl hargv)]
      rw [← Option.some_inj.1 h]
    · simp only [runDay9Bfs, if_neg hargv] at h
      cases hfs : fs (argv.getD 1 "") with
      | none =>
        simp only [hfs] at h
        rw [if_pos (Or.inr rfl)]
        rw [← Option.some_inj.1 h]
      | some lines =>
        simp only [hfs] at h
        cases hgo : day9BfsGo fuel (lines.filterMap day9MachineOfLine) 0 [] with
        | none =>
          simp only [hgo] at h
          exact absurd h (by simp)
        | some r2 =>
          simp only [hgo] at h
          rw [if_neg (by simp [hargv])]
          rw [← Option.some_inj.1 h]
  · intro fuel argv fs r h
    exact runDay10With_exit _ argv fs r h
  · intro fuel argv fs r h
    exact runDay10With_exit _ argv fs r h

/-- Counterexample for C6: with an empty argument list and a file system
on which every open succeeds, the Day 9 BFS `main` still prints a usage
message and exits 1, though its input file could have been opened. -/
theorem day9bfs_usage_cx :
    runDay9Bfs 1 ["prog"] (fun _ => some []) = some ⟨1, [], ["Usage: prog input.txt"]⟩ ∧
    (∀ f, (fun _ : String => some ([] : List String)) f ≠ none) ∧ (1 : Nat) ≠ 0 :=
  ⟨rfl, fun f => by simp, by decide⟩

theorem exit_codes_witness :
    runDay10Part2 1 [] (fun _ => some []) =
      some ⟨0, ["Total minimum presses: 0", "Processed 0 machines"], []⟩ ∧
    (⟨0, ["Total minimum presses: 0", "Processed 0 machines"], []⟩ : RunResult).exitCode =
      if (fun _ : String => some ([] : List String)) (day10Filename []) = none then 1
      else 0 :=
  ⟨rfl, exit_codes_characterized.2.2.2.2.2.2.1 1 [] (fun _ => some []) _ rfl⟩

-- ===== C7 theorems =====

theorem filterMap_filter_isSome {α β : Type} (f : α → Option β) :
    ∀ l : List α, (l.filter (fun a => (f a).isSome)).filterMap f = l.filterMap f := by
  intro l
  induction l with
  | nil => rfl
  | cons a rest ih =>
    cases hfa : f a with
    | none => simp [List.filter, List.filterMap_cons, hfa, ih]
    | some b => simp [List.filter, List.filterMap_cons, hfa, ih]

theorem flatMap_filter_ne_nil {α β : Type} (g : α → List β) :
    ∀ l : List α, (l.filter (fun a => !(g a).isEmpty)).flatMap g = l.flatMap g := by
  intro l
  induction l with
  | nil => rfl
  | cons a rest ih =>
    cases hga : g a with
    | nil => simp [List.filter, hga, ih]
    | cons b bs => simp [List.filter, hga, ih]

/-- C7 (amended): for the Day 9 pair program a malformed line really is
skipped (with a warning) and the printed answer equals the answer on the
well-formed lines alone; for `solution2.cpp` only a line yielding no
leading `x y` pairs is silently ignored - a malformed line whose prefix
does parse contributes those pairs (see the counterexample). -/
theorem malformed_lines_filtered (lines : List String) :
    (runDay9Pair (some lines)).out =
      (runDay9Pair (some (lines.filter (fun l => (day9ParseLine l).isSome)))).out ∧
    runSolution2 (some lines) =
      runSolution2 (some (lines.filter
        (fun l => !(readPairs (commaToSpace l)).isEmpty))) := by
  constructor
  · simp only [runDay9Pair]
    rw [filterMap_filter_isSome day9ParseLine lines]
  · simp only [runSolution2]
    rw [flatMap_filter_ne_nil (fun l => readPairs (commaToSpace l)) lines]

/-- Counterexample for C7: the line "0,0 0,2 2,2 2,0 9" is malformed (9
integers cannot form whole pairs), yet `solution2.cpp` keeps its four
leading pairs and prints area 9, whereas on the input with the malformed
line removed it prints "Not enough points to form a polygon.". -/
theorem solution2_malformed_cx :
    runSolution2 (some ["0,0 0,2 2,2 2,0 9"]) =
      ⟨0, ["Part 2 Largest Area: 9"], []⟩ ∧
    runSolution2 (some []) = ⟨0, ["Not enough points to form a polygon."], []⟩ ∧
    (wsTokens (commaToSpace "0,0 0,2 2,2 2,0 9")).length = 9 ∧
    (⟨0, ["Part 2 Largest Area: 9"], []⟩ : RunResult) ≠
      ⟨0, ["Not enough points to form a polygon."], []⟩ :=
  ⟨by decide, by decide, by decide, by decide⟩

-- ===== C8 theorems =====

theorem runDay10With_out (solver : List (List Nat) → List Int → Option Int)
    (argv : List String) (fs : String → Option (List String)) (lines : List String)
    (r : RunResult) (hfs : fs (day10Filename argv) = some lines)
    (h : runDay10With solver argv fs = some r) :
    ∃ (pre : List String) (t : Int) (c : Nat),
      r.out = pre ++ ["Total minimum presses: " ++ toString t,
      "Processed " ++ toString c ++ " machines"] := by
  simp only [runDay10With, hfs] at h
  cases hgo : day10ProcessGo solver lines ([], 0, 0) with
  | none =>
    rw [hgo] at h
    exact absurd h (by simp)
  | some acc =>
    rw [hgo] at h
    refine ⟨acc.1, acc.2.1, acc.2.2, ?_⟩
    rw [← Option.some_inj.1 h]

/-- C8 (amended): only the Day 9 pair program prints a bare integer as
its whole standard output; the Day 10 programs always end their output
with the two labelled summary lines (and per-machine labelled lines
before them), so their output is not one or two integers (see the
counterexample). -/
theorem day9pair_int_day10_labelled :
    (∀ lines, ∃ n : Int, (runDay9Pair (some lines)).out = [toString n]) ∧
    (∀ fuel argv fs lines r, fs (day10Filename argv) = some lines →
      runDay10Part2 fuel argv fs = some r →
      ∃ (pre : List String) (t : Int) (c : Nat),
        r.out = pre ++ ["Total minimum presses: " ++ toString t,
        "Processed " ++ toString c ++ " machines"]) ∧
    (∀ fuel argv fs lines r, fs (day10Filename argv) = some lines →
      runDay10Dijkstra fuel argv fs = some r →
      ∃ (pre : List String) (t : Int) (c : Nat),
        r.out = pre ++ ["Total minimum presses: " ++ toString t,
        "Processed " ++ toString c ++ " machines"]) := by
  refine ⟨?_, ?_, ?_⟩
  · intro lines
    exact ⟨pairMaxArea (lines.filterMap day9ParseLine), rfl⟩
  · intro fuel argv fs lines r hfs h
    exact runDay10With_out _ argv fs lines r hfs h
  · intro fuel argv fs lines r hfs h
    exact runDay10With_out _ argv fs lines r hfs h

/-- Counterexample for C8: a successful Day 10 run on one ordinary
machine line prints three labelled lines, which are neither one nor two
lines nor bare integers. -/
theorem day10_labelled_cx :
    runDay10Part2 60 [] (fun _ => some ["(0) \x7b2\x7d"]) =
      some ⟨0, ["Machine 1 counters, 1 buttons: 2 presses",
        "Total minimum presses: 2", "Processed 1 machines"], []⟩ ∧
    ¬ specOneOrTwoIntegers ["Machine 1 counters, 1 buttons: 2 presses",
      "Total minimum presses: 2", "Processed 1 machines"] :=
  ⟨by decide, by decide⟩

theorem day10_labelled_witness :
    ((fun _ : String => some ([] : List String)) (day10Filename []) = some []) ∧
    runDay10Part2 1 [] (fun _ => some []) =
      some ⟨0, ["Total minimum presses: 0", "Processed 0 machines"], []⟩ ∧
    (∃ (pre : List String) (t : Int) (c : Nat),
      (⟨0, ["Total minimum presses: 0", "Processed 0 machines"], []⟩ :
        RunResult).out = pre ++ ["Total minimum presses: " ++ toString t,
      "Processed " ++ toString c ++ " machines"]) :=
  ⟨rfl, rfl, day9pair_int_day10_labelled.2.1 1 [] (fun _ => some []) [] _ rfl rfl⟩
